import Mathlib

/-!
# Verification of the OpenFAM 256-way radix tree (`src/src/metadata/radixtree/radix_tree.cc`)

This file gives a shallow embedding of the radix tree implemented in
`radix_tree.cc` and proves/refutes the frozen claims about it.

Embedding conventions:

* The tree lives in shared memory addressed by 64-bit global pointers
  (`Gptr`); we model memory as an association list `List (Gptr × Node)`
  together with an allocation frontier `next`.  `Gptr` and tags are `Nat`
  (the 64-bit counters never wrap in any behaviour the claims quantify
  over; overflow of the monotone tag counter is out of scope).
* Keys are byte strings: `List Nat` with entries `< 256`.  The C `char`
  buffers are read through `List.getD` exactly where the source indexes
  them; where the source indexes a caller buffer out of range
  (an out-of-bounds read, undefined behaviour in C) the embedding
  returns `Except.error .oobRead`, and where the source casts a `char`
  the embedding applies the corresponding conversion (`ucast` for
  `(unsigned char)`, `sextU64` for the bare `(uint64_t)` cast of a
  signed `char`).
* The embedding is sequential: there is a single mutator, so every
  `fam_atomic` compare-and-swap whose expected value was just loaded from
  the same (unchanged) state succeeds.  Consequently the CAS retry loops
  of `put`/`destroy`/`putC`/`destroyC` execute exactly one iteration, and
  the outer restart loop of `put`/`putC` runs its body once; the
  embedding writes the successful iteration directly.  `fam_persist` /
  `fam_invalidate` are no-ops for a sequential interpreter and are
  dropped.
* Descent loops are not structurally recursive; they take an explicit
  fuel argument.  `stdFuel = MAX_KEY_LEN + 2` steps suffice for every
  well-formed tree because `prefix_size` strictly increases along child
  edges and is bounded by `MAX_KEY_LEN`.
-/

set_option autoImplicit false
set_option maxRecDepth 10000

namespace FamRadixTree

/-- A byte string: the C `char*`/`std::string` keys, as unsigned byte values. -/
abbrev Key := List Nat

/- A 64-bit global pointer (`Gptr`) is a plain `Nat` in this embedding;
`0` is the null sentinel.  (No abbreviation is introduced: `omega` in this
toolchain does not see through `abbrev`-typed atoms.) -/

/-- Modelled from the spec: `MAX_KEY_LEN` is declared in the missing header
`radix_tree.h`; the spec fixes the repository default at 64. -/
def MAX_KEY_LEN : Nat := 64

/-- Modelled from the spec: `alloc_retry_cnt` is declared in the missing header
`radix_tree.h`; the spec only says it is a small integer bounding per-allocation
retries, so we pick 3.  No claim depends on the exact value. -/
def alloc_retry_cnt : Nat := 3

/-- Modelled from the spec: `OPEN_BOUNDARY_KEY` (with `OPEN_BOUNDARY_KEY_SIZE`)
is declared in the missing header `radix_tree.h`; the spec says it is a single
distinguished reserved byte sequence that callers never insert as a real key.
We model it as the one-byte string `0x00`. -/
def OPEN_BOUNDARY_KEY : Key := [0]

/-- The 128-bit tagged pointer `TagGptr`: a `(gptr, tag)` pair. -/
structure TagGptr where
  gptr : Nat
  tag : Nat
deriving DecidableEq, Repr

/-- `TagGptr::IsValid()`: a tagged pointer is valid iff its `gptr` half is non-null. -/
def TagGptr.IsValid (p : TagGptr) : Bool := p.gptr != 0

/-- The fixed-size trie node (`struct RadixTree::Node`):
`char key[MAX_KEY_LEN]`, `size_t prefix_size`, `Gptr child[256]`, `TagGptr value`.
The child array is modelled as a function from slot index to stored pointer. -/
structure Node where
  key : Key
  prefix_size : Nat
  child : Nat → Nat
  value : TagGptr

/-- The tree: shared memory (allocated nodes), the allocation frontier of the
external heap, and the persistent root pointer. -/
structure Tree where
  mem : List (Nat × Node)
  next : Nat
  root : Nat

/-- Association-list lookup on the node memory (the `Mmgr::GlobalToLocal`
translation: which node a global pointer designates). -/
def memFind : List (Nat × Node) → Nat → Option Node
  | [], _ => none
  | (g', n) :: rest, g => if g = g' then some n else memFind rest g

/-- Look up the node a global pointer designates in tree `t`. -/
def Tree.find (t : Tree) (g : Nat) : Option Node := memFind t.mem g

/-- Error outcomes of the embedded operations. -/
inductive Err where
  /-- descent fuel exhausted (cannot happen on well-formed trees with `stdFuel`) -/
  | fuelOut
  /-- a C `assert` failed -/
  | assertFailed
  /-- `heap->Alloc` returned null on every retry and the null-check `assert` fired -/
  | allocFailed
  /-- the code dereferenced a null slot pointer `p` -/
  | nullDeref
  /-- the code read a caller-supplied buffer or the 256-entry child array out of bounds -/
  | oobRead
  /-- a non-null global pointer did not designate an allocated node (`toLocal` assert) -/
  | corruptTree
deriving DecidableEq, Repr

/-- `toLocal` (`mmgr->GlobalToLocal`) plus its `assert(n)`. -/
def load (t : Tree) (g : Nat) : Except Err Node :=
  match t.find g with
  | some n => .ok n
  | none => .error .corruptTree

/-- The `(unsigned char)` cast applied to key bytes before using them as child
indices.  On byte values (< 256) it is the identity. -/
def ucast (b : Nat) : Nat := b % 256

/-- The bare `(uint64_t)` cast of a signed `char` holding byte value `b`
(radix_tree.cc:641 applies it without the `(unsigned char)` step used
everywhere else): bytes `≥ 0x80` are sign-extended. -/
def sextU64 (b : Nat) : Nat := if b < 128 then b else 2 ^ 64 - 256 + b

/-- The byte-comparison loop of `put`/`putC` (radix_tree.cc:230-233):
the index of the first mismatch of `a` and `b` below `m`, or `m` itself. -/
def firstDiff (a b : Key) : Nat → Nat
  | 0 => 0
  | m + 1 =>
    if a.getD 0 0 = b.getD 0 0 then firstDiff (a.drop 1) (b.drop 1) m + 1 else 0

/-- Modelled from the spec: `fam_memcmp` is declared in the external
`nvmm/fam.h` (not under `src/`); per the spec all key comparisons are
unsigned-byte lexicographic `memcmp` over the given length.  We return the
sign (-1/0/1); the source only tests the sign. -/
def fam_memcmp (a b : Key) : Nat → Int
  | 0 => 0
  | m + 1 =>
    if a.getD 0 0 < b.getD 0 0 then -1
    else if b.getD 0 0 < a.getD 0 0 then 1
    else fam_memcmp (a.drop 1) (b.drop 1) m

/-- `std::string` comparison `operator<` on byte strings (used by `scan`'s
`iter.begin_key < iter.end_key` test): lexicographic with unsigned bytes,
a proper prefix ordered first. -/
def keyLtb : Key → Key → Bool
  | [], [] => false
  | [], _ :: _ => true
  | _ :: _, [] => false
  | a :: as, b :: bs => decide (a < b) || (decide (a = b) && keyLtb as bs)

/-- Overwrite the binding of `g` in the node memory. -/
def memStore : List (Nat × Node) → Nat → Node → List (Nat × Node)
  | [], _, _ => []
  | (g', n') :: rest, g, n =>
    if g' = g then (g', n) :: memStore rest g n else (g', n') :: memStore rest g n

/-- Replace the node stored at `g` (a store through `toLocal` / a successful CAS). -/
def storeNode (t : Tree) (g : Nat) (n : Node) : Tree :=
  { t with mem := memStore t.mem g n }

/-- Publish a freshly heap-allocated node at global pointer `g`.

Modelled from the spec: `heap->Alloc` (the external nvmm heap, not under
`src/`) hands out fresh node-sized blocks; we model the fresh block as
zero-filled, so fields the source never writes before publication — the
child array of a new leaf (radix_tree.cc:315-320) and the `value` slot of the
intermediate node in the two-node split branch (radix_tree.cc:370-390) — read
as null/invalid. -/
def addNode (t : Tree) (g : Nat) (n : Node) : Tree :=
  { t with mem := (g, n) :: t.mem, next := max t.next (g + 1) }

/-- The standard heap allocator for tree `t`: the `i`-th `Alloc` call of an
operation returns the `i`-th fresh pointer past the frontier. -/
def stdA (t : Tree) : Nat → Nat := fun i => t.next + i

/-- The allocation retry loop
`while (ptr == 0 && (cnt--) > 0) ptr = heap->Alloc(sizeof(Node));`
over an allocator `A` (indexed by call number). Returns the pointer obtained
(0 = exhausted) and the next call number. -/
def allocRetry (A : Nat → Nat) (idx : Nat) : Nat → Nat × Nat
  | 0 => (0, idx)
  | cnt + 1 => if A idx ≠ 0 then (A idx, idx + 1) else allocRetry A (idx + 1) cnt

/-- Fuel that suffices for every descent in a well-formed tree:
`prefix_size` strictly increases along child edges and is `≤ MAX_KEY_LEN`. -/
def stdFuel : Nat := MAX_KEY_LEN + 2

/-! ## `get` (radix_tree.cc:401-448) -/

/-- The descent loop of `RadixTree::get`.  At each node: `fam_memcmp` the key
against the node key over the shorter of `prefix_size`/`key_size`; mismatch
returns the invalid `TagGptr()`; a full match at `prefix_size == key_size`
returns the (atomically loaded) value; otherwise follow
`child[(unsigned char)key[prefix_size]]`.  When `prefix_size > key_size` the
source reads `key[prefix_size]` past the caller's buffer; the embedding
reports that as `.oobRead`. -/
def getGo (t : Tree) (key : Key) (q : Nat) : Nat → Except Err TagGptr
  | 0 => .error .fuelOut
  | fuel + 1 =>
    if q = 0 then .ok ⟨0, 0⟩
    else do
      let n ← load t q
      if fam_memcmp key n.key (min n.prefix_size key.length) ≠ 0 then .ok ⟨0, 0⟩
      else if n.prefix_size = key.length then .ok n.value
      else if key.length < n.prefix_size then .error .oobRead
      else getGo t key (n.child (ucast (key.getD n.prefix_size 0))) fuel

/-- `RadixTree::get`, including its `assert(key_size > 0 && key_size <= MAX_KEY_LEN)`. -/
def get (t : Tree) (key : Key) : Except Err TagGptr :=
  if 0 < key.length ∧ key.length ≤ MAX_KEY_LEN then getGo t key t.root stdFuel
  else .error .assertFailed

/-! ## `destroy` (radix_tree.cc:450-493) -/

/-- The descent loop of `RadixTree::destroy`: identical to `get`'s descent;
on the matching node it CAS-replaces the value with `(0, tag+1)` (the retry
loop succeeds at once in the sequential embedding) and returns the prior
tagged value together with the updated tree. -/
def destroyGo (t : Tree) (key : Key) (q : Nat) : Nat → Except Err (Tree × TagGptr)
  | 0 => .error .fuelOut
  | fuel + 1 =>
    if q = 0 then .ok (t, ⟨0, 0⟩)
    else do
      let n ← load t q
      if fam_memcmp key n.key (min n.prefix_size key.length) ≠ 0 then .ok (t, ⟨0, 0⟩)
      else if n.prefix_size = key.length then
        let tq := n.value
        .ok (storeNode t q { n with value := ⟨0, tq.tag + 1⟩ }, tq)
      else if key.length < n.prefix_size then .error .oobRead
      else destroyGo t key (n.child (ucast (key.getD n.prefix_size 0))) fuel

/-- `RadixTree::destroy`, including its key-size assert. -/
def destroy (t : Tree) (key : Key) : Except Err (Tree × TagGptr) :=
  if 0 < key.length ∧ key.length ≤ MAX_KEY_LEN then destroyGo t key t.root stdFuel
  else .error .assertFailed

/-! ## `put` (radix_tree.cc:213-399) -/

/-- Outcome of `put`'s descent (`while (q != 0)` loop, radix_tree.cc:227-305):
either the key terminates at an existing node (`valueAt`), or descent exits at
a null child slot (`leafAt`, case 1), or the key diverges inside a node's
prefix (`splitAt`, case 2, remembering the divergence position and the
existing byte `n->key[i]`).  `p` is the parent slot the final CAS will swing
(`none` = the initial NULL `p`). -/
inductive PutAct where
  | valueAt (g : Nat)
  | leafAt (p : Option (Nat × Nat))
  | splitAt (p : Option (Nat × Nat)) (q : Nat) (i : Nat) (existing : Nat)
deriving DecidableEq, Repr

/-- Whether a `put` descent outcome requires allocating at least one new node. -/
def PutAct.needsAlloc : PutAct → Bool
  | .valueAt _ => false
  | .leafAt _ => true
  | .splitAt _ _ _ _ => true

/-- The shared descent loop of `put` (radix_tree.cc:227-305) and `putC`
(radix_tree.cc:869-925, a verbatim copy of the same loop): compute the first
mismatch index `i` below `min(key_size, prefix_size)`; `i < prefix_size`
forces a split; `key_size == i` terminates at this node's value slot;
otherwise follow `child[(unsigned char)key[i]]`. -/
def putDescend (t : Tree) (key : Key) (p : Option (Nat × Nat)) (q : Nat) :
    Nat → Except Err PutAct
  | 0 => .error .fuelOut
  | fuel + 1 =>
    if q = 0 then .ok (.leafAt p)
    else do
      let n ← load t q
      let i := firstDiff key n.key (min key.length n.prefix_size)
      if i < n.prefix_size then .ok (.splitAt p q i (ucast (n.key.getD i 0)))
      else if key.length = i then .ok (.valueAt q)
      else
        let b := ucast (key.getD i 0)
        putDescend t key (some (q, b)) (n.child b) fuel

/-- A freshly allocated leaf (radix_tree.cc:315-320): the key bytes are
memcpy'd, `prefix_size = key_size`, `value = TagGptr(value, 0)`; the child
array is never written (fresh block, modelled zero-filled). -/
def mkLeaf (key : Key) (v : Nat) : Node :=
  { key := key, prefix_size := key.length, child := fun _ => 0, value := ⟨v, 0⟩ }

/-- Update one slot of a node's child array. -/
def setChild (n : Node) (b c : Nat) : Node :=
  { n with child := fun x => if x = b then c else n.child x }

/-- The intermediate node of the two-node split (radix_tree.cc:347-360,
case `prefix_size == key_size`): the full inserted key is copied, children
are zeroed except the old subtree relinked under byte `existing`,
`prefix_size = i`, and the node holds the new value itself. -/
def interEnd (key : Key) (v : Nat) (i existing q : Nat) : Node :=
  { key := key, prefix_size := i, child := fun x => if x = existing then q else 0,
    value := ⟨v, 0⟩ }

/-- The intermediate node of the three-node split (radix_tree.cc:347-350 and
370-390): the full inserted key is copied, children are zeroed except the new
leaf under byte `key[i]` and the old subtree under byte `existing`,
`prefix_size = i`; the value slot is never written by the source and reads as
the zero-filled fresh block, i.e. invalid. -/
def interMid (key : Key) (i existing q b lp : Nat) : Node :=
  { key := key, prefix_size := i,
    child := fun x => if x = existing then q else if x = b then lp else 0,
    value := ⟨0, 0⟩ }

/-- The final pointer swing `cas64(p, q, new_ptr)` publishing a node into the
parent slot `p` (the CAS succeeds in the sequential embedding).  The source
would dereference a NULL `p` if a split or leaf insertion were ever needed
before `p` is assigned; the embedding reports that as `.nullDeref`. -/
def setSlot (t : Tree) (p : Option (Nat × Nat)) (newp : Nat) : Except Err Tree :=
  match p with
  | none => .error .nullDeref
  | some (g, b) => do
    let n ← load t g
    .ok (storeNode t g (setChild n b newp))

/-- `RadixTree::put` over an explicit heap allocator `A` (call-indexed).

One pass of the source's retry loop, which is the whole sequential behaviour:
the descent (radix_tree.cc:227-305) classifies the insertion point, then

* `valueAt`: load the 128-bit value; with `update` CAS-replace with
  `(value, tag+1)` and return the prior value (radix_tree.cc:269-277);
  without `update` return a valid current value unchanged, otherwise
  CAS-install `(value, tag+1)` (radix_tree.cc:282-292);
* `leafAt` (case 1): allocate+persist a fresh leaf, CAS it into the slot,
  return the invalid `TagGptr()` (radix_tree.cc:309-331);
* `splitAt` (case 2): allocate an intermediate node carrying the full new key
  with `prefix_size = i` and the old subtree under byte `existing`; if
  `i == key_size` it holds the new value itself (radix_tree.cc:353-369),
  else a second fresh leaf is hung under byte `key[i]`
  (radix_tree.cc:370-397; the intermediate's value slot is never written —
  fresh block, modelled zero-filled, hence invalid); CAS the parent slot.

Each allocation site retries `alloc_retry_cnt` times and then hits
`assert(ptr.IsValid())`, embedded as `.error .allocFailed`. -/
def putApply (A : Nat → Nat) (t : Tree) (key : Key) (v : Nat) (update : Bool) :
    PutAct → Except Err (Tree × TagGptr)
  | .valueAt g => do
    let n ← load t g
    let tq := n.value
    if update then
      .ok (storeNode t g { n with value := ⟨v, tq.tag + 1⟩ }, tq)
    else if tq.IsValid then
      .ok (t, tq)
    else
      .ok (storeNode t g { n with value := ⟨v, tq.tag + 1⟩ }, tq)
  | .leafAt p =>
    if (allocRetry A 0 alloc_retry_cnt).1 = 0 then .error .allocFailed
    else do
      let t1 := addNode t ((allocRetry A 0 alloc_retry_cnt).1) (mkLeaf key v)
      let t2 ← setSlot t1 p ((allocRetry A 0 alloc_retry_cnt).1)
      .ok (t2, ⟨0, 0⟩)
  | .splitAt p q i existing =>
    if (allocRetry A 0 alloc_retry_cnt).1 = 0 then .error .allocFailed
    else if i = key.length then do
      let ip := (allocRetry A 0 alloc_retry_cnt).1
      let t1 := addNode t ip (interEnd key v i existing q)
      let t2 ← setSlot t1 p ip
      .ok (t2, ⟨0, 0⟩)
    else
      if (allocRetry A (allocRetry A 0 alloc_retry_cnt).2 alloc_retry_cnt).1 = 0 then
        .error .allocFailed
      else do
        let ip := (allocRetry A 0 alloc_retry_cnt).1
        let lp := (allocRetry A (allocRetry A 0 alloc_retry_cnt).2 alloc_retry_cnt).1
        let t1 := addNode t ip (interMid key i existing q (ucast (key.getD i 0)) lp)
        let t2 := addNode t1 lp (mkLeaf key v)
        let t3 ← setSlot t2 p ip
        .ok (t3, ⟨0, 0⟩)

def put (A : Nat → Nat) (t : Tree) (key : Key) (v : Nat) (update : Bool)
    (fuel : Nat) : Except Err (Tree × TagGptr) :=
  if 0 < key.length ∧ key.length ≤ MAX_KEY_LEN then do
    let act ← putDescend t key none t.root fuel
    putApply A t key v update act
  else .error .assertFailed

/-- The value of the slot `p` designates (`*p`): the root pointer for the
initial NULL `p`, otherwise the parent's child slot. -/
def slotVal (t : Tree) : Option (Nat × Nat) → Except Err Nat
  | none => .ok t.root
  | some (g, b) => do
    let n ← load t g
    .ok (n.child b)

/-- `put` with the standard fresh allocator and standard fuel. -/
def putS (t : Tree) (key : Key) (v : Nat) (update : Bool) : Except Err (Tree × TagGptr) :=
  put (stdA t) t key v update stdFuel

/-- The empty tree built by the constructor with `root == 0`
(radix_tree.cc:76-87): one fresh root node with `prefix_size = 0`, null
children and invalid value.  We place it at global pointer 1. -/
def Tree.empty : Tree :=
  { mem := [(1, { key := [], prefix_size := 0, child := fun _ => 0, value := ⟨0, 0⟩ })],
    next := 2, root := 1 }

/-! ## Well-formedness

The data-model invariants of spec §3 (the spec's "tree state" and
"invariants" paragraphs), as a decidable predicate so concrete trees can be
checked by `decide`.  These are exactly the properties the descent code
relies on: every non-null child pointer designates an allocated node whose
key extends the parent's meaningful prefix by the slot byte and whose
`prefix_size` is strictly larger; key buffers hold bytes and cover
`prefix_size`; allocated pointers are non-null, below the frontier and
unaliased; the root exists with an empty prefix and an invalid value. -/

/-- Invariant of one child slot `b` of node `n` (spec §3 invariant 2). -/
def childOkB (t : Tree) (n : Node) (b : Nat) : Bool :=
  n.child b == 0 ||
    (match t.find (n.child b) with
     | none => false
     | some m =>
       decide (n.prefix_size < m.prefix_size) &&
       decide (∀ j, j < n.prefix_size → m.key.getD j 0 = n.key.getD j 0) &&
       (m.key.getD n.prefix_size 0 == b))

/-- Invariants of a single allocated node. -/
def nodeOkB (t : Tree) (n : Node) : Bool :=
  decide (n.prefix_size ≤ MAX_KEY_LEN) &&
  decide (n.prefix_size ≤ n.key.length) &&
  decide (n.key.length ≤ MAX_KEY_LEN) &&
  n.key.all (fun b => decide (b < 256)) &&
  (List.range 256).all (fun b => childOkB t n b)

/-- The whole-tree well-formedness check. -/
def wf (t : Tree) : Bool :=
  t.mem.all (fun p => nodeOkB t p.2) &&
  t.mem.all (fun p => (p.1 != 0) && decide (p.1 < t.next)) &&
  decide ((t.mem.map Prod.fst).Nodup) &&
  (t.root != 0) &&
  (match t.find t.root with
   | none => false
   | some rn => (rn.prefix_size == 0) && (rn.value.gptr == 0))

/-- Well-formedness as a proposition. -/
def WF (t : Tree) : Prop := wf t = true

/-! ## The scan iterator (radix_tree.h `Iter`, radix_tree.cc:499-850) -/

/-- The resumable scan iterator state (spec §4.5): current node, the
`next_pos` cursor (`0` = inspect the value slot, `1..256` = try child
`next_pos - 1`, `257` = pop), the ancestor stack, the four boundary fields
per side, and the last yielded key/value. -/
structure Iter where
  node : Nat
  next_pos : Nat
  path : List (Nat × Nat)
  begin_key : Key
  begin_key_inclusive : Bool
  begin_key_open : Bool
  end_key : Key
  end_key_inclusive : Bool
  end_key_open : Bool
  key : Key
  value : TagGptr
deriving DecidableEq, Repr

/-- A caller's freshly default-initialized iterator. -/
def Iter.empty : Iter :=
  { node := 0, next_pos := 0, path := [], begin_key := [],
    begin_key_inclusive := false, begin_key_open := false, end_key := [],
    end_key_inclusive := false, end_key_open := false, key := [], value := ⟨0, 0⟩ }

/-- Result of the child-pointer scan loops of `next_value`
(radix_tree.cc:573-591 with bound 256, radix_tree.cc:642-660 with bound
`upper_bound + 1`): the first non-null child slot from `pos - 1` on, or the
loop exit position, or an out-of-bounds read of the 256-entry child array
(possible in the source when `upper_bound` was sign-extended). -/
inductive CSRes where
  | found (b : Nat) (c : Nat)
  | stop (pos : Nat)
  | oob
deriving DecidableEq, Repr

/-- The loop body of `childScan`, structurally recursive on a step budget.
The budget 258 used by `childScan` can never run out: either the loop
condition `pos ≤ ub1` fails, a non-null child is found, or the position
reaches 257 and the guarded out-of-bounds read of `child[256]` stops the
recursion, all within 258 steps from any start position. -/
def childScanGo (n : Node) (ub1 : Nat) : Nat → Nat → CSRes
  | 0, _ => .oob
  | k + 1, pos =>
    if ub1 < pos then .stop pos
    else if 256 ≤ pos - 1 then .oob
    else if n.child (pos - 1) ≠ 0 then .found (pos - 1) (n.child (pos - 1))
    else childScanGo n ub1 k (pos + 1)

/-- `for (; pos <= ub1; pos++) { q = child[pos - 1]; if (q) ... break; }` -/
def childScan (n : Node) (pos ub1 : Nat) : CSRes := childScanGo n ub1 258 pos

/-- `RadixTree::next_value` (radix_tree.cc:499-672): advance the iterator to
the next key that is below the end boundary, yielding `(it', true)` on a hit
and `(it', false)` when the scan is over.  One fuel unit is spent per
iteration of the outer `while (iter.node != 0)` loop and per pop of the
`next_pos == 257` loop. -/
def next_value (t : Tree) (it : Iter) : Nat → Except Err (Iter × Bool)
  | 0 => .error .fuelOut
  | fuel + 1 =>
    if it.node = 0 then .ok (it, false)
    else if it.next_pos = 257 then
      match it.path with
      | [] => .ok (it, false)
      | (par, b) :: rest =>
        next_value t { it with node := par, next_pos := b + 1 + 1, path := rest } fuel
    else do
      let n ← load t it.node
      let ks := it.end_key.length
      let result : Int :=
        if it.end_key_open then 1
        else fam_memcmp it.end_key n.key (min n.prefix_size ks)
      if result < 0 then .ok (it, false)
      else if 0 < result then
        -- every key in this subtree is within the end bound
        if it.next_pos = 0 ∧ n.value.IsValid then
          let it' :=
            { it with
               next_pos := 1
               key := n.key.take n.prefix_size
               value := n.value }
          .ok (it', true)
        else
          let it1 := if it.next_pos = 0 then { it with next_pos := 1 } else it
          match childScan n it1.next_pos 256 with
          | .found b c =>
            next_value t
              { it1 with path := (it1.node, b) :: it1.path, node := c, next_pos := 0 } fuel
          | .stop pos => next_value t { it1 with next_pos := pos } fuel
          | .oob => .error .oobRead
      else
        -- result == 0: the end key agrees with the node key on the common length
        if n.prefix_size = ks then
          if it.end_key_inclusive then
            if it.next_pos = 0 ∧ n.value.IsValid then
              let it' :=
                { it with
                   node := 0
                   key := n.key.take n.prefix_size
                   value := n.value }
              .ok (it', true)
            else .ok ({ it with node := 0 }, false)
          else .ok ({ it with node := 0 }, false)
        else if it.next_pos = 0 ∧ n.value.IsValid then
          let it' :=
            { it with
               next_pos := 1
               key := n.key.take n.prefix_size
               value := n.value }
          .ok (it', true)
        else if ks < n.prefix_size then
          -- `upper_bound = (uint64_t)key[n->prefix_size]` reads past the end key
          .error .oobRead
        else
          let it1 := if it.next_pos = 0 then { it with next_pos := 1 } else it
          let ub := sextU64 (it.end_key.getD n.prefix_size 0)
          match childScan n it1.next_pos (ub + 1) with
          | .found b c =>
            next_value t
              { it1 with path := (it1.node, b) :: it1.path, node := c, next_pos := 0 } fuel
          | .stop pos => .ok ({ it1 with next_pos := pos, node := 0 }, false)
          | .oob => .error .oobRead

/-- The seek loop of `RadixTree::lower_bound` (radix_tree.cc:692-768). -/
def lbGo (t : Tree) (it : Iter) : Nat → Except Err (Iter × Bool)
  | 0 => .error .fuelOut
  | fuel + 1 =>
    if it.node = 0 then .ok (it, false)
    else do
      let n ← load t it.node
      let ks := it.begin_key.length
      let result : Int :=
        if it.begin_key_open then -1
        else fam_memcmp it.begin_key n.key (min n.prefix_size ks)
      if 0 < result then
        -- begin key > node key: this subtree is all below the range; go up
        next_value t { it with next_pos := 257 } fuel
      else if result < 0 then
        -- begin key < node key: this node is the first candidate
        next_value t it fuel
      else
        if n.prefix_size = ks then
          if it.begin_key_inclusive then next_value t it fuel
          else next_value t { it with next_pos := 1 } fuel
        else if ks < n.prefix_size then
          -- `idx = (unsigned char)key[n->prefix_size]` reads past the begin key
          .error .oobRead
        else
          let idx := ucast (it.begin_key.getD n.prefix_size 0)
          let q := n.child idx
          if q ≠ 0 then
            lbGo t { it with path := (it.node, idx) :: it.path, node := q } fuel
          else next_value t { it with next_pos := idx + 1 } fuel

/-- `RadixTree::lower_bound` (radix_tree.cc:678-771), including its
initialization of the iterator and its `assert(iter.key.empty())`. -/
def lower_bound (t : Tree) (it : Iter) (fuel : Nat) : Except Err (Iter × Bool) :=
  if it.key ≠ [] then .error .assertFailed
  else lbGo t { it with node := t.root, next_pos := 0, value := ⟨0, 0⟩ } fuel

/-- `RadixTree::scan` (radix_tree.cc:773-839) on a caller-supplied iterator
`it0`.  Faithful field order: the begin fields are stored and the open-begin
test performed *before* `end_key_inclusive` is overwritten, so the open-begin
test reads `it0`'s stale `end_key_inclusive` (the source's line 796 tests
`iter.end_key_inclusive` where the intent was the begin-side flag).  Returns
the updated iterator and the first `(key, value)` in range, if any. -/
def scan (t : Tree) (it0 : Iter) (bk : Key) (bi : Bool) (ek : Key) (ei : Bool)
    (fuel : Nat) : Except Err (Iter × Option (Key × TagGptr)) :=
  if ¬(0 < bk.length ∧ bk.length ≤ MAX_KEY_LEN ∧
       0 < ek.length ∧ ek.length ≤ MAX_KEY_LEN) then .error .assertFailed
  else
    let it1 :=
      { it0 with
         node := 0
         next_pos := 0
         key := []
         value := ⟨0, 0⟩
         path := [] }
    let it2 := { it1 with begin_key := bk, begin_key_inclusive := bi }
    let it3 := { it2 with
                 begin_key_open := decide (bk = OPEN_BOUNDARY_KEY) &&
                   (it2.end_key_inclusive == false) }
    let it4 := { it3 with end_key := ek, end_key_inclusive := ei }
    let it5 := { it4 with
                 end_key_open := decide (ek = OPEN_BOUNDARY_KEY) && (ei == false) }
    if bk = ek ∧ bi = true ∧ ei = true then
      -- point query fast path: delegate to get
      match get t bk with
      | .error e => .error e
      | .ok val =>
        if val.IsValid then .ok (it5, some (bk, val)) else .ok (it5, none)
    else if it5.begin_key_open = true ∨ it5.end_key_open = true ∨ keyLtb bk ek = true then
      do
        let (it6, found) ← lower_bound t it5 fuel
        if found then .ok (it6, some (it6.key, it6.value)) else .ok (it6, none)
    else .ok (it5, none)

/-- `RadixTree::get_next` (radix_tree.cc:841-850). -/
def get_next (t : Tree) (it : Iter) (fuel : Nat) :
    Except Err (Iter × Option (Key × TagGptr)) := do
  let (it', found) ← next_value t it fuel
  if found then .ok (it', some (it'.key, it'.value)) else .ok (it', none)

/-- Repeatedly call `next_value` (i.e. `get_next`) and collect the yielded
`(key, value)` pairs until the iterator reports no more keys.  `cf` bounds
the number of yields, `nf` is the fuel given to each `next_value` call. -/
def collect (t : Tree) (it : Iter) : Nat → Nat → Except Err (List (Key × TagGptr))
  | 0, _ => .error .fuelOut
  | cf + 1, nf => do
    let (it', found) ← next_value t it nf
    if found then do
      let rest ← collect t it' cf nf
      .ok ((it'.key, it'.value) :: rest)
    else .ok []

/-- A full scan: `scan` with both boundaries open (`OPEN_BOUNDARY_KEY`,
inclusive flags false) on a fresh iterator, followed by repeated `get_next`,
collecting every yielded pair in order. -/
def scanAll (t : Tree) (cf nf : Nat) : Except Err (List (Key × TagGptr)) := do
  let (it, first) ← scan t Iter.empty OPEN_BOUNDARY_KEY false OPEN_BOUNDARY_KEY false nf
  match first with
  | none => .ok []
  | some e => do
    let rest ← collect t it cf nf
    .ok (e :: rest)

/-! ## Cache-coherent variants (radix_tree.cc:852-1192) -/

/-- The descent loop of `RadixTree::getC` (radix_tree.cc:1055-1095): as `get`,
but returning the matched node's global pointer alongside the loaded value
(`(Gptr(), TagGptr())` when the key is absent). -/
def getCGo (t : Tree) (key : Key) (q : Nat) : Nat → Except Err (Nat × TagGptr)
  | 0 => .error .fuelOut
  | fuel + 1 =>
    if q = 0 then .ok (0, ⟨0, 0⟩)
    else do
      let n ← load t q
      if fam_memcmp key n.key (min n.prefix_size key.length) ≠ 0 then .ok (0, ⟨0, 0⟩)
      else if n.prefix_size = key.length then .ok (q, n.value)
      else if key.length < n.prefix_size then .error .oobRead
      else getCGo t key (n.child (ucast (key.getD n.prefix_size 0))) fuel

/-- `RadixTree::getC(key, key_size)`. -/
def getC (t : Tree) (key : Key) : Except Err (Nat × TagGptr) :=
  if 0 < key.length ∧ key.length ≤ MAX_KEY_LEN then getCGo t key t.root stdFuel
  else .error .assertFailed

/-- The descent loop of `RadixTree::destroyC` (radix_tree.cc:1117-1164): as
`destroy`, but returning `(tree', node ptr, new value, old value)`; absent
keys return node pointer 0 and invalid values without mutation. -/
def destroyCGo (t : Tree) (key : Key) (q : Nat) :
    Nat → Except Err (Tree × Nat × TagGptr × TagGptr)
  | 0 => .error .fuelOut
  | fuel + 1 =>
    if q = 0 then .ok (t, 0, ⟨0, 0⟩, ⟨0, 0⟩)
    else do
      let n ← load t q
      if fam_memcmp key n.key (min n.prefix_size key.length) ≠ 0 then
        .ok (t, 0, ⟨0, 0⟩, ⟨0, 0⟩)
      else if n.prefix_size = key.length then
        let tq := n.value
        .ok (storeNode t q { n with value := ⟨0, tq.tag + 1⟩ }, q, ⟨0, tq.tag + 1⟩, tq)
      else if key.length < n.prefix_size then .error .oobRead
      else destroyCGo t key (n.child (ucast (key.getD n.prefix_size 0))) fuel

/-- `RadixTree::destroyC(key, key_size, old_value)`. -/
def destroyC (t : Tree) (key : Key) : Except Err (Tree × Nat × TagGptr × TagGptr) :=
  if 0 < key.length ∧ key.length ≤ MAX_KEY_LEN then destroyCGo t key t.root stdFuel
  else .error .assertFailed

/-- `RadixTree::putC(key, key_size, value, old_value)` (radix_tree.cc:855-1025).
The descent loop is a verbatim copy of `put`'s (so the embedding reuses
`putDescend`); on a key match the value slot is always CAS-replaced with
`(value, tag+1)` (there is no update flag); the insertion cases are those of
`put`, each returning the leaf's global pointer, the new tagged value and the
(invalid) old value. -/
def putCApply (A : Nat → Nat) (t : Tree) (key : Key) (v : Nat) :
    PutAct → Except Err (Tree × Nat × TagGptr × TagGptr)
  | .valueAt g => do
    let n ← load t g
    let tq := n.value
    .ok (storeNode t g { n with value := ⟨v, tq.tag + 1⟩ }, g, ⟨v, tq.tag + 1⟩, tq)
  | .leafAt p =>
    if (allocRetry A 0 alloc_retry_cnt).1 = 0 then .error .allocFailed
    else do
      let lp := (allocRetry A 0 alloc_retry_cnt).1
      let t1 := addNode t lp (mkLeaf key v)
      let t2 ← setSlot t1 p lp
      .ok (t2, lp, ⟨v, 0⟩, ⟨0, 0⟩)
  | .splitAt p q i existing =>
    if (allocRetry A 0 alloc_retry_cnt).1 = 0 then .error .allocFailed
    else if i = key.length then do
      let ip := (allocRetry A 0 alloc_retry_cnt).1
      let t1 := addNode t ip (interEnd key v i existing q)
      let t2 ← setSlot t1 p ip
      .ok (t2, ip, ⟨v, 0⟩, ⟨0, 0⟩)
    else
      if (allocRetry A (allocRetry A 0 alloc_retry_cnt).2 alloc_retry_cnt).1 = 0 then
        .error .allocFailed
      else do
        let ip := (allocRetry A 0 alloc_retry_cnt).1
        let lp := (allocRetry A (allocRetry A 0 alloc_retry_cnt).2 alloc_retry_cnt).1
        let t1 := addNode t ip (interMid key i existing q (ucast (key.getD i 0)) lp)
        let t2 := addNode t1 lp (mkLeaf key v)
        let t3 ← setSlot t2 p ip
        .ok (t3, lp, ⟨v, 0⟩, ⟨0, 0⟩)

def putC (A : Nat → Nat) (t : Tree) (key : Key) (v : Nat) (fuel : Nat) :
    Except Err (Tree × Nat × TagGptr × TagGptr) :=
  if 0 < key.length ∧ key.length ≤ MAX_KEY_LEN then do
    let act ← putDescend t key none t.root fuel
    putCApply A t key v act
  else .error .assertFailed

/-- `putC` with the standard fresh allocator and fuel. -/
def putCS (t : Tree) (key : Key) (v : Nat) : Except Err (Tree × Nat × TagGptr × TagGptr) :=
  putC (stdA t) t key v stdFuel

/-- `RadixTree::putC(Gptr, value, old_value)` (radix_tree.cc:1027-1053): CAS
the value slot of the node the caller already holds. -/
def putCPtr (t : Tree) (key_ptr : Nat) (v : Nat) :
    Except Err (Tree × TagGptr × TagGptr) :=
  if key_ptr = 0 then .error .assertFailed
  else do
    let n ← load t key_ptr
    let tq := n.value
    .ok (storeNode t key_ptr { n with value := ⟨v, tq.tag + 1⟩ }, ⟨v, tq.tag + 1⟩, tq)

/-- `RadixTree::getC(Gptr)` (radix_tree.cc:1097-1115). -/
def getCPtr (t : Tree) (key_ptr : Nat) : Except Err TagGptr :=
  if key_ptr = 0 then .error .assertFailed
  else do
    let n ← load t key_ptr
    .ok n.value

/-- `RadixTree::destroyC(Gptr, old_value)` (radix_tree.cc:1166-1192). -/
def destroyCPtr (t : Tree) (key_ptr : Nat) : Except Err (Tree × TagGptr × TagGptr) :=
  if key_ptr = 0 then .error .assertFailed
  else do
    let n ← load t key_ptr
    let tq := n.value
    .ok (storeNode t key_ptr { n with value := ⟨0, tq.tag + 1⟩ }, ⟨0, tq.tag + 1⟩, tq)

/-! ## Specification-side functions for the range scan

`seF` computes, by structural recursion on a depth fuel, the list of
`(key, value)` pairs a depth-first traversal of the subtree rooted at a node
yields: the node's own entry (when its value is valid) followed by the
entries of children `0..255` in ascending slot order.  `nodeRem`/`pathRem`/
`stateRem` extend this to a partially-consumed iterator state, and
`costF`/`costIter` give the termination measure of `next_value`'s traversal. -/

/-- Concatenate `f` over the child slots in `bs` (in order). -/
def seChildrenWith (f : Nat → Option (List (Key × TagGptr))) (n : Node) :
    List Nat → Option (List (Key × TagGptr))
  | [] => some []
  | b :: bs => do
    let x ← f (n.child b)
    let rest ← seChildrenWith f n bs
    some (x ++ rest)

/-- Depth-first entries of the subtree rooted at `g`, with depth fuel. -/
def seF (t : Tree) : Nat → Nat → Option (List (Key × TagGptr))
  | 0, g => if g = 0 then some [] else none
  | d + 1, g =>
    if g = 0 then some []
    else
      match t.find g with
      | none => none
      | some n => do
        let kids ← seChildrenWith (seF t d) n (List.range 256)
        some ((if n.value.IsValid then [(n.key.take n.prefix_size, n.value)] else []) ++ kids)

/-- Depth fuel sufficient for any well-formed tree. -/
def seDepth : Nat := MAX_KEY_LEN + 2

/-- Sum `f` over the child slots in `bs`. -/
def costChildrenWith (f : Nat → Nat) (n : Node) : List Nat → Nat
  | [] => 0
  | b :: bs => f (n.child b) + costChildrenWith f n bs

/-- Size measure of the subtree at `g` (258 steps per node), with depth fuel. -/
def costF (t : Tree) : Nat → Nat → Nat
  | 0, _ => 0
  | d + 1, g =>
    if g = 0 then 0
    else
      match t.find g with
      | none => 0
      | some n => 258 + costChildrenWith (costF t d) n (List.range 256)

/-- Entries remaining at node `g` when the cursor is at `pos`
(`0` = value still pending, `p ∈ 1..256` = children from slot `p - 1` on,
`257` = exhausted). -/
def nodeRem (t : Tree) (g : Nat) (pos : Nat) : Option (List (Key × TagGptr)) :=
  if g = 0 then some []
  else
    match t.find g with
    | none => none
    | some n => do
      let kids ← seChildrenWith (seF t seDepth) n ((List.range 256).drop (max pos 1 - 1))
      some ((if pos = 0 ∧ n.value.IsValid then [(n.key.take n.prefix_size, n.value)] else [])
        ++ kids)

/-- Entries remaining in the ancestor frames (top of stack first; a frame
`(g, b)` resumes at cursor `b + 2`). -/
def pathRem (t : Tree) : List (Nat × Nat) → Option (List (Key × TagGptr))
  | [] => some []
  | (g, b) :: rest => do
    let x ← nodeRem t g (b + 2)
    let y ← pathRem t rest
    some (x ++ y)

/-- All entries an open-ended traversal will still yield from iterator state `it`. -/
def stateRem (t : Tree) (it : Iter) : Option (List (Key × TagGptr)) := do
  let x ← nodeRem t it.node it.next_pos
  let y ← pathRem t it.path
  some (x ++ y)

/-- Remaining-work measure of node `g` at cursor `pos`. -/
def costNode (t : Tree) (g : Nat) (pos : Nat) : Nat :=
  if g = 0 then 0
  else
    match t.find g with
    | none => 0
    | some n =>
      (258 - pos) + costChildrenWith (costF t seDepth) n ((List.range 256).drop (max pos 1 - 1))

/-- Remaining-work measure of the ancestor frames. -/
def costPath (t : Tree) : List (Nat × Nat) → Nat
  | [] => 0
  | (g, b) :: rest => costNode t g (b + 2) + costPath t rest

/-- Termination measure of `next_value`'s traversal from state `it`. -/
def costIter (t : Tree) (it : Iter) : Nat :=
  costNode t it.node it.next_pos + costPath t it.path

/-- Invariant of an in-flight open-end scan state: the end boundary is open,
the current node (if any) and all stacked frames designate allocated nodes,
frame bytes are child slots, the cursor is in range, and a finished iterator
has an empty stack. -/
def IterInv (t : Tree) (it : Iter) : Prop :=
  it.end_key_open = true ∧
  (it.node ≠ 0 → ∃ n, t.find it.node = some n) ∧
  (it.node = 0 → it.path = []) ∧
  it.next_pos ≤ 257 ∧
  (∀ f ∈ it.path, f.2 < 256 ∧ ∃ n, t.find f.1 = some n)

/-! ## Concrete example trees (used as witnesses and failing inputs) -/

/-- The tree holding exactly the key `"AB"` (bytes `[65, 66]`) with value 200:
a root node plus one leaf. -/
def tAB : Tree :=
  match putS Tree.empty [65, 66] 200 true with
  | .ok (t, _) => t
  | .error _ => Tree.empty

/-- The iterator state after the first result of
`scan tAB Iter.empty [1] true [65] true _` (used by claims about the scan's
out-of-range reads). -/
def itAB : Iter :=
  { node := 2, next_pos := 1, path := [(1, 65)], begin_key := [1],
    begin_key_inclusive := true, begin_key_open := false, end_key := [65],
    end_key_inclusive := true, end_key_open := false, key := [65, 66],
    value := ⟨200, 0⟩ }

/-- A tree holding the keys `"a"`, `"ab"`, `"abc"`, `"b"` (values 1-4),
exercising splits and nested prefixes. -/
def tSample : Tree :=
  match putS Tree.empty [97] 1 true with
  | .error _ => Tree.empty
  | .ok (t1, _) =>
    match putS t1 [97, 98] 2 true with
    | .error _ => Tree.empty
    | .ok (t2, _) =>
      match putS t2 [97, 98, 99] 3 true with
      | .error _ => Tree.empty
      | .ok (t3, _) =>
        match putS t3 [98] 4 true with
        | .error _ => Tree.empty
        | .ok (t4, _) => t4

/-! ## Basic lemmas about the memory model -/

theorem memFind_mem {l : List (Nat × Node)} {g : Nat} {n : Node}
    (h : memFind l g = some n) : (g, n) ∈ l := by
  induction l with
  | nil => simp [memFind] at h
  | cons p rest ih =>
    obtain ⟨g', n'⟩ := p
    by_cases hg : g = g'
    · subst hg
      simp [memFind] at h
      simp [h]
    · simp [memFind, hg] at h
      exact List.mem_cons_of_mem _ (ih h)

@[simp] theorem find_storeNode_self (t : Tree) (g : Nat) (n : Node) :
    (storeNode t g n).find g = (t.find g).map (fun _ => n) := by
  show memFind (memStore t.mem g n) g = (memFind t.mem g).map _
  induction t.mem with
  | nil => simp [memFind, memStore]
  | cons p rest ih =>
    obtain ⟨g', n'⟩ := p
    by_cases hg : g' = g
    · subst hg
      simp [memFind, memStore, ih]
    · simp [memFind, memStore, hg, (Ne.symm hg : ¬ g = g'), ih]

theorem find_storeNode_ne (t : Tree) (g g' : Nat) (n : Node) (h : g' ≠ g) :
    (storeNode t g n).find g' = t.find g' := by
  show memFind (memStore t.mem g n) g' = memFind t.mem g'
  induction t.mem with
  | nil => simp [memFind, memStore]
  | cons p rest ih =>
    obtain ⟨g₁, n₁⟩ := p
    by_cases hg : g₁ = g
    · subst hg
      simp [memFind, memStore, h, ih]
    · by_cases hg2 : g' = g₁
      · subst hg2
        simp [memFind, memStore, hg, ih]
      · simp [memFind, memStore, hg, hg2, ih]

theorem storeNode_find_eq (t : Tree) (g g' : Nat) (n : Node) :
    (storeNode t g n).find g' =
      if g' = g then (t.find g).map (fun _ => n) else t.find g' := by
  by_cases h : g' = g
  · subst h
    simp
  · rw [if_neg h, find_storeNode_ne t g g' n h]

/-- Unpack the Boolean well-formedness check into its propositional parts. -/
theorem wf_parts {t : Tree} (hwf : WF t) :
    (∀ p ∈ t.mem, nodeOkB t p.2 = true) ∧
    (∀ p ∈ t.mem, p.1 ≠ 0 ∧ p.1 < t.next) ∧
    (t.mem.map Prod.fst).Nodup ∧ t.root ≠ 0 ∧
    (∃ rn, t.find t.root = some rn ∧ rn.prefix_size = 0 ∧ rn.value.gptr = 0) := by
  unfold WF wf at hwf
  simp only [Bool.and_eq_true, List.all_eq_true, decide_eq_true_eq, bne_iff_ne,
    ne_eq] at hwf
  obtain ⟨⟨⟨⟨h1, h2⟩, h3⟩, h4⟩, h5⟩ := hwf
  refine ⟨h1, fun p hp => h2 p hp, h3, h4, ?_⟩
  rcases hfind : t.find t.root with _ | rn
  · rw [hfind] at h5
    simp at h5
  · rw [hfind] at h5
    simp only [Bool.and_eq_true, beq_iff_eq] at h5
    exact ⟨rn, rfl, h5⟩

@[simp] theorem storeNode_root (t : Tree) (g : Nat) (n : Node) :
    (storeNode t g n).root = t.root := rfl

@[simp] theorem storeNode_next (t : Tree) (g : Nat) (n : Node) :
    (storeNode t g n).next = t.next := rfl

@[simp] theorem find_addNode_self (t : Tree) (g : Nat) (n : Node) :
    (addNode t g n).find g = some n := by
  simp [addNode, Tree.find, memFind]

theorem find_addNode_ne (t : Tree) (g g' : Nat) (n : Node) (h : g' ≠ g) :
    (addNode t g n).find g' = t.find g' := by
  simp [addNode, Tree.find, memFind, h]

@[simp] theorem addNode_root (t : Tree) (g : Nat) (n : Node) :
    (addNode t g n).root = t.root := rfl

/-! ## Extraction lemmas for well-formedness -/

/-- The node-level facts `WF` provides about every allocated node. -/
theorem WF.find_nodeOk {t : Tree} {g : Nat} {n : Node} (hwf : WF t)
    (h : t.find g = some n) :
    n.prefix_size ≤ MAX_KEY_LEN ∧ n.prefix_size ≤ n.key.length ∧
    n.key.length ≤ MAX_KEY_LEN ∧ (∀ b ∈ n.key, b < 256) ∧
    (∀ b, b < 256 → childOkB t n b = true) := by
  have hmem := memFind_mem h
  have h2 := (wf_parts hwf).1 _ hmem
  simp only [nodeOkB, Bool.and_eq_true, decide_eq_true_eq, List.all_eq_true] at h2
  refine ⟨h2.1.1.1.1, h2.1.1.1.2, h2.1.1.2, fun b hb => h2.1.2 b hb, ?_⟩
  intro b hb
  exact h2.2 b (List.mem_range.mpr hb)

/-- The child-edge facts `WF` provides: a non-null child slot designates an
allocated node extending the parent's prefix by the slot byte. -/
theorem WF.child_spec {t : Tree} {g : Nat} {n : Node} (hwf : WF t)
    (h : t.find g = some n) {b : Nat} (hb : b < 256) (hc : n.child b ≠ 0) :
    ∃ m, t.find (n.child b) = some m ∧ n.prefix_size < m.prefix_size ∧
      (∀ j, j < n.prefix_size → m.key.getD j 0 = n.key.getD j 0) ∧
      m.key.getD n.prefix_size 0 = b := by
  have hok := ((hwf.find_nodeOk h).2.2.2.2) b hb
  unfold childOkB at hok
  rcases hfind : t.find (n.child b) with _ | m
  · rw [hfind] at hok
    simp [hc] at hok
  · rw [hfind] at hok
    simp only [Bool.or_eq_true, beq_iff_eq, Bool.and_eq_true, decide_eq_true_eq] at hok
    rcases hok with hz | hok
    · exact absurd hz hc
    · exact ⟨m, rfl, hok.1.1, hok.1.2, hok.2⟩

theorem WF.root_ne {t : Tree} (hwf : WF t) : t.root ≠ 0 :=
  (wf_parts hwf).2.2.2.1

theorem WF.root_spec {t : Tree} (hwf : WF t) :
    ∃ rn, t.find t.root = some rn ∧ rn.prefix_size = 0 ∧ rn.value.gptr = 0 :=
  (wf_parts hwf).2.2.2.2

theorem WF.find_fresh {t : Tree} {g : Nat} {n : Node} (hwf : WF t)
    (h : t.find g = some n) : g ≠ 0 ∧ g < t.next :=
  (wf_parts hwf).2.1 _ (memFind_mem h)

theorem WF.find_frontier_none {t : Tree} {g : Nat} (hwf : WF t)
    (h : t.next ≤ g) : t.find g = none := by
  rcases hfind : t.find g with _ | n
  · rfl
  · exact absurd ((hwf.find_fresh hfind).2) (Nat.not_lt.mpr h)

/-! ## Byte comparison lemmas -/

theorem getD_drop_one (a : Key) (i : Nat) : (a.drop 1).getD i 0 = a.getD (i + 1) 0 := by
  cases a <;> simp [List.getD]

theorem fam_memcmp_succ (a b : Key) (m : Nat) :
    fam_memcmp a b (m + 1) =
      if a.getD 0 0 < b.getD 0 0 then -1
      else if b.getD 0 0 < a.getD 0 0 then 1
      else fam_memcmp (a.drop 1) (b.drop 1) m := rfl

theorem fam_memcmp_eq_zero_iff (a b : Key) (m : Nat) :
    fam_memcmp a b m = 0 ↔ ∀ i, i < m → a.getD i 0 = b.getD i 0 := by
  induction m generalizing a b with
  | zero => simp [fam_memcmp]
  | succ m ih =>
    rw [fam_memcmp_succ]
    by_cases h1 : a.getD 0 0 < b.getD 0 0
    · rw [if_pos h1]
      constructor
      · intro hc
        exact absurd hc (by decide)
      · intro hall
        exact absurd (hall 0 (Nat.succ_pos m)) (Nat.ne_of_lt h1)
    · rw [if_neg h1]
      by_cases h2 : b.getD 0 0 < a.getD 0 0
      · rw [if_pos h2]
        constructor
        · intro hc
          exact absurd hc (by decide)
        · intro hall
          exact absurd (hall 0 (Nat.succ_pos m)) (Nat.ne_of_gt h2)
      · rw [if_neg h2]
        have heq : a.getD 0 0 = b.getD 0 0 := Nat.le_antisymm (Nat.le_of_not_lt h2)
          (Nat.le_of_not_lt h1)
        rw [ih]
        constructor
        · intro hall i hi
          cases i with
          | zero => exact heq
          | succ j =>
            rw [← getD_drop_one a, ← getD_drop_one b]
            exact hall j (by omega)
        · intro hall i hi
          rw [getD_drop_one a, getD_drop_one b]
          exact hall (i + 1) (by omega)

theorem firstDiff_succ (a b : Key) (m : Nat) :
    firstDiff a b (m + 1) =
      if a.getD 0 0 = b.getD 0 0 then firstDiff (a.drop 1) (b.drop 1) m + 1
      else 0 := rfl

theorem firstDiff_le (a b : Key) (m : Nat) : firstDiff a b m ≤ m := by
  induction m generalizing a b with
  | zero => simp [firstDiff]
  | succ m ih =>
    rw [firstDiff_succ]
    by_cases h : a.getD 0 0 = b.getD 0 0
    · rw [if_pos h]
      exact Nat.succ_le_succ (ih _ _)
    · rw [if_neg h]
      omega

theorem firstDiff_agree (a b : Key) (m : Nat) :
    ∀ j, j < firstDiff a b m → a.getD j 0 = b.getD j 0 := by
  induction m generalizing a b with
  | zero => simp [firstDiff]
  | succ m ih =>
    rw [firstDiff_succ]
    by_cases h : a.getD 0 0 = b.getD 0 0
    · rw [if_pos h]
      intro j hj
      cases j with
      | zero => exact h
      | succ i =>
        rw [← getD_drop_one a, ← getD_drop_one b]
        exact ih _ _ i (by omega)
    · rw [if_neg h]
      intro j hj
      omega

theorem firstDiff_lt_ne (a b : Key) (m : Nat) (h : firstDiff a b m < m) :
    a.getD (firstDiff a b m) 0 ≠ b.getD (firstDiff a b m) 0 := by
  induction m generalizing a b with
  | zero => omega
  | succ m ih =>
    rw [firstDiff_succ] at h ⊢
    by_cases heq : a.getD 0 0 = b.getD 0 0
    · rw [if_pos heq] at h ⊢
      rw [← getD_drop_one a, ← getD_drop_one b]
      exact ih (a.drop 1) (b.drop 1) (by omega)
    · rw [if_neg heq] at h ⊢
      simpa using heq

theorem firstDiff_eq_of_agree (a b : Key) (m : Nat)
    (h : ∀ i, i < m → a.getD i 0 = b.getD i 0) : firstDiff a b m = m := by
  by_contra hne
  have hlt : firstDiff a b m < m := Nat.lt_of_le_of_ne (firstDiff_le a b m) hne
  exact firstDiff_lt_ne a b m hlt (h _ hlt)

/-- On byte keys the `(unsigned char)` cast is the identity. -/
theorem ucast_eq_of_lt {b : Nat} (h : b < 256) : ucast b = b := Nat.mod_eq_of_lt h

theorem ucast_lt (b : Nat) : ucast b < 256 := Nat.mod_lt _ (by omega)

/-! ## Small monad/allocator lemmas -/

deriving instance DecidableEq for Except

@[simp] theorem exbind_ok {α β : Type} (a : α) (f : α → Except Err β) :
    (Except.ok a >>= f) = f a := rfl

@[simp] theorem exbind_error {α β : Type} (e : Err) (f : α → Except Err β) :
    ((Except.error e : Except Err α) >>= f) = .error e := rfl

/-- An allocator that always returns null exhausts every retry. -/
theorem allocRetry_null (idx cnt : Nat) :
    allocRetry (fun _ => 0) idx cnt = (0, idx + cnt) := by
  induction cnt generalizing idx with
  | zero => simp [allocRetry]
  | succ c ih =>
    simp [allocRetry, ih]
    omega

/-- The standard allocator of a well-formed tree never returns null. -/
theorem allocRetry_stdA {t : Tree} (hwf : WF t) (idx : Nat) {cnt : Nat}
    (hc : 0 < cnt) : allocRetry (stdA t) idx cnt = (t.next + idx, idx + 1) := by
  obtain ⟨rn, hrn, -⟩ := hwf.root_spec
  have hpos : 0 < t.next := by
    have := (hwf.find_fresh hrn).2
    omega
  cases cnt with
  | zero => omega
  | succ c =>
    have hne : stdA t idx ≠ 0 := by
      unfold stdA
      omega
    show allocRetry (stdA t) idx (c + 1) = _
    unfold allocRetry
    rw [if_pos hne]
    rfl


/-! ## Unfolding and monotonicity of the descent loops -/

theorem fam_memcmp_refl (a : Key) (m : Nat) : fam_memcmp a a m = 0 :=
  (fam_memcmp_eq_zero_iff a a m).mpr (fun _ _ => rfl)

theorem getD_mem {k : Key} {i : Nat} (h : i < k.length) : k.getD i 0 ∈ k := by
  rw [List.getD_eq_getElem k 0 h]
  exact List.getElem_mem h

/-- One step of `getGo` at an allocated node. -/
theorem getGo_node {t : Tree} {k : Key} {q : Nat} {n : Node} (f : Nat)
    (hq : q ≠ 0) (hfind : t.find q = some n) :
    getGo t k q (f + 1) =
      if fam_memcmp k n.key (min n.prefix_size k.length) ≠ 0 then .ok ⟨0, 0⟩
      else if n.prefix_size = k.length then .ok n.value
      else if k.length < n.prefix_size then .error .oobRead
      else getGo t k (n.child (ucast (k.getD n.prefix_size 0))) f := by
  rw [getGo, if_neg hq]
  simp [load, hfind]

/-- One step of `getCGo` at an allocated node. -/
theorem getCGo_node {t : Tree} {k : Key} {q : Nat} {n : Node} (f : Nat)
    (hq : q ≠ 0) (hfind : t.find q = some n) :
    getCGo t k q (f + 1) =
      if fam_memcmp k n.key (min n.prefix_size k.length) ≠ 0 then .ok (0, ⟨0, 0⟩)
      else if n.prefix_size = k.length then .ok (q, n.value)
      else if k.length < n.prefix_size then .error .oobRead
      else getCGo t k (n.child (ucast (k.getD n.prefix_size 0))) f := by
  rw [getCGo, if_neg hq]
  simp [load, hfind]

/-- One step of `destroyGo` at an allocated node. -/
theorem destroyGo_node {t : Tree} {k : Key} {q : Nat} {n : Node} (f : Nat)
    (hq : q ≠ 0) (hfind : t.find q = some n) :
    destroyGo t k q (f + 1) =
      if fam_memcmp k n.key (min n.prefix_size k.length) ≠ 0 then .ok (t, ⟨0, 0⟩)
      else if n.prefix_size = k.length then
        .ok (storeNode t q { n with value := ⟨0, n.value.tag + 1⟩ }, n.value)
      else if k.length < n.prefix_size then .error .oobRead
      else destroyGo t k (n.child (ucast (k.getD n.prefix_size 0))) f := by
  rw [destroyGo, if_neg hq]
  simp [load, hfind]

/-- One step of `destroyCGo` at an allocated node. -/
theorem destroyCGo_node {t : Tree} {k : Key} {q : Nat} {n : Node} (f : Nat)
    (hq : q ≠ 0) (hfind : t.find q = some n) :
    destroyCGo t k q (f + 1) =
      if fam_memcmp k n.key (min n.prefix_size k.length) ≠ 0 then .ok (t, 0, ⟨0, 0⟩, ⟨0, 0⟩)
      else if n.prefix_size = k.length then
        .ok (storeNode t q { n with value := ⟨0, n.value.tag + 1⟩ }, q,
          ⟨0, n.value.tag + 1⟩, n.value)
      else if k.length < n.prefix_size then .error .oobRead
      else destroyCGo t k (n.child (ucast (k.getD n.prefix_size 0))) f := by
  rw [destroyCGo, if_neg hq]
  simp [load, hfind]

/-- One step of `putDescend` at an allocated node. -/
theorem putDescend_node {t : Tree} {k : Key} {p : Option (Nat × Nat)} {q : Nat}
    {n : Node} (f : Nat) (hq : q ≠ 0) (hfind : t.find q = some n) :
    putDescend t k p q (f + 1) =
      (if firstDiff k n.key (min k.length n.prefix_size) < n.prefix_size then
        .ok (.splitAt p q (firstDiff k n.key (min k.length n.prefix_size))
          (ucast (n.key.getD (firstDiff k n.key (min k.length n.prefix_size)) 0)))
      else if k.length = firstDiff k n.key (min k.length n.prefix_size) then .ok (.valueAt q)
      else putDescend t k
        (some (q, ucast (k.getD (firstDiff k n.key (min k.length n.prefix_size)) 0)))
        (n.child (ucast (k.getD (firstDiff k n.key (min k.length n.prefix_size)) 0))) f) := by
  rw [putDescend, if_neg hq]
  simp [load, hfind]

theorem getGo_mono {t : Tree} {k : Key} {q : Nat} {f f' : Nat} {r : TagGptr}
    (h : getGo t k q f = .ok r) (hle : f ≤ f') : getGo t k q f' = .ok r := by
  induction f generalizing q f' with
  | zero => rw [getGo] at h; cases h
  | succ f ih =>
    obtain ⟨f'', rfl⟩ : ∃ f'', f' = f'' + 1 := ⟨f' - 1, by omega⟩
    by_cases hq : q = 0
    · subst hq
      rw [getGo] at h ⊢
      exact h
    · rcases hfind : t.find q with _ | n
      · rw [getGo, if_neg hq] at h
        simp [load, hfind] at h
      · rw [getGo_node f hq hfind] at h
        rw [getGo_node f'' hq hfind]
        by_cases h1 : fam_memcmp k n.key (min n.prefix_size k.length) ≠ 0
        · rw [if_pos h1] at h ⊢
          exact h
        · rw [if_neg h1] at h ⊢
          by_cases h2 : n.prefix_size = k.length
          · rw [if_pos h2] at h ⊢
            exact h
          · rw [if_neg h2] at h ⊢
            by_cases h3 : k.length < n.prefix_size
            · rw [if_pos h3] at h
              cases h
            · rw [if_neg h3] at h ⊢
              exact ih h (by omega)

/-! ## Slot and store helper lemmas -/

@[simp] theorem slotVal_none (t : Tree) : slotVal t none = .ok t.root := rfl

theorem slotVal_some {t : Tree} {g : Nat} {n : Node} (b : Nat)
    (h : t.find g = some n) : slotVal t (some (g, b)) = .ok (n.child b) := by
  simp [slotVal, load, h]

@[simp] theorem addNode_next (t : Tree) (g : Nat) (n : Node) :
    (addNode t g n).next = max t.next (g + 1) := rfl

/-- A node allocated in `t` is unchanged by adding a fresh binding. -/
theorem find_addNode_old {t : Tree} {g g' : Nat} {m n : Node}
    (hwf : WF t) (hfind : t.find g' = some m) (hge : t.next ≤ g) :
    (addNode t g n).find g' = some m := by
  have := (hwf.find_fresh hfind).2
  rw [find_addNode_ne t g g' n (by omega)]
  exact hfind

/-- `setSlot` at an allocated parent computes to the child-updated store. -/
theorem setSlot_eq {t : Tree} {g : Nat} {n : Node} (b newp : Nat)
    (hfind : t.find g = some n) :
    setSlot t (some (g, b)) newp = .ok (storeNode t g (setChild n b newp)) := by
  simp [setSlot, load, hfind]

/-! ## Claim C8: allocation failure is surfaced -/

/-- Claim C8: if the heap's `Alloc` returns 0 on every one of the
`alloc_retry_cnt` retries while `put` needs a new node (its descent ends in a
leaf-insertion or split, not at an existing value slot), the operation fails
with an allocation error (the embedded image of the
`assert(new_leaf_ptr.IsValid())` / `assert(intermediate_node_ptr.IsValid())`
guards at radix_tree.cc:314/339/376) instead of continuing with a null node
pointer. -/
theorem C8_alloc_failure_surfaced (t : Tree) (k : Key) (v : Nat) (u : Bool)
    (act : PutAct) (hk : 0 < k.length ∧ k.length ≤ MAX_KEY_LEN)
    (hd : putDescend t k none t.root stdFuel = .ok act)
    (hneed : act.needsAlloc = true) :
    put (fun _ => 0) t k v u stdFuel = .error .allocFailed := by
  unfold put
  rw [if_pos hk, hd, exbind_ok]
  cases act with
  | valueAt g => simp [PutAct.needsAlloc] at hneed
  | leafAt p => simp [putApply, allocRetry_null]
  | splitAt p q i existing => simp [putApply, allocRetry_null]

/-- Witness for C8 at a concrete input: inserting `"A"` into the empty tree
needs a fresh leaf, and with a null-returning allocator `put` reports the
allocation error. -/
theorem C8_alloc_failure_surfaced_witness :
    put (fun _ => 0) Tree.empty [65] 5 true stdFuel = .error .allocFailed :=
  C8_alloc_failure_surfaced Tree.empty [65] 5 true (.leafAt (some (1, 65)))
    (by decide) rfl rfl

/-! ## Claim C9: guarded out-of-range key reads -/

/-- Claim C9: on the reachable tree holding only the key `"AB"` (`tAB`), the
query key `"A"` leads `get` and `destroy` to the leaf, whose
`prefix_size = 2` exceeds the query length 1 while the compared prefixes
agree on their common length, whereupon the source indexes the caller's key
buffer at `key[prefix_size]`, i.e. at an index `≥ key_size`; likewise a scan
with end key `"A"` positioned at that leaf reads `end_key[prefix_size]` past
the end key when computing its child upper bound.  In the total embedding
these out-of-bounds accesses are guarded and reported as `.oobRead`, so each
operation is well-defined only because the access is guarded. -/
theorem C9_descent_reads_past_key :
    putS Tree.empty [65, 66] 200 true = .ok (tAB, ⟨0, 0⟩) ∧
    get tAB [65] = .error .oobRead ∧
    destroy tAB [65] = .error .oobRead ∧
    (scan tAB Iter.empty [1] true [65] true 300 =
        .ok (itAB, some ([65, 66], ⟨200, 0⟩)) ∧
      next_value tAB itAB 300 = .error .oobRead) := by
  exact ⟨rfl, by decide, rfl, by decide, by decide⟩

/-! ## Claim C6: scan range bounds (code bug) -/

/-- Claim C6 is violated by the source: with the tree holding only `"AB"`
(bytes `[65, 66]`, value 200) and the scan range `lo = [1]`, `hi = [65]`
(both inclusive), the first scan result is the key `[65, 66]`, even though
`[65] < [65, 66]` — a yielded key strictly greater than the end bound.  The
source reaches the `result == 0` branch of `next_value` at the leaf, whose
`prefix_size` (2) exceeds the end key's length (1); the branch assumes the
node key is a strict prefix of the end key (`// assert(n->prefix_size <
key_size)` at radix_tree.cc:621 is commented out) and yields the node's
value without any further bound check (radix_tree.cc:625-639). -/
theorem C6_scan_bound_violated :
    scan tAB Iter.empty [1] true [65] true 300 =
        .ok (itAB, some ([65, 66], ⟨200, 0⟩)) ∧
    keyLtb [65] [65, 66] = true := by
  exact ⟨by decide, by decide⟩

/-! ## Claim C7: the open-begin test (code bug) -/

/-- Claim C7 is violated by the source: `scan` with `begin = OPEN_BOUNDARY_KEY`
and `begin_key_inclusive = true` still treats the begin boundary as open,
because radix_tree.cc:795-796 tests `iter.end_key_inclusive == false` (here:
the stale value from the caller's fresh iterator) where the claim requires
the begin-side inclusive flag to be false.  The claimed iff
`begin_key_open = true ↔ (begin = OPEN_BOUNDARY_KEY ∧ begin_inclusive = false)`
therefore fails at this input. -/
theorem C7_open_begin_uses_wrong_flag :
    ∃ it r, scan Tree.empty Iter.empty OPEN_BOUNDARY_KEY true [66] false 300 =
        .ok (it, r) ∧
      ¬(it.begin_key_open = true ↔
        (OPEN_BOUNDARY_KEY = OPEN_BOUNDARY_KEY ∧ (true : Bool) = false)) := by
  refine ⟨{ node := 0, next_pos := 68, path := [], begin_key := [0],
            begin_key_inclusive := true, begin_key_open := true,
            end_key := [66], end_key_inclusive := false, end_key_open := false,
            key := [], value := ⟨0, 0⟩ }, none, by decide, ?_⟩
  intro h
  have := h.mp (by rfl)
  exact absurd this.2 (by decide)

/-- `putApply` on a three-node split under the standard allocator: the
intermediate node is placed at `t.next` and the new leaf at `t.next + 1`. -/
theorem putApply_splitB {t : Tree} (hwf : WF t) (k : Key) (v : Nat)
    (p : Option (Nat × Nat)) (q i ex : Nat) (hik : ¬ i = k.length) :
    putApply (stdA t) t k v true (.splitAt p q i ex) = (do
      let t3 ← setSlot (addNode (addNode t t.next
          (interMid k i ex q (ucast (k.getD i 0)) (t.next + 1)))
        (t.next + 1) (mkLeaf k v)) p t.next
      Except.ok (t3, (⟨0, 0⟩ : TagGptr))) := by
  have hpos : 0 < t.next := by
    obtain ⟨rn, hrn, -⟩ := hwf.root_spec
    have := (hwf.find_fresh hrn).2
    omega
  have h1 : allocRetry (stdA t) 0 alloc_retry_cnt = (t.next + 0, 0 + 1) :=
    @allocRetry_stdA t hwf 0 alloc_retry_cnt (by decide)
  simp only [putApply]
  rw [h1]
  have hc1 : ¬ ((t.next + 0, 0 + 1) : Nat × Nat).1 = 0 := by
    show ¬ t.next + 0 = 0
    omega
  rw [if_neg hc1, if_neg hik]
  have h2 : allocRetry (stdA t) ((t.next + 0, 0 + 1) : Nat × Nat).2 alloc_retry_cnt
      = (t.next + 1, 1 + 1) :=
    @allocRetry_stdA t hwf _ alloc_retry_cnt (by decide)
  rw [h2]
  have hc2 : ¬ ((t.next + 1, 1 + 1) : Nat × Nat).1 = 0 := by
    show ¬ t.next + 1 = 0
    omega
  rw [if_neg hc2]
  rfl

/-- Round trip for `put` with `update = true`, by induction along the descent.
At descent state `(p, q)` with depth floor `d`, the descent succeeds, the act
applies, ancestors strictly above the floor are untouched, keys and prefix
sizes of all old nodes are untouched, and re-reading the slot `p` and
descending finds the freshly written value. -/
theorem put_roundtrip_go {k : Key} {v : Nat} (hv : v ≠ 0) (hk0 : 0 < k.length)
    (hk64 : k.length ≤ MAX_KEY_LEN) (hbytes : ∀ b ∈ k, b < 256) {t : Tree}
    (hwf : WF t) :
    ∀ (f : Nat) (p : Option (Nat × Nat)) (q d : Nat),
    (p = none → q = t.root ∧ d = 0) →
    (∀ g0 b0, p = some (g0, b0) → ∃ n0, t.find g0 = some n0 ∧ n0.child b0 = q ∧
        d = n0.prefix_size + 1 ∧ n0.prefix_size < k.length) →
    (q ≠ 0 → ∃ nq, t.find q = some nq ∧ d ≤ nq.prefix_size ∧
        MAX_KEY_LEN + 2 ≤ f + nq.prefix_size + 1) →
    (q = 0 → 1 ≤ f) →
    ∃ act t' prior,
      putDescend t k p q f = .ok act ∧
      putApply (stdA t) t k v true act = .ok (t', prior) ∧
      t'.root = t.root ∧
      (∀ g m, t.find g = some m → ∃ m', t'.find g = some m' ∧
          m'.key = m.key ∧ m'.prefix_size = m.prefix_size) ∧
      (∀ g m, t.find g = some m → m.prefix_size + 1 < d → t'.find g = some m) ∧
      ∃ q' tag, slotVal t' p = .ok q' ∧
        ∀ fg, k.length + 2 - d ≤ fg → getGo t' k q' fg = .ok ⟨v, tag⟩ := by
  intro f
  induction f with
  | zero =>
    intro p q d hpn hps hq hq0
    by_cases hqz : q = 0
    · exact absurd (hq0 hqz) (by omega)
    · obtain ⟨nq, hfind, -, hfuel⟩ := hq hqz
      have h64 := (hwf.find_nodeOk hfind).1
      unfold MAX_KEY_LEN at h64 hfuel
      omega
  | succ f ih =>
    intro p q d hpn hps hq hq0
    by_cases hqz : q = 0
    · -- case 1: null child slot, insert a fresh leaf
      subst hqz
      rcases p with _ | ⟨g0, b0⟩
      · obtain ⟨hqr, -⟩ := hpn rfl
        exact absurd hqr.symm hwf.root_ne
      · obtain ⟨n0, hf0, hc0, hd, hp0⟩ := hps g0 b0 rfl
        have hg0lt := (hwf.find_fresh hf0).2
        have hnext0 : 0 < t.next := by omega
        have halloc := @allocRetry_stdA _ hwf 0 alloc_retry_cnt (by decide)
        have hf1 : (addNode t t.next (mkLeaf k v)).find g0 = some n0 :=
          find_addNode_old hwf hf0 (Nat.le_refl _)
        refine ⟨.leafAt (some (g0, b0)),
          storeNode (addNode t t.next (mkLeaf k v)) g0 (setChild n0 b0 t.next),
          ⟨0, 0⟩, by simp [putDescend], ?_, rfl, ?_, ?_, ?_⟩
        · -- putApply computes
          have hcond : ¬ (allocRetry (stdA t) 0 alloc_retry_cnt).1 = 0 := by
            rw [halloc]
            simpa using by omega
          simp only [putApply]
          rw [if_neg hcond, halloc]
          show (do
            let t2 ← setSlot (addNode t t.next (mkLeaf k v)) (some (g0, b0)) t.next
            Except.ok (t2, ({ gptr := 0, tag := 0 } : TagGptr))) = _
          rw [setSlot_eq b0 t.next hf1, exbind_ok]
        · -- weak frame
          intro g m hgm
          by_cases hgg : g = g0
          · subst hgg
            rw [hf0] at hgm
            cases hgm
            refine ⟨setChild n0 b0 t.next, ?_, rfl, rfl⟩
            rw [find_storeNode_self, hf1]
            rfl
          · have hglt := (hwf.find_fresh hgm).2
            refine ⟨m, ?_, rfl, rfl⟩
            rw [find_storeNode_ne _ _ _ _ hgg]
            exact find_addNode_old hwf hgm (Nat.le_refl _)
        · -- strong frame
          intro g m hgm hlt
          by_cases hgg : g = g0
          · subst hgg
            rw [hf0] at hgm
            cases hgm
            omega
          · rw [find_storeNode_ne _ _ _ _ hgg]
            exact find_addNode_old hwf hgm (Nat.le_refl _)
        · -- slot value and get
          have hft' : (storeNode (addNode t t.next (mkLeaf k v)) g0
              (setChild n0 b0 t.next)).find g0 = some (setChild n0 b0 t.next) := by
            rw [find_storeNode_self, hf1]
            rfl
          refine ⟨t.next, 0, ?_, ?_⟩
          · rw [slotVal_some b0 hft']
            simp [setChild]
          · intro fg hfg
            obtain ⟨fg', rfl⟩ : ∃ fg', fg = fg' + 1 := ⟨fg - 1, by omega⟩
            have hleaf : (storeNode (addNode t t.next (mkLeaf k v)) g0
                (setChild n0 b0 t.next)).find t.next = some (mkLeaf k v) := by
              rw [find_storeNode_ne _ _ _ _ (by omega), find_addNode_self]
            rw [getGo_node fg' (by omega) hleaf]
            simp [mkLeaf, fam_memcmp_refl]
    · obtain ⟨nq, hfind, hdle, hfuel⟩ := hq hqz
      have hnodeOk := hwf.find_nodeOk hfind
      by_cases hsplit : firstDiff k nq.key (min k.length nq.prefix_size) < nq.prefix_size
      · -- case 2: split at position i inside this node's prefix
        rcases p with _ | ⟨g0, b0⟩
        · obtain ⟨hqr, -⟩ := hpn rfl
          obtain ⟨rn, hrn, hrp, -⟩ := hwf.root_spec
          rw [hqr] at hfind
          rw [hrn] at hfind
          cases hfind
          omega
        · obtain ⟨n0, hf0, hc0, hd, hp0⟩ := hps g0 b0 rfl
          have hg0lt := (hwf.find_fresh hf0).2
          have hnext0 : 0 < t.next := by omega
          have halloc := @allocRetry_stdA _ hwf 0 alloc_retry_cnt (by decide)
          have hcond : ¬ (allocRetry (stdA t) 0 alloc_retry_cnt).1 = 0 := by
            rw [halloc]
            simpa using by omega
          have hile : firstDiff k nq.key (min k.length nq.prefix_size) ≤ k.length := by
            have h1 := firstDiff_le k nq.key (min k.length nq.prefix_size)
            omega
          by_cases hik : firstDiff k nq.key (min k.length nq.prefix_size) = k.length
          · -- split where the key terminates at the intermediate node
            have hf1 : (addNode t t.next (interEnd k v
                (firstDiff k nq.key (min k.length nq.prefix_size))
                (ucast (nq.key.getD (firstDiff k nq.key (min k.length nq.prefix_size)) 0))
                q)).find g0 = some n0 :=
              find_addNode_old hwf hf0 (Nat.le_refl _)
            refine ⟨.splitAt (some (g0, b0)) q (firstDiff k nq.key (min k.length nq.prefix_size))
                (ucast (nq.key.getD (firstDiff k nq.key (min k.length nq.prefix_size)) 0)),
              storeNode (addNode t t.next (interEnd k v
                (firstDiff k nq.key (min k.length nq.prefix_size))
                (ucast (nq.key.getD (firstDiff k nq.key (min k.length nq.prefix_size)) 0))
                q)) g0 (setChild n0 b0 t.next),
              ⟨0, 0⟩, ?_, ?_, rfl, ?_, ?_, ?_⟩
            · rw [putDescend_node f hqz hfind, if_pos hsplit]
            · simp only [putApply]
              rw [if_neg hcond, if_pos hik, halloc]
              show (do
                let t2 ← setSlot (addNode t t.next (interEnd k v _ _ q)) (some (g0, b0)) t.next
                Except.ok (t2, ({ gptr := 0, tag := 0 } : TagGptr))) = _
              rw [setSlot_eq b0 t.next hf1, exbind_ok]
            · intro g m hgm
              by_cases hgg : g = g0
              · subst hgg
                rw [hf0] at hgm
                cases hgm
                refine ⟨setChild n0 b0 t.next, ?_, rfl, rfl⟩
                rw [find_storeNode_self, hf1]
                rfl
              · have hglt := (hwf.find_fresh hgm).2
                refine ⟨m, ?_, rfl, rfl⟩
                rw [find_storeNode_ne _ _ _ _ hgg]
                exact find_addNode_old hwf hgm (Nat.le_refl _)
            · intro g m hgm hlt
              by_cases hgg : g = g0
              · subst hgg
                rw [hf0] at hgm
                cases hgm
                omega
              · rw [find_storeNode_ne _ _ _ _ hgg]
                exact find_addNode_old hwf hgm (Nat.le_refl _)
            · have hft' : (storeNode (addNode t t.next (interEnd k v
                  (firstDiff k nq.key (min k.length nq.prefix_size))
                  (ucast (nq.key.getD (firstDiff k nq.key (min k.length nq.prefix_size)) 0))
                  q)) g0 (setChild n0 b0 t.next)).find g0 = some (setChild n0 b0 t.next) := by
                rw [find_storeNode_self, hf1]
                rfl
              refine ⟨t.next, 0, ?_, ?_⟩
              · rw [slotVal_some b0 hft']
                simp [setChild]
              · intro fg hfg
                obtain ⟨fg', rfl⟩ : ∃ fg', fg = fg' + 1 := ⟨fg - 1, by omega⟩
                have hinter : (storeNode (addNode t t.next (interEnd k v
                    (firstDiff k nq.key (min k.length nq.prefix_size))
                    (ucast (nq.key.getD (firstDiff k nq.key (min k.length nq.prefix_size)) 0))
                    q)) g0 (setChild n0 b0 t.next)).find t.next = some (interEnd k v
                    (firstDiff k nq.key (min k.length nq.prefix_size))
                    (ucast (nq.key.getD (firstDiff k nq.key (min k.length nq.prefix_size)) 0))
                    q) := by
                  rw [find_storeNode_ne _ _ _ _ (by omega), find_addNode_self]
                rw [getGo_node fg' (by omega) hinter]
                simp [interEnd, fam_memcmp_refl, hik]
          · -- split with a separate new leaf for the longer key
            have hiks : firstDiff k nq.key (min k.length nq.prefix_size) < k.length := by
              omega
            have halloc2 := @allocRetry_stdA _ hwf 1 alloc_retry_cnt (by decide)
            have hbk : k.getD (firstDiff k nq.key (min k.length nq.prefix_size)) 0 < 256 :=
              hbytes _ (getD_mem hiks)
            have hbnk : nq.key.getD (firstDiff k nq.key (min k.length nq.prefix_size)) 0 < 256 := by
              apply hnodeOk.2.2.2.1
              apply getD_mem
              omega
            have hbne : ucast (k.getD (firstDiff k nq.key (min k.length nq.prefix_size)) 0) ≠
                ucast (nq.key.getD (firstDiff k nq.key (min k.length nq.prefix_size)) 0) := by
              rw [ucast_eq_of_lt hbk, ucast_eq_of_lt hbnk]
              exact firstDiff_lt_ne k nq.key (min k.length nq.prefix_size) (by omega)
            have hcond2 : ¬ (allocRetry (stdA t)
                (allocRetry (stdA t) 0 alloc_retry_cnt).2 alloc_retry_cnt).1 = 0 := by
              rw [halloc]
              show ¬ (allocRetry (stdA t) 1 alloc_retry_cnt).1 = 0
              rw [halloc2]
              simpa using by omega
            have hf1 : (addNode (addNode t t.next (interMid k
                (firstDiff k nq.key (min k.length nq.prefix_size))
                (ucast (nq.key.getD (firstDiff k nq.key (min k.length nq.prefix_size)) 0))
                q
                (ucast (k.getD (firstDiff k nq.key (min k.length nq.prefix_size)) 0))
                (t.next + 1))) (t.next + 1) (mkLeaf k v)).find g0 = some n0 := by
              rw [find_addNode_ne _ _ _ _ (by omega), find_addNode_ne _ _ _ _ (by omega)]
              exact hf0
            refine ⟨.splitAt (some (g0, b0)) q
                (firstDiff k nq.key (min k.length nq.prefix_size))
                (ucast (nq.key.getD (firstDiff k nq.key (min k.length nq.prefix_size)) 0)),
              storeNode (addNode (addNode t t.next (interMid k
                (firstDiff k nq.key (min k.length nq.prefix_size))
                (ucast (nq.key.getD (firstDiff k nq.key (min k.length nq.prefix_size)) 0))
                q
                (ucast (k.getD (firstDiff k nq.key (min k.length nq.prefix_size)) 0))
                (t.next + 1))) (t.next + 1) (mkLeaf k v)) g0 (setChild n0 b0 t.next),
              ⟨0, 0⟩, ?_, ?_, rfl, ?_, ?_, ?_⟩
            · rw [putDescend_node f hqz hfind, if_pos hsplit]
            · rw [putApply_splitB hwf k v _ q _ _ hik]
              rw [setSlot_eq b0 t.next hf1, exbind_ok]
            · intro g m hgm
              by_cases hgg : g = g0
              · subst hgg
                rw [hf0] at hgm
                cases hgm
                refine ⟨setChild n0 b0 t.next, ?_, rfl, rfl⟩
                rw [find_storeNode_self, hf1]
                rfl
              · have hglt := (hwf.find_fresh hgm).2
                refine ⟨m, ?_, rfl, rfl⟩
                rw [find_storeNode_ne _ _ _ _ hgg,
                  find_addNode_ne _ _ _ _ (by omega), find_addNode_ne _ _ _ _ (by omega)]
                exact hgm
            · intro g m hgm hlt
              by_cases hgg : g = g0
              · subst hgg
                rw [hf0] at hgm
                cases hgm
                omega
              · have hglt := (hwf.find_fresh hgm).2
                rw [find_storeNode_ne _ _ _ _ hgg,
                  find_addNode_ne _ _ _ _ (by omega), find_addNode_ne _ _ _ _ (by omega)]
                exact hgm
            · have hft' : (storeNode (addNode (addNode t t.next (interMid k
                  (firstDiff k nq.key (min k.length nq.prefix_size))
                  (ucast (nq.key.getD (firstDiff k nq.key (min k.length nq.prefix_size)) 0))
                  q
                  (ucast (k.getD (firstDiff k nq.key (min k.length nq.prefix_size)) 0))
                  (t.next + 1))) (t.next + 1) (mkLeaf k v)) g0
                  (setChild n0 b0 t.next)).find g0 = some (setChild n0 b0 t.next) := by
                rw [find_storeNode_self, hf1]
                rfl
              have hNI : (storeNode (addNode (addNode t t.next (interMid k
                  (firstDiff k nq.key (min k.length nq.prefix_size))
                  (ucast (nq.key.getD (firstDiff k nq.key (min k.length nq.prefix_size)) 0))
                  q
                  (ucast (k.getD (firstDiff k nq.key (min k.length nq.prefix_size)) 0))
                  (t.next + 1))) (t.next + 1) (mkLeaf k v)) g0
                  (setChild n0 b0 t.next)).find t.next = some (interMid k
                  (firstDiff k nq.key (min k.length nq.prefix_size))
                  (ucast (nq.key.getD (firstDiff k nq.key (min k.length nq.prefix_size)) 0))
                  q
                  (ucast (k.getD (firstDiff k nq.key (min k.length nq.prefix_size)) 0))
                  (t.next + 1)) := by
                rw [find_storeNode_ne _ _ _ _ (by omega),
                  find_addNode_ne _ _ _ _ (by omega), find_addNode_self]
              have hNL : (storeNode (addNode (addNode t t.next (interMid k
                  (firstDiff k nq.key (min k.length nq.prefix_size))
                  (ucast (nq.key.getD (firstDiff k nq.key (min k.length nq.prefix_size)) 0))
                  q
                  (ucast (k.getD (firstDiff k nq.key (min k.length nq.prefix_size)) 0))
                  (t.next + 1))) (t.next + 1) (mkLeaf k v)) g0
                  (setChild n0 b0 t.next)).find (t.next + 1) = some (mkLeaf k v) := by
                rw [find_storeNode_ne _ _ _ _ (by omega), find_addNode_self]
              refine ⟨t.next, 0, ?_, ?_⟩
              · rw [slotVal_some b0 hft']
                simp [setChild]
              · intro fg hfg
                obtain ⟨fg', rfl⟩ : ∃ fg', fg = fg' + 1 := ⟨fg - 1, by omega⟩
                have hchild : (interMid k (firstDiff k nq.key (min k.length nq.prefix_size))
                    (ucast (nq.key.getD (firstDiff k nq.key (min k.length nq.prefix_size)) 0)) q
                    (ucast (k.getD (firstDiff k nq.key (min k.length nq.prefix_size)) 0))
                    (t.next + 1)).child (ucast (k.getD ((interMid k
                      (firstDiff k nq.key (min k.length nq.prefix_size))
                      (ucast (nq.key.getD (firstDiff k nq.key (min k.length nq.prefix_size)) 0)) q
                      (ucast (k.getD (firstDiff k nq.key (min k.length nq.prefix_size)) 0))
                      (t.next + 1)).prefix_size) 0)) = t.next + 1 := by
                  show (if ucast (k.getD (firstDiff k nq.key (min k.length nq.prefix_size)) 0) =
                      ucast (nq.key.getD (firstDiff k nq.key (min k.length nq.prefix_size)) 0) then q
                    else if ucast (k.getD (firstDiff k nq.key (min k.length nq.prefix_size)) 0) =
                      ucast (k.getD (firstDiff k nq.key (min k.length nq.prefix_size)) 0)
                      then t.next + 1
                    else 0) = t.next + 1
                  rw [if_neg hbne]
                  exact if_pos rfl
                rw [getGo_node fg' (by omega) hNI]
                rw [if_neg (by simp [interMid, fam_memcmp_refl]),
                  if_neg (by simpa [interMid] using hik),
                  if_neg (by simp only [interMid]; omega)]
                rw [hchild]
                obtain ⟨fg'', rfl⟩ : ∃ fg'', fg' = fg'' + 1 := ⟨fg' - 1, by omega⟩
                rw [getGo_node fg'' (by omega) hNL]
                simp [mkLeaf, fam_memcmp_refl]
      · have hieq :
            firstDiff k nq.key (min k.length nq.prefix_size) = nq.prefix_size ∨
            firstDiff k nq.key (min k.length nq.prefix_size) = k.length := by
          have h1 := firstDiff_le k nq.key (min k.length nq.prefix_size)
          omega
        by_cases hki : k.length = firstDiff k nq.key (min k.length nq.prefix_size)
        · -- key terminates at this node: CAS the value slot
          have hpfx : nq.prefix_size = k.length := by
            have h1 := firstDiff_le k nq.key (min k.length nq.prefix_size)
            omega
          have hmem0 : fam_memcmp k nq.key (min nq.prefix_size k.length) = 0 := by
            apply (fam_memcmp_eq_zero_iff _ _ _).mpr
            intro j hj
            apply firstDiff_agree k nq.key (min k.length nq.prefix_size)
            omega
          have hft' : (storeNode t q { nq with value := ⟨v, nq.value.tag + 1⟩ }).find q =
              some { nq with value := ⟨v, nq.value.tag + 1⟩ } := by
            rw [find_storeNode_self, hfind]
            rfl
          have hget : ∀ fg, 1 ≤ fg →
              getGo (storeNode t q { nq with value := ⟨v, nq.value.tag + 1⟩ }) k q fg =
                .ok ⟨v, nq.value.tag + 1⟩ := by
            intro fg hfg
            obtain ⟨fg', rfl⟩ : ∃ fg', fg = fg' + 1 := ⟨fg - 1, by omega⟩
            rw [getGo_node fg' hqz hft']
            rw [if_neg (by simpa using hmem0), if_pos hpfx]
          refine ⟨.valueAt q, storeNode t q { nq with value := ⟨v, nq.value.tag + 1⟩ },
            nq.value, ?_, ?_, rfl, ?_, ?_, ?_⟩
          · rw [putDescend_node f hqz hfind, if_neg hsplit, if_pos hki]
          · simp [putApply, load, hfind]
          · intro g m hgm
            by_cases hgg : g = q
            · subst hgg
              rw [hfind] at hgm
              cases hgm
              refine ⟨{ nq with value := ⟨v, nq.value.tag + 1⟩ }, hft', rfl, rfl⟩
            · exact ⟨m, by rw [find_storeNode_ne _ _ _ _ hgg]; exact hgm, rfl, rfl⟩
          · intro g m hgm hlt
            by_cases hgg : g = q
            · subst hgg
              rw [hfind] at hgm
              cases hgm
              omega
            · rw [find_storeNode_ne _ _ _ _ hgg]
              exact hgm
          · rcases hP : p with _ | ⟨g0, b0⟩
            · obtain ⟨hqr, hd0⟩ := hpn hP
              refine ⟨t.root, nq.value.tag + 1, slotVal_none _, ?_⟩
              intro fg hfg
              rw [← hqr]
              exact hget fg (by omega)
            · obtain ⟨n0, hf0, hc0, hd, hp0⟩ := hps g0 b0 hP
              have hne : g0 ≠ q := by
                intro h
                subst h
                rw [hf0] at hfind
                cases hfind
                omega
              have hf0' : (storeNode t q { nq with value := ⟨v, nq.value.tag + 1⟩ }).find g0 =
                  some n0 := by
                rw [find_storeNode_ne _ _ _ _ hne]
                exact hf0
              refine ⟨q, nq.value.tag + 1, ?_, ?_⟩
              · rw [slotVal_some b0 hf0', hc0]
              · intro fg hfg
                exact hget fg (by omega)
        · -- descend into child[key[i]]
          have hipfx : firstDiff k nq.key (min k.length nq.prefix_size) = nq.prefix_size := by
            have h1 := firstDiff_le k nq.key (min k.length nq.prefix_size)
            omega
          have hiks : nq.prefix_size < k.length := by
            have h1 := firstDiff_le k nq.key (min k.length nq.prefix_size)
            omega
          have hbk : k.getD nq.prefix_size 0 < 256 := hbytes _ (getD_mem hiks)
          have hbe : ucast (k.getD nq.prefix_size 0) = k.getD nq.prefix_size 0 :=
            ucast_eq_of_lt hbk
          have hmem0 : fam_memcmp k nq.key (min nq.prefix_size k.length) = 0 := by
            apply (fam_memcmp_eq_zero_iff _ _ _).mpr
            intro j hj
            apply firstDiff_agree k nq.key (min k.length nq.prefix_size)
            omega
          specialize ih (some (q, ucast (k.getD nq.prefix_size 0)))
            (nq.child (ucast (k.getD nq.prefix_size 0))) (nq.prefix_size + 1)
            (fun h => by cases h)
            (fun g0' b0' hp' => by
              cases hp'
              exact ⟨nq, hfind, rfl, rfl, hiks⟩)
            (fun hq' => by
              obtain ⟨m, hm, hlt1, -, -⟩ :=
                hwf.child_spec hfind (ucast_lt (k.getD nq.prefix_size 0)) hq'
              exact ⟨m, hm, by omega, by omega⟩)
            (fun hq'0 => by
              unfold MAX_KEY_LEN at hfuel hk64
              omega)
          obtain ⟨act, t', prior, hdes, happ, hroot, hwk, hst, q'', tag, hslot, hget⟩ := ih
          have hq'cur : ∀ fg, k.length + 2 - d ≤ fg → getGo t' k q fg = .ok ⟨v, tag⟩ := by
            obtain ⟨m', hm', hkey', hpre'⟩ := hwk q nq hfind
            have hmcq : m'.child (ucast (k.getD nq.prefix_size 0)) = q'' := by
              have hsv := slotVal_some (ucast (k.getD nq.prefix_size 0)) hm'
              rw [hsv] at hslot
              cases hslot
              rfl
            intro fg hfg
            obtain ⟨fg', rfl⟩ : ∃ fg', fg = fg' + 1 := ⟨fg - 1, by omega⟩
            rw [getGo_node fg' hqz hm']
            rw [hkey', hpre']
            rw [if_neg (by simpa using hmem0), if_neg (by omega), if_neg (by omega)]
            rw [hmcq]
            exact hget fg' (by omega)
          refine ⟨act, t', prior, ?_, happ, hroot, hwk, ?_, ?_⟩
          · rw [putDescend_node f hqz hfind, if_neg hsplit, if_neg hki, hipfx]
            exact hdes
          · intro g m hgm hlt
            exact hst g m hgm (by omega)
          · rcases hP : p with _ | ⟨g0, b0⟩
            · obtain ⟨hqr, hd0⟩ := hpn hP
              refine ⟨t'.root, tag, slotVal_none _, ?_⟩
              rw [hroot, ← hqr]
              intro fg hfg
              exact hq'cur fg (by omega)
            · obtain ⟨n0, hf0, hc0, hd, hp0⟩ := hps g0 b0 hP
              have hf0' : t'.find g0 = some n0 := hst g0 n0 hf0 (by omega)
              refine ⟨q, tag, ?_, ?_⟩
              · rw [slotVal_some b0 hf0', hc0]
              · exact hq'cur

/-- C1: on every well-formed tree, for every non-empty byte key `k` with
`|k| ≤ MAX_KEY_LEN` and every value `v ≠ 0`, `put(k, v, update=true)`
(radix_tree.cc:213-399) succeeds and a subsequent `get(k)`
(radix_tree.cc:401-448) returns a valid tagged value whose gptr component
equals `v`. -/
theorem C1_put_then_get {t : Tree} (hwf : WF t) {k : Key} {v : Nat}
    (hv : v ≠ 0) (hk0 : 0 < k.length) (hk64 : k.length ≤ MAX_KEY_LEN)
    (hbytes : ∀ b ∈ k, b < 256) :
    ∃ t' prior tag, putS t k v true = .ok (t', prior) ∧
      get t' k = .ok ⟨v, tag⟩ ∧ TagGptr.IsValid ⟨v, tag⟩ := by
  obtain ⟨act, t', prior, hdes, happ, hroot, hwk, hst, q', tag, hslot, hget⟩ :=
    put_roundtrip_go hv hk0 hk64 hbytes hwf stdFuel none t.root 0
      (fun _ => ⟨rfl, rfl⟩)
      (fun g0 b0 h => by cases h)
      (fun _ => by
        obtain ⟨rn, hrn, hrp, -⟩ := hwf.root_spec
        refine ⟨rn, hrn, Nat.zero_le _, ?_⟩
        show MAX_KEY_LEN + 2 ≤ MAX_KEY_LEN + 2 + rn.prefix_size + 1
        omega)
      (fun _ => by decide)
  obtain rfl : q' = t'.root := by
    have h := hslot
    simp only [slotVal] at h
    injection h with h2
    exact h2.symm
  refine ⟨t', prior, tag, ?_, ?_, by simpa [TagGptr.IsValid] using hv⟩
  · show put (stdA t) t k v true stdFuel = .ok (t', prior)
    unfold put
    rw [if_pos ⟨hk0, hk64⟩, hdes, exbind_ok]
    exact happ
  · unfold get
    rw [if_pos ⟨hk0, hk64⟩]
    exact hget stdFuel (by show k.length + 2 - 0 ≤ MAX_KEY_LEN + 2; omega)

/-- C1 at a concrete input: inserting key `[65]` with value `7` into the
empty tree and reading it back. -/
theorem C1_put_then_get_witness :
    WF Tree.empty ∧ (7 : Nat) ≠ 0 ∧ 0 < ([65] : Key).length ∧
      ([65] : Key).length ≤ MAX_KEY_LEN ∧ (∀ b ∈ ([65] : Key), b < 256) ∧
      (∃ t' prior tag, putS Tree.empty [65] 7 true = .ok (t', prior) ∧
        get t' [65] = .ok ⟨7, tag⟩ ∧ TagGptr.IsValid ⟨7, tag⟩) :=
  ⟨by show wf Tree.empty = true; decide, by decide, by decide, by decide, by decide,
    C1_put_then_get (by show wf Tree.empty = true; decide)
      (by decide) (by decide) (by decide) (by decide)⟩

/-- A `getGo` descent that returns a valid value pins down a terminal node
(full prefix match, `prefix_size = key_size`), and `putDescend` on the same
key from the same pointer reaches exactly that node's value slot. -/
theorem getGo_valueAt {t : Tree} {k : Key} :
    ∀ (f q : Nat) (p : Option (Nat × Nat)) (tv : TagGptr),
    getGo t k q f = .ok tv → tv.gptr ≠ 0 →
    ∃ g n, putDescend t k p q f = .ok (.valueAt g) ∧ t.find g = some n ∧
      n.value = tv ∧ n.prefix_size = k.length := by
  intro f
  induction f with
  | zero =>
    intro q p tv h hv
    rw [getGo] at h
    simp at h
  | succ f ih =>
    intro q p tv h hv
    by_cases hqz : q = 0
    · subst hqz
      rw [getGo, if_pos rfl] at h
      injection h with h2
      exact absurd (by rw [← h2]) hv
    · rcases hfind : t.find q with _ | n
      · rw [getGo, if_neg hqz] at h
        simp [load, hfind] at h
      · rw [getGo_node f hqz hfind] at h
        by_cases hmm : fam_memcmp k n.key (min n.prefix_size k.length) ≠ 0
        · rw [if_pos hmm] at h
          injection h with h2
          exact absurd (by rw [← h2]) hv
        · rw [if_neg hmm] at h
          have hagree := (fam_memcmp_eq_zero_iff _ _ _).mp (not_not.mp hmm)
          by_cases hps : n.prefix_size = k.length
          · rw [if_pos hps] at h
            injection h with h2
            have hfd : firstDiff k n.key (min k.length n.prefix_size) =
                min k.length n.prefix_size :=
              firstDiff_eq_of_agree _ _ _ (fun i hi => hagree i (by omega))
            refine ⟨q, n, ?_, hfind, h2, hps⟩
            rw [putDescend_node f hqz hfind, if_neg (by omega), if_pos (by omega)]
          · rw [if_neg hps] at h
            by_cases hlen : k.length < n.prefix_size
            · rw [if_pos hlen] at h
              simp at h
            · rw [if_neg hlen] at h
              have hpslt : n.prefix_size < k.length := by omega
              have hfd : firstDiff k n.key (min k.length n.prefix_size) =
                  n.prefix_size := by
                have hm : min k.length n.prefix_size = n.prefix_size := by omega
                rw [hm]
                exact firstDiff_eq_of_agree _ _ _ (fun i hi => hagree i (by omega))
              obtain ⟨g, m, hdes, hfg, hval, hsz⟩ :=
                ih (n.child (ucast (k.getD n.prefix_size 0)))
                  (some (q, ucast (k.getD n.prefix_size 0))) tv h hv
              refine ⟨g, m, ?_, hfg, hval, hsz⟩
              rw [putDescend_node f hqz hfind, if_neg (by omega), if_neg (by omega),
                hfd]
              exact hdes

/-- C2: for every key `k` already present with a valid value,
`put(k, v2, update=false)` (radix_tree.cc:251-293) returns the existing
tagged value and leaves the tree object itself unchanged, so a subsequent
`get(k)` still yields the same tagged value. -/
theorem C2_put_no_update_preserves {t : Tree} {k : Key} {v2 : Nat}
    {tv : TagGptr} (hget : get t k = .ok tv) (hvalid : TagGptr.IsValid tv) :
    putS t k v2 false = .ok (t, tv) ∧ get t k = .ok tv := by
  have hg0 : tv.gptr ≠ 0 := by simpa [TagGptr.IsValid] using hvalid
  have hcond : 0 < k.length ∧ k.length ≤ MAX_KEY_LEN := by
    by_contra hc
    rw [get, if_neg hc] at hget
    simp at hget
  have hget' := hget
  rw [get, if_pos hcond] at hget'
  obtain ⟨g, n, hdes, hfg, hval, hsz⟩ :=
    getGo_valueAt stdFuel t.root none tv hget' hg0
  refine ⟨?_, hget⟩
  show put (stdA t) t k v2 false stdFuel = .ok (t, tv)
  unfold put
  rw [if_pos hcond, hdes, exbind_ok]
  show putApply (stdA t) t k v2 false (.valueAt g) = .ok (t, tv)
  simp [putApply, load, hfg, hval, TagGptr.IsValid, hg0]

/-- C2 at a concrete input: on the tree holding only key `[65, 66]` with
value `200`, `put([65, 66], 999, update=false)` returns the tree unchanged
together with the existing tagged value. -/
theorem C2_put_no_update_preserves_witness :
    get tAB [65, 66] = .ok ⟨200, 0⟩ ∧ TagGptr.IsValid ⟨200, 0⟩ ∧
      (putS tAB [65, 66] 999 false = .ok (tAB, ⟨200, 0⟩) ∧
        get tAB [65, 66] = .ok ⟨200, 0⟩) :=
  ⟨by decide, by decide, C2_put_no_update_preserves (by decide) (by decide)⟩

/-- Two stores at the same pointer collapse to the second. -/
theorem storeNode_storeNode (t : Tree) (g : Nat) (a b : Node) :
    storeNode (storeNode t g a) g b = storeNode t g b := by
  have h : ∀ mem : List (Nat × Node),
      memStore (memStore mem g a) g b = memStore mem g b := by
    intro mem
    induction mem with
    | nil => rfl
    | cons p rest ih =>
      obtain ⟨g', n'⟩ := p
      by_cases hg : g' = g
      · simp [memStore, hg, ih]
      · simp [memStore, hg, ih]
  simp [storeNode, h]

/-- A `getGo` descent that returns a valid value reaches a terminal node
whose value slot alone determines the result: rewriting that slot redirects
`get`, `putDescend` still terminates at that node, and `destroyGo` CAS-stores
`(0, tag + 1)` there and returns the prior value. -/
theorem getGo_terminal {t : Tree} {k : Key} :
    ∀ (f q : Nat) (tv : TagGptr), getGo t k q f = .ok tv → tv.gptr ≠ 0 →
    ∃ g n, t.find g = some n ∧ n.value = tv ∧ n.prefix_size = k.length ∧
      (∀ w, getGo (storeNode t g { n with value := w }) k q f = .ok w) ∧
      (∀ (w : TagGptr) (p : Option (Nat × Nat)),
        putDescend (storeNode t g { n with value := w }) k p q f =
          .ok (.valueAt g)) ∧
      destroyGo t k q f =
        .ok (storeNode t g { n with value := ⟨0, n.value.tag + 1⟩ }, n.value) := by
  intro f
  induction f with
  | zero =>
    intro q tv h hv
    rw [getGo] at h
    simp at h
  | succ f ih =>
    intro q tv h hv
    by_cases hqz : q = 0
    · subst hqz
      rw [getGo, if_pos rfl] at h
      injection h with h2
      exact absurd (by rw [← h2]) hv
    · rcases hfind : t.find q with _ | n
      · rw [getGo, if_neg hqz] at h
        simp [load, hfind] at h
      · rw [getGo_node f hqz hfind] at h
        by_cases hmm : fam_memcmp k n.key (min n.prefix_size k.length) ≠ 0
        · rw [if_pos hmm] at h
          injection h with h2
          exact absurd (by rw [← h2]) hv
        · rw [if_neg hmm] at h
          have hagree := (fam_memcmp_eq_zero_iff _ _ _).mp (not_not.mp hmm)
          by_cases hps : n.prefix_size = k.length
          · rw [if_pos hps] at h
            injection h with h2
            have hfd : firstDiff k n.key (min k.length n.prefix_size) =
                min k.length n.prefix_size :=
              firstDiff_eq_of_agree _ _ _ (fun i hi => hagree i (by omega))
            refine ⟨q, n, hfind, h2, hps, ?_, ?_, ?_⟩
            · intro w
              have hf' : (storeNode t q { n with value := w }).find q =
                  some { n with value := w } := by
                rw [find_storeNode_self, hfind]
                rfl
              rw [getGo_node f hqz hf']
              rw [if_neg (by simpa using not_not.mp hmm), if_pos (by simpa using hps)]
            · intro w p
              have hf' : (storeNode t q { n with value := w }).find q =
                  some { n with value := w } := by
                rw [find_storeNode_self, hfind]
                rfl
              rw [putDescend_node f hqz hf']
              show (if firstDiff k n.key (min k.length n.prefix_size) < n.prefix_size
                  then _ else if k.length = firstDiff k n.key (min k.length n.prefix_size)
                  then Except.ok (PutAct.valueAt q) else _) = _
              rw [if_neg (by omega), if_pos (by omega)]
            · rw [destroyGo_node f hqz hfind, if_neg hmm, if_pos hps]
          · rw [if_neg hps] at h
            by_cases hlen : k.length < n.prefix_size
            · rw [if_pos hlen] at h
              simp at h
            · rw [if_neg hlen] at h
              have hpslt : n.prefix_size < k.length := by omega
              have hfd : firstDiff k n.key (min k.length n.prefix_size) =
                  n.prefix_size := by
                have hm : min k.length n.prefix_size = n.prefix_size := by omega
                rw [hm]
                exact firstDiff_eq_of_agree _ _ _ (fun i hi => hagree i (by omega))
              obtain ⟨g, m, hfg, hval, hsz, hWget, hWdes, hdest⟩ := ih _ tv h hv
              have hqg : q ≠ g := by
                intro he
                rw [he, hfg] at hfind
                injection hfind with h3
                exact hps (h3 ▸ hsz)
              refine ⟨g, m, hfg, hval, hsz, ?_, ?_, ?_⟩
              · intro w
                have hf' : (storeNode t g { m with value := w }).find q = some n := by
                  rw [find_storeNode_ne _ _ _ _ hqg]
                  exact hfind
                rw [getGo_node f hqz hf', if_neg hmm, if_neg hps, if_neg hlen]
                exact hWget w
              · intro w p
                have hf' : (storeNode t g { m with value := w }).find q = some n := by
                  rw [find_storeNode_ne _ _ _ _ hqg]
                  exact hfind
                rw [putDescend_node f hqz hf', if_neg (by omega), if_neg (by omega),
                  hfd]
                exact hWdes w _
              · rw [destroyGo_node f hqz hfind, if_neg hmm, if_neg hps, if_neg hlen]
                exact hdest

/-- C3: for every key `k` present with a valid value, `destroy(k)`
(radix_tree.cc:450-493) returns the prior tagged value and afterwards
`get(k)` returns an invalid tagged value; the next `put(k, v)` with either
update flag (radix_tree.cc:251-293) returns an invalid prior tagged value,
and a subsequent `get(k)` yields `v`. -/
theorem C3_destroy_then_put {t : Tree} {k : Key} {v : Nat} {tv : TagGptr}
    (hget : get t k = .ok tv) (hvalid : TagGptr.IsValid tv) (hv : v ≠ 0) :
    ∃ t1, destroy t k = .ok (t1, tv) ∧
      (∃ tv1, get t1 k = .ok tv1 ∧ ¬ TagGptr.IsValid tv1) ∧
      ∀ u : Bool, ∃ t2 prior tag, putS t1 k v u = .ok (t2, prior) ∧
        ¬ TagGptr.IsValid prior ∧ get t2 k = .ok ⟨v, tag⟩ ∧
        TagGptr.IsValid ⟨v, tag⟩ := by
  have hg0 : tv.gptr ≠ 0 := by simpa [TagGptr.IsValid] using hvalid
  have hcond : 0 < k.length ∧ k.length ≤ MAX_KEY_LEN := by
    by_contra hc
    rw [get, if_neg hc] at hget
    simp at hget
  rw [get, if_pos hcond] at hget
  obtain ⟨g, n, hfg, hval, hsz, hWget, hWdes, hdest⟩ :=
    getGo_terminal stdFuel t.root tv hget hg0
  refine ⟨storeNode t g { n with value := ⟨0, n.value.tag + 1⟩ }, ?_,
    ⟨⟨0, n.value.tag + 1⟩, ?_, by simp [TagGptr.IsValid]⟩, ?_⟩
  · unfold destroy
    rw [if_pos hcond, hdest, hval]
  · unfold get
    rw [if_pos hcond]
    exact hWget ⟨0, n.value.tag + 1⟩
  · intro u
    have hfg1 : (storeNode t g { n with value := ⟨0, n.value.tag + 1⟩ }).find g =
        some { n with value := ⟨0, n.value.tag + 1⟩ } := by
      rw [find_storeNode_self, hfg]
      rfl
    refine ⟨storeNode (storeNode t g { n with value := ⟨0, n.value.tag + 1⟩ }) g
        { n with value := ⟨v, n.value.tag + 1 + 1⟩ },
      ⟨0, n.value.tag + 1⟩, n.value.tag + 1 + 1, ?_,
      by simp [TagGptr.IsValid], ?_, by simpa [TagGptr.IsValid] using hv⟩
    · show put (stdA _) _ k v u stdFuel = _
      unfold put
      rw [if_pos hcond]
      show (do
        let act ← putDescend
          (storeNode t g { n with value := ⟨0, n.value.tag + 1⟩ }) k none t.root
          stdFuel
        putApply (stdA (storeNode t g { n with value := ⟨0, n.value.tag + 1⟩ }))
          (storeNode t g { n with value := ⟨0, n.value.tag + 1⟩ }) k v u act) = _
      rw [hWdes ⟨0, n.value.tag + 1⟩ none, exbind_ok]
      cases u
      · simp [putApply, load, hfg1, TagGptr.IsValid]
      · simp [putApply, load, hfg1]
    · unfold get
      rw [if_pos hcond, storeNode_storeNode]
      exact hWget ⟨v, n.value.tag + 1 + 1⟩

/-- C3 at a concrete input: on the tree holding only key `[65, 66]` with
value `200`, destroying that key, reading it back, and re-inserting value
`7`. -/
theorem C3_destroy_then_put_witness :
    get tAB [65, 66] = .ok ⟨200, 0⟩ ∧ TagGptr.IsValid ⟨200, 0⟩ ∧ (7 : Nat) ≠ 0 ∧
      (∃ t1, destroy tAB [65, 66] = .ok (t1, ⟨200, 0⟩) ∧
        (∃ tv1, get t1 [65, 66] = .ok tv1 ∧ ¬ TagGptr.IsValid tv1) ∧
        ∀ u : Bool, ∃ t2 prior tag, putS t1 [65, 66] 7 u = .ok (t2, prior) ∧
          ¬ TagGptr.IsValid prior ∧ get t2 [65, 66] = .ok ⟨7, tag⟩ ∧
          TagGptr.IsValid ⟨7, tag⟩) :=
  ⟨by decide, by decide, by decide,
    C3_destroy_then_put (by decide) (by decide) (by decide)⟩

/-- Storing a value with `tag + 1` at one node leaves every allocated node's
value either unchanged or tag-incremented by exactly one. -/
theorem store_value_frame {t : Tree} {g0 : Nat} {n0 : Node}
    (hf0 : t.find g0 = some n0) (w : TagGptr) (hw : w.tag = n0.value.tag + 1) :
    ∀ g m, t.find g = some m →
      ∃ m', (storeNode t g0 { n0 with value := w }).find g = some m' ∧
        (m'.value = m.value ∨ m'.value.tag = m.value.tag + 1) := by
  intro g m hgm
  by_cases hgg : g = g0
  · subst hgg
    rw [hgm] at hf0
    injection hf0 with h2
    subst h2
    refine ⟨{ m with value := w }, ?_, Or.inr (by simpa using hw)⟩
    rw [find_storeNode_self, hgm]
    rfl
  · refine ⟨m, ?_, Or.inl rfl⟩
    rw [find_storeNode_ne _ _ _ _ hgg]
    exact hgm

/-- The final pointer swing of an insertion never touches a value slot. -/
theorem setSlot_value_frame {t1 : Tree} {p : Option (Nat × Nat)} {newp : Nat}
    {t2 : Tree} (h : setSlot t1 p newp = .ok t2) :
    ∀ g m, t1.find g = some m → ∃ m', t2.find g = some m' ∧ m'.value = m.value := by
  cases p with
  | none => simp [setSlot] at h
  | some pb =>
    obtain ⟨g0, b0⟩ := pb
    rcases hf0 : t1.find g0 with _ | n0
    · simp [setSlot, load, hf0] at h
    · simp only [setSlot, load, hf0, exbind_ok] at h
      injection h with h2
      subst h2
      intro g m hgm
      by_cases hgg : g = g0
      · subst hgg
        rw [hgm] at hf0
        injection hf0 with h3
        subst h3
        refine ⟨setChild m b0 newp, ?_, rfl⟩
        rw [find_storeNode_self, hgm]
        rfl
      · refine ⟨m, ?_, rfl⟩
        rw [find_storeNode_ne _ _ _ _ hgg]
        exact hgm

/-- `destroyGo` leaves every allocated node's value unchanged or
tag-incremented by exactly one. -/
theorem destroyGo_value_frame {t : Tree} {k : Key} :
    ∀ (f q : Nat) {t' : Tree} {r : TagGptr},
    destroyGo t k q f = .ok (t', r) →
    ∀ g m, t.find g = some m → ∃ m', t'.find g = some m' ∧
      (m'.value = m.value ∨ m'.value.tag = m.value.tag + 1) := by
  intro f
  induction f with
  | zero =>
    intro q t' r h
    rw [destroyGo] at h
    simp at h
  | succ f ih =>
    intro q t' r h
    by_cases hqz : q = 0
    · subst hqz
      rw [destroyGo, if_pos rfl] at h
      injection h with h2
      injection h2 with h3 h4
      subst h3
      intro g m hgm
      exact ⟨m, hgm, Or.inl rfl⟩
    · rcases hfind : t.find q with _ | n
      · rw [destroyGo, if_neg hqz] at h
        simp [load, hfind] at h
      · rw [destroyGo_node f hqz hfind] at h
        by_cases hmm : fam_memcmp k n.key (min n.prefix_size k.length) ≠ 0
        · rw [if_pos hmm] at h
          injection h with h2
          injection h2 with h3 h4
          subst h3
          intro g m hgm
          exact ⟨m, hgm, Or.inl rfl⟩
        · rw [if_neg hmm] at h
          by_cases hps : n.prefix_size = k.length
          · rw [if_pos hps] at h
            injection h with h2
            injection h2 with h3 h4
            subst h3
            exact store_value_frame hfind _ rfl
          · rw [if_neg hps] at h
            by_cases hlen : k.length < n.prefix_size
            · rw [if_pos hlen] at h
              simp at h
            · rw [if_neg hlen] at h
              exact ih _ h

/-- `destroyCGo` leaves every allocated node's value unchanged or
tag-incremented by exactly one. -/
theorem destroyCGo_value_frame {t : Tree} {k : Key} :
    ∀ (f q : Nat) {t' : Tree} {r : Nat × TagGptr × TagGptr},
    destroyCGo t k q f = .ok (t', r) →
    ∀ g m, t.find g = some m → ∃ m', t'.find g = some m' ∧
      (m'.value = m.value ∨ m'.value.tag = m.value.tag + 1) := by
  intro f
  induction f with
  | zero =>
    intro q t' r h
    rw [destroyCGo] at h
    simp at h
  | succ f ih =>
    intro q t' r h
    by_cases hqz : q = 0
    · subst hqz
      rw [destroyCGo, if_pos rfl] at h
      injection h with h2
      injection h2 with h3 h4
      subst h3
      intro g m hgm
      exact ⟨m, hgm, Or.inl rfl⟩
    · rcases hfind : t.find q with _ | n
      · rw [destroyCGo, if_neg hqz] at h
        simp [load, hfind] at h
      · rw [destroyCGo_node f hqz hfind] at h
        by_cases hmm : fam_memcmp k n.key (min n.prefix_size k.length) ≠ 0
        · rw [if_pos hmm] at h
          injection h with h2
          injection h2 with h3 h4
          subst h3
          intro g m hgm
          exact ⟨m, hgm, Or.inl rfl⟩
        · rw [if_neg hmm] at h
          by_cases hps : n.prefix_size = k.length
          · rw [if_pos hps] at h
            injection h with h2
            injection h2 with h3 h4
            subst h3
            exact store_value_frame hfind _ rfl
          · rw [if_neg hps] at h
            by_cases hlen : k.length < n.prefix_size
            · rw [if_pos hlen] at h
              simp at h
            · rw [if_neg hlen] at h
              exact ih _ h

/-- `putApply` leaves every allocated node's value unchanged or
tag-incremented by exactly one. -/
theorem putApply_value_frame {t : Tree} (hwf : WF t) (k : Key) (v : Nat)
    (u : Bool) (act : PutAct) {t' : Tree} {r : TagGptr}
    (h : putApply (stdA t) t k v u act = .ok (t', r)) :
    ∀ g m, t.find g = some m → ∃ m', t'.find g = some m' ∧
      (m'.value = m.value ∨ m'.value.tag = m.value.tag + 1) := by
  have halloc : allocRetry (stdA t) 0 alloc_retry_cnt = (t.next + 0, 0 + 1) :=
    @allocRetry_stdA t hwf 0 alloc_retry_cnt (by decide)
  have hfresh : (allocRetry (stdA t) 0 alloc_retry_cnt).1 = t.next := by
    rw [halloc]
    rfl
  cases act with
  | valueAt g0 =>
    rcases hf0 : t.find g0 with _ | n0
    · simp [putApply, load, hf0] at h
    · simp only [putApply, load, hf0, exbind_ok] at h
      cases u with
      | true =>
        rw [if_pos rfl] at h
        injection h with h2
        injection h2 with h3 h4
        subst h3
        exact store_value_frame hf0 _ rfl
      | false =>
        rw [if_neg (by simp)] at h
        by_cases hval : TagGptr.IsValid n0.value
        · rw [if_pos hval] at h
          injection h with h2
          injection h2 with h3 h4
          subst h3
          intro g m hgm
          exact ⟨m, hgm, Or.inl rfl⟩
        · rw [if_neg hval] at h
          injection h with h2
          injection h2 with h3 h4
          subst h3
          exact store_value_frame hf0 _ rfl
  | leafAt p =>
    by_cases hc : (allocRetry (stdA t) 0 alloc_retry_cnt).1 = 0
    · simp only [putApply, if_pos hc] at h
      simp at h
    · simp only [putApply, if_neg hc] at h
      rw [hfresh] at h
      rcases hss : setSlot (addNode t t.next (mkLeaf k v)) p t.next with e | t2
      · rw [hss] at h
        simp at h
      · rw [hss, exbind_ok] at h
        injection h with h2
        injection h2 with h3 h4
        subst h3
        intro g m hgm
        have hglt := (hwf.find_fresh hgm).2
        obtain ⟨m', hm', hveq⟩ := setSlot_value_frame hss g m
          (find_addNode_old hwf hgm (Nat.le_refl _))
        exact ⟨m', hm', Or.inl hveq⟩
  | splitAt p q i ex =>
    by_cases hc : (allocRetry (stdA t) 0 alloc_retry_cnt).1 = 0
    · simp only [putApply, if_pos hc] at h
      simp at h
    · by_cases hik : i = k.length
      · simp only [putApply, if_neg hc, if_pos hik] at h
        rw [hfresh] at h
        rcases hss : setSlot (addNode t t.next (interEnd k v i ex q)) p t.next
          with e | t2
        · rw [hss] at h
          simp at h
        · rw [hss, exbind_ok] at h
          injection h with h2
          injection h2 with h3 h4
          subst h3
          intro g m hgm
          have hglt := (hwf.find_fresh hgm).2
          obtain ⟨m', hm', hveq⟩ := setSlot_value_frame hss g m
            (find_addNode_old hwf hgm (Nat.le_refl _))
          exact ⟨m', hm', Or.inl hveq⟩
      · have hfresh2 : (allocRetry (stdA t)
            (allocRetry (stdA t) 0 alloc_retry_cnt).2 alloc_retry_cnt).1 =
            t.next + 1 := by
          rw [halloc]
          exact congrArg Prod.fst (@allocRetry_stdA t hwf _ alloc_retry_cnt (by decide))
        by_cases hc2 : (allocRetry (stdA t)
            (allocRetry (stdA t) 0 alloc_retry_cnt).2 alloc_retry_cnt).1 = 0
        · simp only [putApply, if_neg hc, if_neg hik, if_pos hc2] at h
          simp at h
        · simp only [putApply, if_neg hc, if_neg hik, if_neg hc2] at h
          rw [hfresh, hfresh2] at h
          rcases hss : setSlot (addNode (addNode t t.next
              (interMid k i ex q (ucast (k.getD i 0)) (t.next + 1)))
            (t.next + 1) (mkLeaf k v)) p t.next with e | t2
          · rw [hss] at h
            simp at h
          · rw [hss, exbind_ok] at h
            injection h with h2
            injection h2 with h3 h4
            subst h3
            intro g m hgm
            have hglt := (hwf.find_fresh hgm).2
            have hfg1 : (addNode (addNode t t.next
                (interMid k i ex q (ucast (k.getD i 0)) (t.next + 1)))
                (t.next + 1) (mkLeaf k v)).find g = some m := by
              rw [find_addNode_ne _ _ _ _ (by omega),
                find_addNode_ne _ _ _ _ (by omega)]
              exact hgm
            obtain ⟨m', hm', hveq⟩ := setSlot_value_frame hss g m hfg1
            exact ⟨m', hm', Or.inl hveq⟩

/-- `putCApply` leaves every allocated node's value unchanged or
tag-incremented by exactly one. -/
theorem putCApply_value_frame {t : Tree} (hwf : WF t) (k : Key) (v : Nat)
    (act : PutAct) {t' : Tree} {r : Nat × TagGptr × TagGptr}
    (h : putCApply (stdA t) t k v act = .ok (t', r)) :
    ∀ g m, t.find g = some m → ∃ m', t'.find g = some m' ∧
      (m'.value = m.value ∨ m'.value.tag = m.value.tag + 1) := by
  have halloc : allocRetry (stdA t) 0 alloc_retry_cnt = (t.next + 0, 0 + 1) :=
    @allocRetry_stdA t hwf 0 alloc_retry_cnt (by decide)
  have hfresh : (allocRetry (stdA t) 0 alloc_retry_cnt).1 = t.next := by
    rw [halloc]
    rfl
  cases act with
  | valueAt g0 =>
    rcases hf0 : t.find g0 with _ | n0
    · simp [putCApply, load, hf0] at h
    · simp only [putCApply, load, hf0, exbind_ok] at h
      injection h with h2
      injection h2 with h3 h4
      subst h3
      exact store_value_frame hf0 _ rfl
  | leafAt p =>
    by_cases hc : (allocRetry (stdA t) 0 alloc_retry_cnt).1 = 0
    · simp only [putCApply, if_pos hc] at h
      simp at h
    · simp only [putCApply, if_neg hc] at h
      rw [hfresh] at h
      rcases hss : setSlot (addNode t t.next (mkLeaf k v)) p t.next with e | t2
      · rw [hss] at h
        simp at h
      · rw [hss, exbind_ok] at h
        injection h with h2
        injection h2 with h3 h4
        subst h3
        intro g m hgm
        have hglt := (hwf.find_fresh hgm).2
        obtain ⟨m', hm', hveq⟩ := setSlot_value_frame hss g m
          (find_addNode_old hwf hgm (Nat.le_refl _))
        exact ⟨m', hm', Or.inl hveq⟩
  | splitAt p q i ex =>
    by_cases hc : (allocRetry (stdA t) 0 alloc_retry_cnt).1 = 0
    · simp only [putCApply, if_pos hc] at h
      simp at h
    · by_cases hik : i = k.length
      · simp only [putCApply, if_neg hc, if_pos hik] at h
        rw [hfresh] at h
        rcases hss : setSlot (addNode t t.next (interEnd k v i ex q)) p t.next
          with e | t2
        · rw [hss] at h
          simp at h
        · rw [hss, exbind_ok] at h
          injection h with h2
          injection h2 with h3 h4
          subst h3
          intro g m hgm
          have hglt := (hwf.find_fresh hgm).2
          obtain ⟨m', hm', hveq⟩ := setSlot_value_frame hss g m
            (find_addNode_old hwf hgm (Nat.le_refl _))
          exact ⟨m', hm', Or.inl hveq⟩
      · have hfresh2 : (allocRetry (stdA t)
            (allocRetry (stdA t) 0 alloc_retry_cnt).2 alloc_retry_cnt).1 =
            t.next + 1 := by
          rw [halloc]
          exact congrArg Prod.fst (@allocRetry_stdA t hwf _ alloc_retry_cnt (by decide))
        by_cases hc2 : (allocRetry (stdA t)
            (allocRetry (stdA t) 0 alloc_retry_cnt).2 alloc_retry_cnt).1 = 0
        · simp only [putCApply, if_neg hc, if_neg hik, if_pos hc2] at h
          simp at h
        · simp only [putCApply, if_neg hc, if_neg hik, if_neg hc2] at h
          rw [hfresh, hfresh2] at h
          rcases hss : setSlot (addNode (addNode t t.next
              (interMid k i ex q (ucast (k.getD i 0)) (t.next + 1)))
            (t.next + 1) (mkLeaf k v)) p t.next with e | t2
          · rw [hss] at h
            simp at h
          · rw [hss, exbind_ok] at h
            injection h with h2
            injection h2 with h3 h4
            subst h3
            intro g m hgm
            have hglt := (hwf.find_fresh hgm).2
            have hfg1 : (addNode (addNode t t.next
                (interMid k i ex q (ucast (k.getD i 0)) (t.next + 1)))
                (t.next + 1) (mkLeaf k v)).find g = some m := by
              rw [find_addNode_ne _ _ _ _ (by omega),
                find_addNode_ne _ _ _ _ (by omega)]
              exact hgm
            obtain ⟨m', hm', hveq⟩ := setSlot_value_frame hss g m hfg1
            exact ⟨m', hm', Or.inl hveq⟩

/-- C4: each of the four value-mutating operations (`put` with either update
flag, `destroy`, `putC`, `destroyC`; radix_tree.cc:269-293, 475-481,
948-1013, 1136-1153) changes an allocated node's value slot only by a CAS
storing exactly `tag + 1` relative to the tagged value it observed: after a
successful call, every node allocated before it has its value either
untouched or with its tag incremented by exactly one. -/
theorem C4_value_cas_increments_tag {t : Tree} (hwf : WF t) (k : Key)
    (v : Nat) (u : Bool) :
    (∀ t' r, putS t k v u = .ok (t', r) →
      ∀ g m, t.find g = some m → ∃ m', t'.find g = some m' ∧
        (m'.value = m.value ∨ m'.value.tag = m.value.tag + 1)) ∧
    (∀ t' r, destroy t k = .ok (t', r) →
      ∀ g m, t.find g = some m → ∃ m', t'.find g = some m' ∧
        (m'.value = m.value ∨ m'.value.tag = m.value.tag + 1)) ∧
    (∀ t' r, putCS t k v = .ok (t', r) →
      ∀ g m, t.find g = some m → ∃ m', t'.find g = some m' ∧
        (m'.value = m.value ∨ m'.value.tag = m.value.tag + 1)) ∧
    (∀ t' r, destroyC t k = .ok (t', r) →
      ∀ g m, t.find g = some m → ∃ m', t'.find g = some m' ∧
        (m'.value = m.value ∨ m'.value.tag = m.value.tag + 1)) := by
  refine ⟨?_, ?_, ?_, ?_⟩
  · intro t' r h
    unfold putS put at h
    by_cases hcond : 0 < k.length ∧ k.length ≤ MAX_KEY_LEN
    · rw [if_pos hcond] at h
      rcases hdes : putDescend t k none t.root stdFuel with e | act
      · rw [hdes] at h
        simp at h
      · rw [hdes, exbind_ok] at h
        exact putApply_value_frame hwf k v u act h
    · rw [if_neg hcond] at h
      simp at h
  · intro t' r h
    unfold destroy at h
    by_cases hcond : 0 < k.length ∧ k.length ≤ MAX_KEY_LEN
    · rw [if_pos hcond] at h
      exact destroyGo_value_frame stdFuel t.root h
    · rw [if_neg hcond] at h
      simp at h
  · intro t' r h
    unfold putCS putC at h
    by_cases hcond : 0 < k.length ∧ k.length ≤ MAX_KEY_LEN
    · rw [if_pos hcond] at h
      rcases hdes : putDescend t k none t.root stdFuel with e | act
      · rw [hdes] at h
        simp at h
      · rw [hdes, exbind_ok] at h
        exact putCApply_value_frame hwf k v act h
    · rw [if_neg hcond] at h
      simp at h
  · intro t' r h
    unfold destroyC at h
    by_cases hcond : 0 < k.length ∧ k.length ≤ MAX_KEY_LEN
    · rw [if_pos hcond] at h
      exact destroyCGo_value_frame stdFuel t.root h
    · rw [if_neg hcond] at h
      simp at h

/-- C4 at a concrete input: the four operations on the tree holding only key
`[65, 66]`, inserting or destroying key `[65, 66]` with value `7`. -/
theorem C4_value_cas_increments_tag_witness :
    WF tAB ∧
      ((∀ t' r, putS tAB [65, 66] 7 true = .ok (t', r) →
        ∀ g m, tAB.find g = some m → ∃ m', t'.find g = some m' ∧
          (m'.value = m.value ∨ m'.value.tag = m.value.tag + 1)) ∧
      (∀ t' r, destroy tAB [65, 66] = .ok (t', r) →
        ∀ g m, tAB.find g = some m → ∃ m', t'.find g = some m' ∧
          (m'.value = m.value ∨ m'.value.tag = m.value.tag + 1)) ∧
      (∀ t' r, putCS tAB [65, 66] 7 = .ok (t', r) →
        ∀ g m, tAB.find g = some m → ∃ m', t'.find g = some m' ∧
          (m'.value = m.value ∨ m'.value.tag = m.value.tag + 1)) ∧
      (∀ t' r, destroyC tAB [65, 66] = .ok (t', r) →
        ∀ g m, tAB.find g = some m → ∃ m', t'.find g = some m' ∧
          (m'.value = m.value ∨ m'.value.tag = m.value.tag + 1))) :=
  ⟨by show wf tAB = true; decide,
    C4_value_cas_increments_tag (by show wf tAB = true; decide) [65, 66] 7 true⟩

/-- A `getCGo` descent returning a nonzero node pointer pins down the
matching node, and both `destroy` descents CAS `(0, tag + 1)` into exactly
that node's value slot, returning the prior value. -/
theorem getCGo_terminal {t : Tree} {k : Key} :
    ∀ (f q g : Nat) (tv : TagGptr), getCGo t k q f = .ok (g, tv) → g ≠ 0 →
    ∃ n, t.find g = some n ∧ n.value = tv ∧ n.prefix_size = k.length ∧
      destroyGo t k q f =
        .ok (storeNode t g { n with value := ⟨0, n.value.tag + 1⟩ }, n.value) ∧
      destroyCGo t k q f =
        .ok (storeNode t g { n with value := ⟨0, n.value.tag + 1⟩ }, g,
          ⟨0, n.value.tag + 1⟩, n.value) := by
  intro f
  induction f with
  | zero =>
    intro q g tv h hg
    rw [getCGo] at h
    simp at h
  | succ f ih =>
    intro q g tv h hg
    by_cases hqz : q = 0
    · subst hqz
      rw [getCGo, if_pos rfl] at h
      injection h with h2
      injection h2 with h3 h4
      exact absurd h3.symm hg
    · rcases hfind : t.find q with _ | n
      · rw [getCGo, if_neg hqz] at h
        simp [load, hfind] at h
      · rw [getCGo_node f hqz hfind] at h
        by_cases hmm : fam_memcmp k n.key (min n.prefix_size k.length) ≠ 0
        · rw [if_pos hmm] at h
          injection h with h2
          injection h2 with h3 h4
          exact absurd h3.symm hg
        · rw [if_neg hmm] at h
          by_cases hps : n.prefix_size = k.length
          · rw [if_pos hps] at h
            injection h with h2
            injection h2 with h3 h4
            subst h3
            refine ⟨n, hfind, h4, hps, ?_, ?_⟩
            · rw [destroyGo_node f hqz hfind, if_neg hmm, if_pos hps]
            · rw [destroyCGo_node f hqz hfind, if_neg hmm, if_pos hps]
          · rw [if_neg hps] at h
            by_cases hlen : k.length < n.prefix_size
            · rw [if_pos hlen] at h
              simp at h
            · rw [if_neg hlen] at h
              obtain ⟨m, hfg, hval, hsz, hdest, hdestC⟩ := ih _ g tv h hg
              refine ⟨m, hfg, hval, hsz, ?_, ?_⟩
              · rw [destroyGo_node f hqz hfind, if_neg hmm, if_neg hps, if_neg hlen]
                exact hdest
              · rw [destroyCGo_node f hqz hfind, if_neg hmm, if_neg hps, if_neg hlen]
                exact hdestC

/-- C10: for every key whose matching node exists (`getC` returns its nonzero
pointer) but whose value slot is invalid, `destroy` (radix_tree.cc:467-482)
and `destroyC` (radix_tree.cc:1136-1153) return that invalid tagged value yet
still CAS-store `(0, tag + 1)` into the node: the not-found result is not
effect-free, the node's value tag increments by exactly one. -/
theorem C10_destroy_invalid_not_effect_free {t : Tree} {k : Key} {g : Nat}
    {tv : TagGptr} (hgetc : getC t k = .ok (g, tv)) (hg : g ≠ 0)
    (hinv : ¬ TagGptr.IsValid tv) :
    ∃ n, t.find g = some n ∧
      destroy t k =
        .ok (storeNode t g { n with value := ⟨0, n.value.tag + 1⟩ }, tv) ∧
      ¬ TagGptr.IsValid tv ∧
      (storeNode t g { n with value := ⟨0, n.value.tag + 1⟩ }).find g =
        some { n with value := ⟨0, n.value.tag + 1⟩ } ∧
      destroyC t k =
        .ok (storeNode t g { n with value := ⟨0, n.value.tag + 1⟩ }, g,
          ⟨0, n.value.tag + 1⟩, tv) := by
  have hcond : 0 < k.length ∧ k.length ≤ MAX_KEY_LEN := by
    by_contra hc
    rw [getC, if_neg hc] at hgetc
    simp at hgetc
  rw [getC, if_pos hcond] at hgetc
  obtain ⟨n, hfg, hval, hsz, hdest, hdestC⟩ :=
    getCGo_terminal stdFuel t.root g tv hgetc hg
  refine ⟨n, hfg, ?_, hinv, ?_, ?_⟩
  · unfold destroy
    rw [if_pos hcond, hdest, hval]
  · rw [find_storeNode_self, hfg]
    rfl
  · unfold destroyC
    rw [if_pos hcond, hdestC, hval]

/-- C10 at a concrete input: the tree holding key `[65, 66]` whose node (at
pointer 2) was left with the invalid value `(0, 1)` by a destroy. -/
theorem C10_destroy_invalid_not_effect_free_witness :
    getC (storeNode tAB 2 { key := [65, 66], prefix_size := 2, child := fun x => 0, value := ⟨0, 1⟩ }) [65, 66] = .ok (2, ⟨0, 1⟩) ∧
      (2 : Nat) ≠ 0 ∧ ¬ TagGptr.IsValid ⟨0, 1⟩ ∧
      (∃ n, (storeNode tAB 2 { key := [65, 66], prefix_size := 2, child := fun x => 0, value := ⟨0, 1⟩ }).find 2 = some n ∧
        destroy (storeNode tAB 2 { key := [65, 66], prefix_size := 2, child := fun x => 0, value := ⟨0, 1⟩ }) [65, 66] =
          .ok (storeNode (storeNode tAB 2 { key := [65, 66], prefix_size := 2, child := fun x => 0, value := ⟨0, 1⟩ }) 2
            { n with value := ⟨0, n.value.tag + 1⟩ }, ⟨0, 1⟩) ∧
        ¬ TagGptr.IsValid ⟨0, 1⟩ ∧
        (storeNode (storeNode tAB 2 { key := [65, 66], prefix_size := 2, child := fun x => 0, value := ⟨0, 1⟩ }) 2
          { n with value := ⟨0, n.value.tag + 1⟩ }).find 2 =
          some { n with value := ⟨0, n.value.tag + 1⟩ } ∧
        destroyC (storeNode tAB 2 { key := [65, 66], prefix_size := 2, child := fun x => 0, value := ⟨0, 1⟩ }) [65, 66] =
          .ok (storeNode (storeNode tAB 2 { key := [65, 66], prefix_size := 2, child := fun x => 0, value := ⟨0, 1⟩ }) 2
            { n with value := ⟨0, n.value.tag + 1⟩ }, 2,
            ⟨0, n.value.tag + 1⟩, ⟨0, 1⟩)) :=
  ⟨by decide, by decide, by decide,
    C10_destroy_invalid_not_effect_free (by decide) (by decide) (by decide)⟩

end FamRadixTree

namespace FamRadixTree

/-! ## Key-order helper lemmas -/

theorem getD_cons_succ' (x : Nat) (l : Key) (j : Nat) :
    (x :: l).getD (j + 1) 0 = l.getD j 0 := by
  simp [List.getD]

theorem keyLtb_of_prefix : ∀ {a b : Key}, a.length < b.length →
    (∀ j, j < a.length → a.getD j 0 = b.getD j 0) → keyLtb a b = true := by
  intro a
  induction a with
  | nil =>
    intro b hlen hag
    cases b with
    | nil => simp at hlen
    | cons y bs => rfl
  | cons x as ih =>
    intro b hlen hag
    cases b with
    | nil => simp at hlen
    | cons y bs =>
      have h0 := hag 0 (by simp)
      simp only [List.getD_cons_zero] at h0
      subst h0
      show (decide (x < x) || (decide (x = x) && keyLtb as bs)) = true
      simp only [decide_eq_true_eq, Bool.or_eq_true, Bool.and_eq_true]
      right
      refine ⟨by simp, ih (by simpa using hlen) ?_⟩
      intro j hj
      have := hag (j + 1) (by simpa using hj)
      simpa [getD_cons_succ'] using this

theorem keyLtb_of_diff : ∀ {a b : Key} (i : Nat), i < a.length → i < b.length →
    (∀ j, j < i → a.getD j 0 = b.getD j 0) → a.getD i 0 < b.getD i 0 →
    keyLtb a b = true := by
  intro a
  induction a with
  | nil =>
    intro b i hia
    simp at hia
  | cons x as ih =>
    intro b i hia hib hag hlt
    cases b with
    | nil => simp at hib
    | cons y bs =>
      cases i with
      | zero =>
        simp only [List.getD_cons_zero] at hlt
        show (decide (x < y) || (decide (x = y) && keyLtb as bs)) = true
        simp [hlt]
      | succ i =>
        have h0 := hag 0 (by omega)
        simp only [List.getD_cons_zero] at h0
        subst h0
        show (decide (x < x) || (decide (x = x) && keyLtb as bs)) = true
        simp only [decide_eq_true_eq, Bool.or_eq_true, Bool.and_eq_true]
        right
        refine ⟨by simp, ih i (by simpa using hia) (by simpa using hib) ?_ ?_⟩
        · intro j hj
          have := hag (j + 1) (by omega)
          simpa [getD_cons_succ'] using this
        · simpa [getD_cons_succ'] using hlt

theorem keyExt : ∀ {a b : Key}, a.length = b.length →
    (∀ j, j < a.length → a.getD j 0 = b.getD j 0) → a = b := by
  intro a
  induction a with
  | nil =>
    intro b hlen hag
    cases b with
    | nil => rfl
    | cons y bs => simp at hlen
  | cons x as ih =>
    intro b hlen hag
    cases b with
    | nil => simp at hlen
    | cons y bs =>
      have h0 := hag 0 (by simp)
      simp only [List.getD_cons_zero] at h0
      subst h0
      have : as = bs := by
        refine ih (by simpa using hlen) ?_
        intro j hj
        have := hag (j + 1) (by simpa using hj)
        simpa [getD_cons_succ'] using this
      rw [this]

theorem getD_take {l : Key} {m j : Nat} (h : j < m) :
    (l.take m).getD j 0 = l.getD j 0 := by
  by_cases hl : j < l.length
  · rw [List.getD_eq_getElem _ 0 (by simp; omega), List.getD_eq_getElem _ 0 hl]
    exact List.getElem_take _
  · rw [List.getD_eq_default _ 0 (by simp; omega), List.getD_eq_default _ 0 (by omega)]

/-! ## `seChildrenWith` and `seF` basics -/

theorem seF_zero (t : Tree) : ∀ d, seF t d 0 = some [] := by
  intro d
  cases d with
  | zero => rfl
  | succ d => rfl

theorem costF_zero (t : Tree) : ∀ d, costF t d 0 = 0 := by
  intro d
  cases d with
  | zero => rfl
  | succ d => rfl

/-- One step of `seF` at an allocated node. -/
theorem seF_node {t : Tree} {g : Nat} {n : Node} (hg : g ≠ 0)
    (hfind : t.find g = some n) (d : Nat) :
    seF t (d + 1) g = (do
      let kids ← seChildrenWith (seF t d) n (List.range 256)
      some ((if n.value.IsValid then [(n.key.take n.prefix_size, n.value)] else [])
        ++ kids)) := by
  rw [seF, if_neg hg]
  simp [hfind]

/-- One step of `seChildrenWith`. -/
theorem seChildrenWith_cons (f : Nat → Option (List (Key × TagGptr))) (n : Node)
    (b : Nat) (bs : List Nat) :
    seChildrenWith f n (b :: bs) = (do
      let x ← f (n.child b)
      let rest ← seChildrenWith f n bs
      some (x ++ rest)) := rfl

theorem seChildrenWith_congr {f f' : Nat → Option (List (Key × TagGptr))}
    {n : Node} : ∀ {bs : List Nat}, (∀ b ∈ bs, f (n.child b) = f' (n.child b)) →
    seChildrenWith f n bs = seChildrenWith f' n bs := by
  intro bs
  induction bs with
  | nil => exact fun _ => rfl
  | cons b bs ih =>
    intro h
    rw [seChildrenWith_cons, seChildrenWith_cons, h b (by simp),
      ih (fun b' hb' => h b' (by simp [hb']))]

theorem seChildrenWith_defined {f : Nat → Option (List (Key × TagGptr))}
    {n : Node} : ∀ {bs : List Nat}, (∀ b ∈ bs, ∃ x, f (n.child b) = some x) →
    ∃ L, seChildrenWith f n bs = some L := by
  intro bs
  induction bs with
  | nil => exact fun _ => ⟨[], rfl⟩
  | cons b bs ih =>
    intro h
    obtain ⟨x, hx⟩ := h b (by simp)
    obtain ⟨L, hL⟩ := ih (fun b' hb' => h b' (by simp [hb']))
    exact ⟨x ++ L, by rw [seChildrenWith_cons, hx, hL]; rfl⟩

theorem seChildrenWith_mono {f f' : Nat → Option (List (Key × TagGptr))}
    {n : Node} : ∀ {bs : List Nat},
    (∀ b ∈ bs, ∀ x, f (n.child b) = some x → f' (n.child b) = some x) →
    ∀ {L}, seChildrenWith f n bs = some L → seChildrenWith f' n bs = some L := by
  intro bs
  induction bs with
  | nil =>
    intro _ L h
    exact h
  | cons b bs ih =>
    intro h L hL
    rw [seChildrenWith_cons] at hL
    rcases hx : f (n.child b) with _ | x
    · rw [hx] at hL
      exact Option.noConfusion hL
    · rw [hx] at hL
      rcases hrest : seChildrenWith f n bs with _ | K
      · rw [hrest] at hL
        exact Option.noConfusion hL
      · rw [hrest] at hL
        rw [seChildrenWith_cons, h b (by simp) x hx,
          ih (fun b' hb' => h b' (by simp [hb'])) hrest]
        exact hL

theorem seF_mono {t : Tree} : ∀ (d : Nat) (g : Nat) (L : List (Key × TagGptr)),
    seF t d g = some L → seF t (d + 1) g = some L := by
  intro d
  induction d with
  | zero =>
    intro g L h
    rw [seF] at h
    by_cases hg : g = 0
    · subst hg
      rw [if_pos rfl] at h
      injection h with h2
      subst h2
      rfl
    · rw [if_neg hg] at h
      exact Option.noConfusion h
  | succ d ih =>
    intro g L h
    by_cases hg : g = 0
    · subst hg
      rw [seF_zero] at h
      injection h with h2
      subst h2
      exact seF_zero t _
    · rcases hfind : t.find g with _ | n
      · rw [seF, if_neg hg] at h
        simp [hfind] at h
      · rw [seF_node hg hfind d] at h
        rw [seF_node hg hfind (d + 1)]
        rcases hkids : seChildrenWith (seF t d) n (List.range 256) with _ | K
        · rw [hkids] at h
          exact Option.noConfusion h
        · rw [hkids] at h
          rw [seChildrenWith_mono (fun b hb x hx => ih _ x hx) hkids]
          exact h

theorem seF_le_mono {t : Tree} {d d' : Nat} (h : d ≤ d') {g : Nat}
    {L : List (Key × TagGptr)} (hL : seF t d g = some L) :
    seF t d' g = some L := by
  induction d' with
  | zero =>
    have hd0 : d = 0 := by omega
    subst hd0
    exact hL
  | succ d' ih =>
    by_cases hdd : d = d' + 1
    · subst hdd
      exact hL
    · exact seF_mono d' g L (ih (by omega))

theorem seF_defined {t : Tree} (hwf : WF t) :
    ∀ (d g : Nat) (n : Node), t.find g = some n →
    MAX_KEY_LEN + 1 ≤ d + n.prefix_size → ∃ L, seF t d g = some L := by
  intro d
  induction d with
  | zero =>
    intro g n hfind hd
    have := (hwf.find_nodeOk hfind).1
    unfold MAX_KEY_LEN at this hd
    omega
  | succ d ih =>
    intro g n hfind hd
    have hg : g ≠ 0 := (hwf.find_fresh hfind).1
    rw [seF_node hg hfind d]
    obtain ⟨K, hK⟩ : ∃ K, seChildrenWith (seF t d) n (List.range 256) = some K := by
      apply seChildrenWith_defined
      intro b hb
      by_cases hc : n.child b = 0
      · rw [hc]
        exact ⟨[], seF_zero t d⟩
      · obtain ⟨m, hm, hlt, -, -⟩ :=
          hwf.child_spec hfind (by simpa using hb) hc
        exact ih _ m hm (by omega)
    rw [hK]
    exact ⟨_, rfl⟩

theorem seF_stable {t : Tree} (hwf : WF t) {d d' : Nat}
    (hd : MAX_KEY_LEN + 1 ≤ d) (hd' : MAX_KEY_LEN + 1 ≤ d') (g : Nat)
    (hg : g = 0 ∨ ∃ n, t.find g = some n) :
    seF t d g = seF t d' g := by
  rcases hg with rfl | ⟨n, hn⟩
  · rw [seF_zero, seF_zero]
  · obtain ⟨L, hL⟩ := seF_defined hwf (MAX_KEY_LEN + 1) g n hn (by omega)
    rw [seF_le_mono hd hL, seF_le_mono hd' hL]

/-! ## Membership and order of the DFS entry list -/

theorem seChildrenWith_mem {f : Nat → Option (List (Key × TagGptr))} {n : Node} :
    ∀ {bs : List Nat} {L : List (Key × TagGptr)},
    seChildrenWith f n bs = some L →
    ∀ e ∈ L, ∃ b ∈ bs, ∃ x, f (n.child b) = some x ∧ e ∈ x := by
  intro bs
  induction bs with
  | nil =>
    intro L hL e he
    injection hL with h2
    subst h2
    simp at he
  | cons b bs ih =>
    intro L hL e he
    rw [seChildrenWith_cons] at hL
    rcases hx : f (n.child b) with _ | x
    · rw [hx] at hL
      exact Option.noConfusion hL
    · rw [hx] at hL
      rcases hrest : seChildrenWith f n bs with _ | K
      · rw [hrest] at hL
        exact Option.noConfusion hL
      · rw [hrest] at hL
        injection hL with h2
        subst h2
        rcases List.mem_append.mp he with hex | heK
        · exact ⟨b, by simp, x, hx, hex⟩
        · obtain ⟨b', hb', x', hx', hex'⟩ := ih hrest e heK
          exact ⟨b', by simp [hb'], x', hx', hex'⟩

theorem seChildrenWith_mem_of {f : Nat → Option (List (Key × TagGptr))}
    {n : Node} : ∀ {bs : List Nat} {L x : List (Key × TagGptr)} {b : Nat},
    b ∈ bs → f (n.child b) = some x → seChildrenWith f n bs = some L →
    ∀ e ∈ x, e ∈ L := by
  intro bs
  induction bs with
  | nil =>
    intro L x b hb
    simp at hb
  | cons b' bs ih =>
    intro L x b hb hx hL e he
    rw [seChildrenWith_cons] at hL
    rcases hx' : f (n.child b') with _ | y
    · rw [hx'] at hL
      exact Option.noConfusion hL
    · rw [hx'] at hL
      rcases hrest : seChildrenWith f n bs with _ | K
      · rw [hrest] at hL
        exact Option.noConfusion hL
      · rw [hrest] at hL
        injection hL with h2
        subst h2
        rcases List.mem_cons.mp hb with rfl | hbs
        · rw [hx] at hx'
          injection hx' with h3
          subst h3
          exact List.mem_append.mpr (Or.inl he)
        · exact List.mem_append.mpr (Or.inr (ih hbs hx hrest e he))

/-- Every DFS entry of the subtree at `g` is a valid value stored under a key
that extends `g`'s meaningful prefix, and `getGo` from `g` retrieves it. -/
theorem seF_entries_spec {t : Tree} (hwf : WF t) :
    ∀ (d g : Nat) (n : Node) (L : List (Key × TagGptr)),
    t.find g = some n → seF t d g = some L →
    ∀ k v, (k, v) ∈ L →
      TagGptr.IsValid v = true ∧
      n.prefix_size ≤ k.length ∧ k.length ≤ MAX_KEY_LEN ∧
      (∀ j, j < n.prefix_size → k.getD j 0 = n.key.getD j 0) ∧
      ∀ f, k.length + 1 - n.prefix_size ≤ f → getGo t k g f = .ok v := by
  intro d
  induction d with
  | zero =>
    intro g n L hfind hL
    have hg : g ≠ 0 := (hwf.find_fresh hfind).1
    rw [seF, if_neg hg] at hL
    exact Option.noConfusion hL
  | succ d ih =>
    intro g n L hfind hL k v hkv
    have hg : g ≠ 0 := (hwf.find_fresh hfind).1
    have hnodeOk := hwf.find_nodeOk hfind
    rw [seF_node hg hfind d] at hL
    rcases hK : seChildrenWith (seF t d) n (List.range 256) with _ | K
    · rw [hK] at hL
      exact Option.noConfusion hL
    · rw [hK] at hL
      injection hL with h2
      subst h2
      rcases List.mem_append.mp hkv with hhead | hkid
      · by_cases hval : n.value.IsValid
        · rw [if_pos hval] at hhead
          rcases List.mem_singleton.mp hhead with h3
          injection h3 with h4 h5
          subst h4
          subst h5
          have hlen : (n.key.take n.prefix_size).length = n.prefix_size := by
            simp
            omega
          refine ⟨hval, by omega, by omega, ?_, ?_⟩
          · intro j hj
            exact getD_take hj
          · intro f hf
            obtain ⟨f', rfl⟩ : ∃ f', f = f' + 1 := ⟨f - 1, by omega⟩
            rw [getGo_node f' hg hfind]
            rw [if_neg ?hcmp, if_pos (by omega)]
            case hcmp =>
              simp only [ne_eq, not_not]
              apply (fam_memcmp_eq_zero_iff _ _ _).mpr
              intro j hj
              exact getD_take (by omega)
        · rw [if_neg hval] at hhead
          simp at hhead
      · obtain ⟨b, hb, x, hx, hex⟩ := seChildrenWith_mem hK (k, v) hkid
        have hb256 : b < 256 := List.mem_range.mp hb
        by_cases hc : n.child b = 0
        · rw [hc, seF_zero] at hx
          injection hx with h3
          subst h3
          simp at hex
        · obtain ⟨m, hm, hps, hagree, hbyte⟩ := hwf.child_spec hfind hb256 hc
          obtain ⟨hvalid, hmk, hk64, hkag, hget⟩ := ih (n.child b) m x hm hx k v hex
          refine ⟨hvalid, by omega, hk64, ?_, ?_⟩
          · intro j hj
            rw [hkag j (by omega), hagree j hj]
          · intro f hf
            have hpsk : n.prefix_size < k.length := by omega
            obtain ⟨f', rfl⟩ : ∃ f', f = f' + 1 := ⟨f - 1, by omega⟩
            rw [getGo_node f' hg hfind]
            rw [if_neg ?hcmp2, if_neg (by omega), if_neg (by omega)]
            case hcmp2 =>
              simp only [ne_eq, not_not]
              apply (fam_memcmp_eq_zero_iff _ _ _).mpr
              intro j hj
              rw [hkag j (by omega), hagree j (by omega)]
            have hkb : k.getD n.prefix_size 0 = b := by
              rw [hkag n.prefix_size (by omega)]
              exact hbyte
            rw [hkb, ucast_eq_of_lt hb256]
            exact hget f' (by omega)

theorem seChildrenWith_some_at {f : Nat → Option (List (Key × TagGptr))}
    {n : Node} : ∀ {bs : List Nat} {L : List (Key × TagGptr)},
    seChildrenWith f n bs = some L → ∀ b ∈ bs, ∃ x, f (n.child b) = some x := by
  intro bs
  induction bs with
  | nil =>
    intro L hL b hb
    simp at hb
  | cons b' bs ih =>
    intro L hL b hb
    rw [seChildrenWith_cons] at hL
    rcases hx' : f (n.child b') with _ | y
    · rw [hx'] at hL
      exact Option.noConfusion hL
    · rw [hx'] at hL
      rcases hrest : seChildrenWith f n bs with _ | K
      · rw [hrest] at hL
        exact Option.noConfusion hL
      · rcases List.mem_cons.mp hb with rfl | hbs
        · exact ⟨y, hx'⟩
        · exact ih hrest b hbs

/-- Completeness: every key `getGo` retrieves with a valid value appears in
the DFS entry list of the subtree it starts from. -/
theorem getGo_mem_seF {t : Tree} (hwf : WF t) :
    ∀ (f g : Nat) (k : Key) (v : TagGptr) (n : Node) (d : Nat)
      (L : List (Key × TagGptr)),
    getGo t k g f = .ok v → v.gptr ≠ 0 → t.find g = some n →
    seF t d g = some L → (k, v) ∈ L := by
  intro f
  induction f with
  | zero =>
    intro g k v n d L h
    rw [getGo] at h
    simp at h
  | succ f ih =>
    intro g k v n d L h hv hfind hL
    have hg : g ≠ 0 := (hwf.find_fresh hfind).1
    have hnodeOk := hwf.find_nodeOk hfind
    rw [getGo_node f hg hfind] at h
    obtain ⟨d', rfl⟩ : ∃ d', d = d' + 1 := by
      cases d with
      | zero =>
        rw [seF, if_neg hg] at hL
        exact Option.noConfusion hL
      | succ d' => exact ⟨d', rfl⟩
    rw [seF_node hg hfind d'] at hL
    rcases hK : seChildrenWith (seF t d') n (List.range 256) with _ | K
    · rw [hK] at hL
      exact Option.noConfusion hL
    · rw [hK] at hL
      injection hL with h2
      subst h2
      by_cases hmm : fam_memcmp k n.key (min n.prefix_size k.length) ≠ 0
      · rw [if_pos hmm] at h
        injection h with h3
        exact absurd (by rw [← h3]) hv
      · rw [if_neg hmm] at h
        have hagree := (fam_memcmp_eq_zero_iff _ _ _).mp (not_not.mp hmm)
        by_cases hps : n.prefix_size = k.length
        · rw [if_pos hps] at h
          injection h with h3
          subst h3
          have hkey : k = n.key.take n.prefix_size := by
            apply keyExt
            · simp
              omega
            · intro j hj
              rw [getD_take (by omega)]
              exact hagree j (by omega)
          have hval : n.value.IsValid := by
            simpa [TagGptr.IsValid] using hv
          rw [if_pos hval]
          apply List.mem_append.mpr
          left
          rw [hkey]
          simp
        · rw [if_neg hps] at h
          by_cases hlen : k.length < n.prefix_size
          · rw [if_pos hlen] at h
            exact Except.noConfusion h
          · rw [if_neg hlen] at h
            set b := ucast (k.getD n.prefix_size 0) with hbdef
            have hb256 : b < 256 := ucast_lt _
            by_cases hc : n.child b = 0
            · rw [hc] at h
              cases f with
              | zero =>
                rw [getGo] at h
                exact Except.noConfusion h
              | succ f' =>
                rw [getGo, if_pos rfl] at h
                injection h with h3
                exact absurd (by rw [← h3]) hv
            · obtain ⟨m, hm, -, -, -⟩ := hwf.child_spec hfind hb256 hc
              obtain ⟨x, hx⟩ := seChildrenWith_some_at hK b (List.mem_range.mpr hb256)
              apply List.mem_append.mpr
              right
              exact seChildrenWith_mem_of (List.mem_range.mpr hb256) hx hK (k, v)
                (ih (n.child b) k v m d' x h hv hm hx)

/-- The DFS entry list of any subtree is strictly ascending in the
unsigned-byte lexicographic key order. -/
theorem seF_sorted {t : Tree} (hwf : WF t) :
    ∀ (d g : Nat) (n : Node) (L : List (Key × TagGptr)),
    t.find g = some n → seF t d g = some L →
    L.Pairwise (fun a b => keyLtb a.1 b.1 = true) := by
  intro d
  induction d with
  | zero =>
    intro g n L hfind hL
    have hg : g ≠ 0 := (hwf.find_fresh hfind).1
    rw [seF, if_neg hg] at hL
    exact Option.noConfusion hL
  | succ d ih =>
    intro g n L hfind hL
    have hg : g ≠ 0 := (hwf.find_fresh hfind).1
    have hnodeOk := hwf.find_nodeOk hfind
    rw [seF_node hg hfind d] at hL
    rcases hK : seChildrenWith (seF t d) n (List.range 256) with _ | K
    · rw [hK] at hL
      exact Option.noConfusion hL
    · rw [hK] at hL
      injection hL with h2
      subst h2
      have kidShape : ∀ e ∈ K, ∃ b, b < 256 ∧ n.child b ≠ 0 ∧
          n.prefix_size < e.1.length ∧ e.1.getD n.prefix_size 0 = b ∧
          (∀ j, j < n.prefix_size → e.1.getD j 0 = n.key.getD j 0) := by
        intro e he
        obtain ⟨b, hb, x, hx, hex⟩ := seChildrenWith_mem hK e he
        have hb256 : b < 256 := List.mem_range.mp hb
        by_cases hc : n.child b = 0
        · rw [hc, seF_zero] at hx
          injection hx with h3
          subst h3
          simp at hex
        · obtain ⟨m, hm, hps, hagree, hbyte⟩ := hwf.child_spec hfind hb256 hc
          obtain ⟨-, hmk, -, hkag, -⟩ :=
            seF_entries_spec hwf d (n.child b) m x hm hx e.1 e.2 (by simpa using hex)
          refine ⟨b, hb256, hc, by omega, ?_, ?_⟩
          · rw [hkag n.prefix_size (by omega)]
            exact hbyte
          · intro j hj
            rw [hkag j (by omega)]
            exact hagree j hj
      rw [List.pairwise_append]
      refine ⟨?_, ?_, ?_⟩
      · by_cases hval : n.value.IsValid
        · rw [if_pos hval]
          simp
        · rw [if_neg hval]
          simp
      · -- the concatenated child subtrees, slots in ascending order
        have inner : ∀ (bs : List Nat), bs.Pairwise (· < ·) →
            (∀ b ∈ bs, b < 256) → ∀ (K' : List (Key × TagGptr)),
            seChildrenWith (seF t d) n bs = some K' →
            (∀ e ∈ K', ∃ b ∈ bs, ∃ x, seF t d (n.child b) = some x ∧ e ∈ x) →
            K'.Pairwise (fun a b => keyLtb a.1 b.1 = true) := by
          intro bs
          induction bs with
          | nil =>
            intro _ _ K' hK' _
            injection hK' with h3
            subst h3
            simp
          | cons b bs ihb =>
            intro hsort hlt K' hK' hmem
            rw [seChildrenWith_cons] at hK'
            rcases hx : seF t d (n.child b) with _ | x
            · rw [hx] at hK'
              exact Option.noConfusion hK'
            · rw [hx] at hK'
              rcases hrest : seChildrenWith (seF t d) n bs with _ | K2
              · rw [hrest] at hK'
                exact Option.noConfusion hK'
              · rw [hrest] at hK'
                injection hK' with h3
                subst h3
                rw [List.pairwise_append]
                refine ⟨?_, ?_, ?_⟩
                · by_cases hc : n.child b = 0
                  · rw [hc, seF_zero] at hx
                    injection hx with h4
                    subst h4
                    simp
                  · obtain ⟨m, hm, -, -, -⟩ := hwf.child_spec hfind
                      (hlt b (by simp)) hc
                    exact ih (n.child b) m x hm hx
                · exact ihb (List.Pairwise.sublist (by simp) hsort)
                    (fun b' hb' => hlt b' (by simp [hb'])) K2 hrest
                    (fun e he => seChildrenWith_mem hrest e he)
                · intro e1 he1 e2 he2
                  by_cases hc : n.child b = 0
                  · rw [hc, seF_zero] at hx
                    injection hx with h4
                    subst h4
                    simp at he1
                  · obtain ⟨m, hm, hps, hagree, hbyte⟩ := hwf.child_spec hfind
                      (hlt b (by simp)) hc
                    obtain ⟨-, hmk1, -, hkag1, -⟩ := seF_entries_spec hwf d
                      (n.child b) m x hm hx e1.1 e1.2 (by simpa using he1)
                    obtain ⟨b', hb', x', hx', hex'⟩ := seChildrenWith_mem hrest e2 he2
                    have hbb' : b < b' := by
                      rcases List.pairwise_cons.mp hsort with ⟨hbl, -⟩
                      exact hbl b' hb'
                    by_cases hc' : n.child b' = 0
                    · rw [hc', seF_zero] at hx'
                      injection hx' with h5
                      subst h5
                      simp at hex'
                    · obtain ⟨m', hm', hps', hagree', hbyte'⟩ := hwf.child_spec hfind
                        (hlt b' (by simp [hb'])) hc'
                      obtain ⟨-, hmk2, -, hkag2, -⟩ := seF_entries_spec hwf d
                        (n.child b') m' x' hm' hx' e2.1 e2.2 (by simpa using hex')
                      apply keyLtb_of_diff n.prefix_size (by omega) (by omega)
                      · intro j hj
                        rw [hkag1 j (by omega), hkag2 j (by omega),
                          hagree j hj, hagree' j hj]
                      · rw [hkag1 n.prefix_size (by omega),
                          hkag2 n.prefix_size (by omega), hbyte, hbyte']
                        exact hbb'
        exact inner (List.range 256) (List.pairwise_lt_range 256)
          (fun b hb => List.mem_range.mp hb) K hK
          (fun e he => seChildrenWith_mem hK e he)
      · intro e1 he1 e2 he2
        by_cases hval : n.value.IsValid
        · rw [if_pos hval] at he1
          rcases List.mem_singleton.mp he1 with h3
          subst h3
          obtain ⟨b, hb256, hc, helen, hebyte, heag⟩ := kidShape e2 he2
          show keyLtb (n.key.take n.prefix_size) e2.1 = true
          have hlen : (n.key.take n.prefix_size).length = n.prefix_size := by
            simp
            omega
          apply keyLtb_of_prefix
          · rw [hlen]
            omega
          · intro j hj
            rw [hlen] at hj
            rw [getD_take hj, heag j hj]
        · rw [if_neg hval] at he1
          simp at he1

/-! ## The child-scan loop and slot-range splitting -/

theorem childScanGo_spec (n : Node) :
    ∀ (k pos : Nat), 1 ≤ pos → pos ≤ 257 → 258 ≤ k + pos →
    (∃ b, childScanGo n 256 k pos = .found b (n.child b) ∧ pos - 1 ≤ b ∧
      b < 256 ∧ n.child b ≠ 0 ∧ ∀ j, pos - 1 ≤ j → j < b → n.child j = 0) ∨
    (childScanGo n 256 k pos = .stop 257 ∧
      ∀ j, pos - 1 ≤ j → j < 256 → n.child j = 0) := by
  intro k
  induction k with
  | zero =>
    intro pos h1 h2 h3
    omega
  | succ k ih =>
    intro pos h1 h2 h3
    by_cases hgt : 256 < pos
    · have hp : pos = 257 := by omega
      subst hp
      right
      refine ⟨?_, ?_⟩
      · rw [childScanGo, if_pos hgt]
      · intro j hj1 hj2
        omega
    · by_cases hc : n.child (pos - 1) ≠ 0
      · left
        refine ⟨pos - 1, ?_, Nat.le_refl _, by omega, hc, ?_⟩
        · rw [childScanGo, if_neg hgt, if_neg (by omega), if_pos hc]
        · intro j hj1 hj2
          omega
      · have hc0 : n.child (pos - 1) = 0 := not_not.mp hc
        have hrec : childScanGo n 256 (k + 1) pos = childScanGo n 256 k (pos + 1) := by
          rw [childScanGo, if_neg hgt, if_neg (by omega), if_neg hc]
        rcases ih (pos + 1) (by omega) (by omega) (by omega) with
          ⟨b, hcs, hb1, hb2, hb3, hb4⟩ | ⟨hcs, hnull⟩
        · left
          refine ⟨b, by rw [hrec]; exact hcs, by omega, hb2, hb3, ?_⟩
          intro j hj1 hj2
          by_cases hjp : j = pos - 1
          · rw [hjp]
            exact hc0
          · exact hb4 j (by omega) hj2
        · right
          refine ⟨by rw [hrec]; exact hcs, ?_⟩
          intro j hj1 hj2
          by_cases hjp : j = pos - 1
          · rw [hjp]
            exact hc0
          · exact hnull j (by omega) hj2

theorem range256_drop_cons {p : Nat} (h : p < 256) :
    (List.range 256).drop p = p :: (List.range 256).drop (p + 1) := by
  rw [List.drop_eq_getElem_cons (by simpa using h)]
  simp

theorem seChildren_drop_split {t : Tree} {n : Node} {b : Nat} (hb : b < 256) :
    ∀ (p : Nat), p ≤ b → (∀ j, p ≤ j → j < b → n.child j = 0) →
    seChildrenWith (seF t seDepth) n ((List.range 256).drop p) = (do
      let x ← seF t seDepth (n.child b)
      let rest ← seChildrenWith (seF t seDepth) n ((List.range 256).drop (b + 1))
      some (x ++ rest)) := by
  have hmain : ∀ (c p : Nat), b - p ≤ c → p ≤ b →
      (∀ j, p ≤ j → j < b → n.child j = 0) →
      seChildrenWith (seF t seDepth) n ((List.range 256).drop p) = (do
        let x ← seF t seDepth (n.child b)
        let rest ← seChildrenWith (seF t seDepth) n ((List.range 256).drop (b + 1))
        some (x ++ rest)) := by
    intro c
    induction c with
    | zero =>
      intro p hc hp hnull
      have hpb : p = b := by omega
      subst hpb
      rw [range256_drop_cons hb, seChildrenWith_cons]
    | succ c ih =>
      intro p hc hp hnull
      by_cases hpb : p = b
      · subst hpb
        rw [range256_drop_cons hb, seChildrenWith_cons]
      · rw [range256_drop_cons (by omega), seChildrenWith_cons,
          hnull p (Nat.le_refl _) (by omega), seF_zero,
          ih (p + 1) (by omega) (by omega) (fun j h1 h2 => hnull j (by omega) h2)]
        rcases hx : seF t seDepth (n.child b) with _ | x
        · rfl
        · rcases hrest : seChildrenWith (seF t seDepth) n
              ((List.range 256).drop (b + 1)) with _ | K
          · rfl
          · rfl
  exact fun p => hmain b p (by omega)

theorem seChildren_drop_all_null {t : Tree} {n : Node} :
    ∀ (c p : Nat), 256 - p ≤ c → (∀ j, p ≤ j → j < 256 → n.child j = 0) →
    seChildrenWith (seF t seDepth) n ((List.range 256).drop p) = some [] := by
  intro c
  induction c with
  | zero =>
    intro p hc hnull
    have : (List.range 256).drop p = [] := by
      apply List.drop_eq_nil_of_le
      simp
      omega
    rw [this]
    rfl
  | succ c ih =>
    intro p hc hnull
    by_cases hp : 256 ≤ p
    · have : (List.range 256).drop p = [] := by
        apply List.drop_eq_nil_of_le
        simpa using hp
      rw [this]
      rfl
    · rw [range256_drop_cons (by omega), seChildrenWith_cons,
        hnull p (Nat.le_refl _) (by omega), seF_zero,
        ih (p + 1) (by omega) (fun j h1 h2 => hnull j (by omega) h2)]
      rfl

/-! ## Cost lemmas -/

theorem costChildrenWith_congr {f f' : Nat → Nat} {n : Node} :
    ∀ {bs : List Nat}, (∀ b ∈ bs, f (n.child b) = f' (n.child b)) →
    costChildrenWith f n bs = costChildrenWith f' n bs := by
  intro bs
  induction bs with
  | nil => exact fun _ => rfl
  | cons b bs ih =>
    intro h
    show f (n.child b) + costChildrenWith f n bs =
      f' (n.child b) + costChildrenWith f' n bs
    rw [h b (by simp), ih (fun b' hb' => h b' (by simp [hb']))]

theorem costF_node {t : Tree} {g : Nat} {n : Node} (hg : g ≠ 0)
    (hfind : t.find g = some n) (d : Nat) :
    costF t (d + 1) g = 258 + costChildrenWith (costF t d) n (List.range 256) := by
  rw [costF, if_neg hg]
  simp [hfind]

theorem costF_stable {t : Tree} (hwf : WF t) :
    ∀ (d : Nat) {d' g : Nat} {n : Node}, t.find g = some n →
    MAX_KEY_LEN + 1 ≤ d + n.prefix_size → MAX_KEY_LEN + 1 ≤ d' + n.prefix_size →
    costF t d g = costF t d' g := by
  intro d
  induction d with
  | zero =>
    intro d' g n hfind hd hd'
    have := (hwf.find_nodeOk hfind).1
    unfold MAX_KEY_LEN at this hd
    omega
  | succ d ih =>
    intro d' g n hfind hd hd'
    have hg : g ≠ 0 := (hwf.find_fresh hfind).1
    cases d' with
    | zero =>
      have := (hwf.find_nodeOk hfind).1
      unfold MAX_KEY_LEN at this hd'
      omega
    | succ d' =>
      rw [costF_node hg hfind d, costF_node hg hfind d']
      have hcc : costChildrenWith (costF t d) n (List.range 256) =
          costChildrenWith (costF t d') n (List.range 256) := by
        apply costChildrenWith_congr
        intro b hb
        by_cases hc : n.child b = 0
        · rw [hc, costF_zero, costF_zero]
        · obtain ⟨m, hm, hps, -, -⟩ :=
            hwf.child_spec hfind (List.mem_range.mp hb) hc
          exact ih hm (by omega) (by omega)
      rw [hcc]

theorem costChildren_drop_split {t : Tree} {n : Node} {b : Nat} (hb : b < 256) :
    ∀ (p : Nat), p ≤ b → (∀ j, p ≤ j → j < b → n.child j = 0) →
    costChildrenWith (costF t seDepth) n ((List.range 256).drop p) =
      costF t seDepth (n.child b) +
        costChildrenWith (costF t seDepth) n ((List.range 256).drop (b + 1)) := by
  have hmain : ∀ (c p : Nat), b - p ≤ c → p ≤ b →
      (∀ j, p ≤ j → j < b → n.child j = 0) →
      costChildrenWith (costF t seDepth) n ((List.range 256).drop p) =
        costF t seDepth (n.child b) +
          costChildrenWith (costF t seDepth) n ((List.range 256).drop (b + 1)) := by
    intro c
    induction c with
    | zero =>
      intro p hc hp hnull
      have hpb : p = b := by omega
      subst hpb
      rw [range256_drop_cons hb]
      rfl
    | succ c ih =>
      intro p hc hp hnull
      by_cases hpb : p = b
      · subst hpb
        rw [range256_drop_cons hb]
        rfl
      · rw [range256_drop_cons (by omega)]
        show costF t seDepth (n.child p) + _ = _
        rw [hnull p (Nat.le_refl _) (by omega), costF_zero,
          ih (p + 1) (by omega) (by omega) (fun j h1 h2 => hnull j (by omega) h2)]
        omega
  exact fun p => hmain b p (by omega)

theorem costChildren_drop_all_null {t : Tree} {n : Node} :
    ∀ (c p : Nat), 256 - p ≤ c → (∀ j, p ≤ j → j < 256 → n.child j = 0) →
    costChildrenWith (costF t seDepth) n ((List.range 256).drop p) = 0 := by
  intro c
  induction c with
  | zero =>
    intro p hc hnull
    have : (List.range 256).drop p = [] := by
      apply List.drop_eq_nil_of_le
      simp
      omega
    rw [this]
    rfl
  | succ c ih =>
    intro p hc hnull
    by_cases hp : 256 ≤ p
    · have : (List.range 256).drop p = [] := by
        apply List.drop_eq_nil_of_le
        simpa using hp
      rw [this]
      rfl
    · rw [range256_drop_cons (by omega)]
      show costF t seDepth (n.child p) + _ = 0
      rw [hnull p (Nat.le_refl _) (by omega), costF_zero,
        ih (p + 1) (by omega) (fun j h1 h2 => hnull j (by omega) h2)]

/-! ## Iterator-state remainder lemmas -/

theorem nodeRem_zero (t : Tree) (pos : Nat) : nodeRem t 0 pos = some [] := rfl

theorem costNode_zero (t : Tree) (pos : Nat) : costNode t 0 pos = 0 := rfl

theorem nodeRem_node {t : Tree} {g : Nat} {n : Node} (hg : g ≠ 0)
    (hfind : t.find g = some n) (pos : Nat) :
    nodeRem t g pos = (do
      let kids ← seChildrenWith (seF t seDepth) n
        ((List.range 256).drop (max pos 1 - 1))
      some ((if pos = 0 ∧ n.value.IsValid
          then [(n.key.take n.prefix_size, n.value)] else []) ++ kids)) := by
  unfold nodeRem
  rw [if_neg hg]
  simp only [hfind]

theorem costNode_node {t : Tree} {g : Nat} {n : Node} (hg : g ≠ 0)
    (hfind : t.find g = some n) (pos : Nat) :
    costNode t g pos = (258 - pos) +
      costChildrenWith (costF t seDepth) n
        ((List.range 256).drop (max pos 1 - 1)) := by
  unfold costNode
  rw [if_neg hg]
  simp only [hfind]

theorem pathRem_cons (t : Tree) (g b : Nat) (rest : List (Nat × Nat)) :
    pathRem t ((g, b) :: rest) = (do
      let x ← nodeRem t g (b + 2)
      let y ← pathRem t rest
      some (x ++ y)) := rfl

/-- A full (`pos = 0`) node remainder is the DFS entry list of its subtree. -/
theorem nodeRem_full {t : Tree} (hwf : WF t) {g : Nat}
    (hg0 : g = 0 ∨ ∃ n, t.find g = some n) :
    nodeRem t g 0 = seF t seDepth g := by
  rcases hg0 with rfl | ⟨n, hn⟩
  · rw [nodeRem_zero, seF_zero]
  · have hg : g ≠ 0 := (hwf.find_fresh hn).1
    have hse : seF t seDepth g = (do
        let kids ← seChildrenWith (seF t (MAX_KEY_LEN + 1)) n (List.range 256)
        some ((if n.value.IsValid then [(n.key.take n.prefix_size, n.value)]
          else []) ++ kids)) := seF_node hg hn (MAX_KEY_LEN + 1)
    rw [nodeRem_node hg hn 0, hse]
    have hdrop : (List.range 256).drop (max 0 1 - 1) = List.range 256 := by
      simp
    rw [hdrop]
    have hkids : seChildrenWith (seF t seDepth) n (List.range 256) =
        seChildrenWith (seF t (MAX_KEY_LEN + 1)) n (List.range 256) := by
      apply seChildrenWith_congr
      intro b hb
      apply seF_stable hwf (by unfold seDepth; omega) (by omega)
      by_cases hc : n.child b = 0
      · exact Or.inl hc
      · obtain ⟨m, hm, -, -, -⟩ := hwf.child_spec hn (List.mem_range.mp hb) hc
        exact Or.inr ⟨m, hm⟩
    rw [hkids]
    have hcond : ((0 : Nat) = 0 ∧ n.value.IsValid) = (n.value.IsValid = true) := by
      simp
    by_cases hval : n.value.IsValid
    · rw [if_pos ⟨rfl, hval⟩, if_pos hval]
    · rw [if_neg (by simp [hval]), if_neg hval]

/-- The remainder cost of a full node cursor is the subtree cost. -/
theorem costNode_full {t : Tree} (hwf : WF t) {g : Nat}
    (hg0 : g = 0 ∨ ∃ n, t.find g = some n) :
    costNode t g 0 = costF t seDepth g := by
  rcases hg0 with rfl | ⟨n, hn⟩
  · rw [costNode_zero, costF_zero]
  · have hg : g ≠ 0 := (hwf.find_fresh hn).1
    have hco : costF t seDepth g = 258 +
        costChildrenWith (costF t (MAX_KEY_LEN + 1)) n (List.range 256) :=
      costF_node hg hn (MAX_KEY_LEN + 1)
    rw [costNode_node hg hn 0, hco]
    have hdrop : (List.range 256).drop (max 0 1 - 1) = List.range 256 := by
      simp
    rw [hdrop]
    have hkids : costChildrenWith (costF t seDepth) n (List.range 256) =
        costChildrenWith (costF t (MAX_KEY_LEN + 1)) n (List.range 256) := by
      apply costChildrenWith_congr
      intro b hb
      by_cases hc : n.child b = 0
      · rw [hc, costF_zero, costF_zero]
      · obtain ⟨m, hm, -, -, -⟩ := hwf.child_spec hn (List.mem_range.mp hb) hc
        exact costF_stable hwf _ hm (by unfold seDepth; omega) (by omega)
    rw [hkids]

/-! ## One-step lemmas for `next_value` with an open end boundary -/

theorem next_value_done_node0 {t : Tree} {it : Iter} (f : Nat)
    (h : it.node = 0) : next_value t it (f + 1) = .ok (it, false) := by
  rw [next_value, if_pos h]

theorem next_value_done_pop {t : Tree} {it : Iter} (f : Nat) (hn : it.node ≠ 0)
    (hp : it.next_pos = 257) (hpath : it.path = []) :
    next_value t it (f + 1) = .ok (it, false) := by
  rw [next_value, if_neg hn, if_pos hp, hpath]

theorem next_value_pop {t : Tree} {it : Iter} (f : Nat) (hn : it.node ≠ 0)
    (hp : it.next_pos = 257) {par b : Nat} {rest : List (Nat × Nat)}
    (hpath : it.path = (par, b) :: rest) :
    next_value t it (f + 1) =
      next_value t { it with node := par, next_pos := b + 1 + 1, path := rest }
        f := by
  rw [next_value, if_neg hn, if_pos hp, hpath]

theorem next_value_yield {t : Tree} {it : Iter} {n : Node} (f : Nat)
    (hn : it.node ≠ 0) (hp : it.next_pos = 0)
    (hfind : t.find it.node = some n) (hopen : it.end_key_open = true)
    (hval : n.value.IsValid = true) :
    next_value t it (f + 1) =
      .ok ({ it with next_pos := 1, key := n.key.take n.prefix_size, value := n.value }, true) := by
  rw [next_value, if_neg hn, if_neg (show ¬ it.next_pos = 257 by omega)]
  simp [load, hfind, hopen, hp, hval]

theorem next_value_open_go {t : Tree} {it : Iter} {n : Node} (f : Nat)
    (hn : it.node ≠ 0) (hp : it.next_pos ≠ 257)
    (hfind : t.find it.node = some n) (hopen : it.end_key_open = true)
    (hnoty : ¬ (it.next_pos = 0 ∧ n.value.IsValid = true)) :
    next_value t it (f + 1) =
      match childScan n (max it.next_pos 1) 256 with
      | .found b c => next_value t { it with path := (it.node, b) :: it.path, node := c, next_pos := 0 } f
      | .stop pos => next_value t { it with next_pos := pos } f
      | .oob => .error .oobRead := by
  rw [next_value, if_neg hn, if_neg hp]
  simp only [load, hfind, exbind_ok, hopen, if_true]
  rw [if_neg (show ¬ ((1 : Int) < 0) by norm_num),
    if_pos (show (0 : Int) < (1 : Int) by norm_num), if_neg hnoty]
  by_cases h0 : it.next_pos = 0
  · simp only [if_pos h0, h0]
    have hmax : max 0 1 = 1 := rfl
    rw [hmax]
    rfl
  · simp only [if_neg h0]
    have hmax : max it.next_pos 1 = it.next_pos := by omega
    rw [hmax, hopen]

/-- The open-end traversal step: from any invariant-respecting state, one
`next_value` call with enough fuel yields exactly the head of the remaining
entry list (or reports the end), reestablishing the invariant with a strictly
smaller remaining cost. -/
theorem next_value_spec {t : Tree} (hwf : WF t) :
    ∀ (f : Nat) (it : Iter) (R : List (Key × TagGptr)),
    IterInv t it → stateRem t it = some R → costIter t it < f →
    (R = [] → ∃ it', next_value t it f = .ok (it', false)) ∧
    (∀ k v R', R = (k, v) :: R' →
      ∃ it', next_value t it f = .ok (it', true) ∧ it'.key = k ∧ it'.value = v ∧
        IterInv t it' ∧ stateRem t it' = some R' ∧
        costIter t it' < costIter t it) := by
  intro f
  induction f with
  | zero =>
    intro it R hinv hrem hcost
    omega
  | succ f ih =>
    intro it R hinv hrem hcost
    obtain ⟨hopen, hnode, hnode0, hpos, hpath⟩ := hinv
    by_cases hn : it.node = 0
    · have hpath0 : it.path = [] := hnode0 hn
      have hR : R = [] := by
        unfold stateRem at hrem
        rw [hn, nodeRem_zero, hpath0] at hrem
        simp [pathRem] at hrem
        exact hrem
      subst hR
      refine ⟨fun _ => ⟨it, next_value_done_node0 f hn⟩, ?_⟩
      intro k v R' h
      exact absurd h (by simp)
    · obtain ⟨n, hfind⟩ := hnode hn
      rcases hnr : nodeRem t it.node it.next_pos with _ | X0
      · unfold stateRem at hrem
        rw [hnr] at hrem
        exact Option.noConfusion hrem
      · rcases hpr : pathRem t it.path with _ | Z
        · unfold stateRem at hrem
          rw [hnr, hpr] at hrem
          exact Option.noConfusion hrem
        · have hRX : R = X0 ++ Z := by
            unfold stateRem at hrem
            rw [hnr, hpr] at hrem
            simp at hrem
            exact hrem.symm
          by_cases hp257 : it.next_pos = 257
          · -- exhausted cursor: pop a frame or finish
            have hX0 : X0 = [] := by
              rw [hp257] at hnr
              rw [nodeRem_node hn hfind 257] at hnr
              rw [show (List.range 256).drop (max 257 1 - 1) = [] from by simp] at hnr
              rw [show seChildrenWith (seF t seDepth) n [] = some [] from rfl] at hnr
              simp at hnr
              exact hnr
            subst hX0
            rcases hpathc : it.path with _ | ⟨⟨par, b⟩, rest⟩
            · have hZ : Z = [] := by
                rw [hpathc] at hpr
                have h2 : (some [] : Option (List (Key × TagGptr))) = some Z := hpr
                injection h2 with h3
                exact h3.symm
              subst hZ
              subst hRX
              refine ⟨fun _ => ⟨it, next_value_done_pop f hn hp257 hpathc⟩, ?_⟩
              intro k v R' h
              exact absurd h (by simp)
            · have hparfacts := hpath (par, b) (by rw [hpathc]; simp)
              obtain ⟨hb256, np, hnp⟩ := hparfacts
              have hpar0 : par ≠ 0 := (hwf.find_fresh hnp).1
              have hstep := @next_value_pop t it f hn hp257 par b rest hpathc
              obtain ⟨X2, Y2, hx2, hy2, h3⟩ : ∃ X2 Y2,
                  nodeRem t par (b + 2) = some X2 ∧ pathRem t rest = some Y2 ∧
                  X2 ++ Y2 = Z := by
                rw [hpathc, pathRem_cons] at hpr
                rcases hx2 : nodeRem t par (b + 2) with _ | X2
                · rw [hx2] at hpr
                  exact Option.noConfusion hpr
                · rcases hy2 : pathRem t rest with _ | Y2
                  · rw [hx2, hy2] at hpr
                    exact Option.noConfusion hpr
                  · rw [hx2, hy2] at hpr
                    have hpr2 : some (X2 ++ Y2) = some Z := hpr
                    injection hpr2 with h3
                    exact ⟨X2, Y2, rfl, rfl, h3⟩
              have hrem2 : stateRem t
                  { it with node := par, next_pos := b + 1 + 1, path := rest } =
                  some R := by
                unfold stateRem
                show (do
                  let x ← nodeRem t par (b + 1 + 1)
                  let y ← pathRem t rest
                  some (x ++ y)) = some R
                have hx2' : nodeRem t par (b + 1 + 1) = some X2 := hx2
                rw [hx2', hy2]
                show some (X2 ++ Y2) = some R
                rw [h3, hRX]
                rfl
              have hinv2 : IterInv t
                  { it with node := par, next_pos := b + 1 + 1, path := rest } := by
                refine ⟨hopen, fun _ => ⟨np, hnp⟩, fun h0 => absurd h0 hpar0, by
                  show b + 1 + 1 ≤ 257
                  omega, ?_⟩
                intro fr hfr
                exact hpath fr (by rw [hpathc]; simp [hfr])
              have hcost2 : costIter t
                  { it with node := par, next_pos := b + 1 + 1, path := rest } + 1 =
                  costIter t it := by
                unfold costIter
                rw [hp257, hpathc]
                show costNode t par (b + 1 + 1) + costPath t rest + 1 =
                  costNode t it.node 257 + costPath t ((par, b) :: rest)
                show _ = costNode t it.node 257 +
                  (costNode t par (b + 2) + costPath t rest)
                have h257 : costNode t it.node 257 = 1 := by
                  rw [costNode_node hn hfind 257]
                  rw [show (List.range 256).drop (max 257 1 - 1) = [] from by simp]
                  rfl
                rw [h257]
                show costNode t par (b + 2) + costPath t rest + 1 = _
                omega
              obtain ⟨hA, hB⟩ := ih _ R hinv2 hrem2 (by omega)
              refine ⟨?_, ?_⟩
              · intro hR
                obtain ⟨it', h'⟩ := hA hR
                exact ⟨it', by rw [hstep]; exact h'⟩
              · intro k v R' hRe
                obtain ⟨it', h1, h2, h3, h4, h5, h6⟩ := hB k v R' hRe
                exact ⟨it', by rw [hstep]; exact h1, h2, h3, h4, h5, by omega⟩
          · -- live cursor at an allocated node
            by_cases hy : it.next_pos = 0 ∧ n.value.IsValid = true
            · -- the value slot is pending and valid: yield it
              have hstep := next_value_yield f hn hy.1 hfind hopen hy.2
              obtain ⟨K, hk, hX0⟩ : ∃ K,
                  seChildrenWith (seF t seDepth) n (List.range 256) = some K ∧
                  X0 = (n.key.take n.prefix_size, n.value) :: K := by
                rw [nodeRem_node hn hfind it.next_pos,
                  show max it.next_pos 1 - 1 = 0 from by omega,
                  List.drop_zero] at hnr
                rcases hk : seChildrenWith (seF t seDepth) n (List.range 256)
                  with _ | K
                · rw [hk] at hnr
                  exact Option.noConfusion hnr
                · rw [hk] at hnr
                  have hnr2 : some ((if it.next_pos = 0 ∧ n.value.IsValid = true
                      then [(n.key.take n.prefix_size, n.value)] else []) ++ K) =
                      some X0 := hnr
                  rw [if_pos hy] at hnr2
                  injection hnr2 with h2
                  exact ⟨K, rfl, by rw [← h2]; rfl⟩
              have hrem2 : stateRem t { it with next_pos := 1, key := n.key.take n.prefix_size, value := n.value } = some (K ++ Z) := by
                unfold stateRem
                show (do
                  let x ← nodeRem t it.node 1
                  let y ← pathRem t it.path
                  some (x ++ y)) = _
                rw [nodeRem_node hn hfind 1, show max 1 1 - 1 = 0 from rfl,
                  List.drop_zero, hk, hpr]
                simp
              have hinv2 : IterInv t { it with next_pos := 1, key := n.key.take n.prefix_size, value := n.value } := by
                refine ⟨hopen, fun _ => ⟨n, hfind⟩, fun h0 => absurd h0 hn, ?_, ?_⟩
                · show (1 : Nat) ≤ 257
                  omega
                · exact hpath
              have hcost2 : costIter t { it with next_pos := 1, key := n.key.take n.prefix_size, value := n.value } < costIter t it := by
                unfold costIter
                show costNode t it.node 1 + costPath t it.path <
                  costNode t it.node it.next_pos + costPath t it.path
                rw [costNode_node hn hfind 1, costNode_node hn hfind it.next_pos,
                  hy.1, show max 1 1 - 1 = 0 from rfl,
                  show max 0 1 - 1 = 0 from rfl]
                omega
              refine ⟨?_, ?_⟩
              · intro hR
                rw [hRX, hX0] at hR
                exact absurd hR (by simp)
              · intro k v R' hRe
                have hcomb : X0 ++ Z = (k, v) :: R' := hRX.symm.trans hRe
                rw [hX0, List.cons_append] at hcomb
                injection hcomb with ha hb
                injection ha with ha1 ha2
                refine ⟨_, hstep, ?_, ?_, hinv2, ?_, hcost2⟩
                · show n.key.take n.prefix_size = k
                  exact ha1
                · show n.value = v
                  exact ha2
                · rw [hrem2, hb]
            · -- advance the child cursor over slots `p - 1, p, ...`
              have hstep := next_value_open_go f hn hp257 hfind hopen hy
              have hnr' : seChildrenWith (seF t seDepth) n
                  ((List.range 256).drop (max it.next_pos 1 - 1)) = some X0 := by
                rw [nodeRem_node hn hfind it.next_pos] at hnr
                rcases hk : seChildrenWith (seF t seDepth) n
                    ((List.range 256).drop (max it.next_pos 1 - 1)) with _ | K
                · rw [hk] at hnr
                  exact Option.noConfusion hnr
                · rw [hk] at hnr
                  have hnr2 : some ((if it.next_pos = 0 ∧ n.value.IsValid = true
                      then [(n.key.take n.prefix_size, n.value)] else []) ++ K) =
                      some X0 := hnr
                  rw [if_neg hy] at hnr2
                  injection hnr2 with h2
                  rw [← h2]
                  rfl
              have hcs := childScanGo_spec n 258 (max it.next_pos 1)
                (by omega) (by omega) (by omega)
              rcases hcs with ⟨b, hfound, hble, hb256, hcne, hnulls⟩ |
                ⟨hstop, hnulls⟩
              · -- a non-null child at slot `b`: descend into it
                obtain ⟨m, hm, hmps, -, -⟩ := hwf.child_spec hfind hb256 hcne
                have hsplit := @seChildren_drop_split t n b hb256
                  (max it.next_pos 1 - 1) (by omega) hnulls
                rw [hsplit] at hnr'
                rcases hxc : seF t seDepth (n.child b) with _ | Xc
                · rw [hxc] at hnr'
                  exact Option.noConfusion hnr'
                · rw [hxc] at hnr'
                  rcases hyk : seChildrenWith (seF t seDepth) n
                      ((List.range 256).drop (b + 1)) with _ | Y
                  · rw [hyk] at hnr'
                    exact Option.noConfusion hnr'
                  · rw [hyk] at hnr'
                    have hX0 : Xc ++ Y = X0 := by
                      have h2 : some (Xc ++ Y) = some X0 := hnr'
                      injection h2
                    have hstep2 : next_value t it (f + 1) = next_value t { it with path := (it.node, b) :: it.path, node := n.child b, next_pos := 0 } f := by
                      rw [hstep, show childScan n (max it.next_pos 1) 256 =
                        CSRes.found b (n.child b) from hfound]
                    have hnb2 : nodeRem t it.node (b + 2) = some Y := by
                      rw [nodeRem_node hn hfind (b + 2),
                        show max (b + 2) 1 - 1 = b + 1 from by omega, hyk]
                      rw [if_neg (by omega)]
                      rfl
                    have hrem2 : stateRem t { it with path := (it.node, b) :: it.path, node := n.child b, next_pos := 0 } = some R := by
                      unfold stateRem
                      show (do
                        let x ← nodeRem t (n.child b) 0
                        let y ← pathRem t ((it.node, b) :: it.path)
                        some (x ++ y)) = _
                      rw [nodeRem_full hwf (Or.inr ⟨m, hm⟩), hxc, pathRem_cons,
                        hnb2, hpr]
                      simp
                      rw [hRX, ← hX0]
                      simp
                    have hinv2 : IterInv t { it with path := (it.node, b) :: it.path, node := n.child b, next_pos := 0 } := by
                      refine ⟨hopen, fun _ => ⟨m, hm⟩,
                        fun h0 => absurd h0 hcne, by show (0 : Nat) ≤ 257; omega, ?_⟩
                      intro fr hfr
                      rcases List.mem_cons.mp hfr with rfl | hfr2
                      · exact ⟨hb256, n, hfind⟩
                      · exact hpath fr hfr2
                    have hcost2 : costIter t { it with path := (it.node, b) :: it.path, node := n.child b, next_pos := 0 } < costIter t it := by
                      unfold costIter
                      show costNode t (n.child b) 0 +
                        costPath t ((it.node, b) :: it.path) < _
                      show _ < costNode t it.node it.next_pos + costPath t it.path
                      rw [costNode_full hwf (Or.inr ⟨m, hm⟩)]
                      show _ + (costNode t it.node (b + 2) + costPath t it.path) < _
                      rw [costNode_node hn hfind (b + 2),
                        show max (b + 2) 1 - 1 = b + 1 from by omega,
                        costNode_node hn hfind it.next_pos,
                        @costChildren_drop_split t n b hb256
                          (max it.next_pos 1 - 1) (by omega) hnulls]
                      omega
                    obtain ⟨hA, hB⟩ := ih _ R hinv2 hrem2 (by omega)
                    refine ⟨?_, ?_⟩
                    · intro hR
                      obtain ⟨it', h'⟩ := hA hR
                      exact ⟨it', by rw [hstep2]; exact h'⟩
                    · intro k v R' hRe
                      obtain ⟨it', h1, h2, h3, h4, h5, h6⟩ := hB k v R' hRe
                      exact ⟨it', by rw [hstep2]; exact h1, h2, h3, h4, h5,
                        by omega⟩
              · -- no child left: close this node
                have hX0 : X0 = [] := by
                  rw [seChildren_drop_all_null 257 (max it.next_pos 1 - 1)
                    (by omega) hnulls] at hnr'
                  injection hnr' with h2
                  exact h2.symm
                have hstep2 : next_value t it (f + 1) = next_value t { it with next_pos := 257 } f := by
                  rw [hstep, show childScan n (max it.next_pos 1) 256 =
                    CSRes.stop 257 from hstop]
                have hn257 : nodeRem t it.node 257 = some [] := by
                  rw [nodeRem_node hn hfind 257,
                    show (List.range 256).drop (max 257 1 - 1) = [] from by simp,
                    show seChildrenWith (seF t seDepth) n [] = some [] from rfl]
                  rw [if_neg (by omega)]
                  rfl
                have hrem2 : stateRem t { it with next_pos := 257 } = some R := by
                  unfold stateRem
                  show (do
                    let x ← nodeRem t it.node 257
                    let y ← pathRem t it.path
                    some (x ++ y)) = _
                  rw [hn257, hpr]
                  simp
                  rw [hRX, hX0]
                  simp
                have hinv2 : IterInv t { it with next_pos := 257 } := by
                  refine ⟨hopen, fun _ => ⟨n, hfind⟩, fun h0 => absurd h0 hn,
                    by show (257 : Nat) ≤ 257; omega, hpath⟩
                have hcost2 : costIter t { it with next_pos := 257 } <
                    costIter t it := by
                  unfold costIter
                  show costNode t it.node 257 + costPath t it.path <
                    costNode t it.node it.next_pos + costPath t it.path
                  rw [costNode_node hn hfind 257,
                    show (List.range 256).drop (max 257 1 - 1) = [] from by simp,
                    costNode_node hn hfind it.next_pos,
                    costChildren_drop_all_null 257 (max it.next_pos 1 - 1)
                      (by omega) hnulls]
                  show 258 - 257 + costChildrenWith (costF t seDepth) n [] + _ < _
                  show 1 + 0 + _ < _
                  omega
                obtain ⟨hA, hB⟩ := ih _ R hinv2 hrem2 (by omega)
                refine ⟨?_, ?_⟩
                · intro hR
                  obtain ⟨it', h'⟩ := hA hR
                  exact ⟨it', by rw [hstep2]; exact h'⟩
                · intro k v R' hRe
                  obtain ⟨it', h1, h2, h3, h4, h5, h6⟩ := hB k v R' hRe
                  exact ⟨it', by rw [hstep2]; exact h1, h2, h3, h4, h5, by omega⟩

/-- Repeated `get_next` from an invariant state collects exactly the
remaining entries. -/
theorem collect_spec {t : Tree} (hwf : WF t) :
    ∀ (cf : Nat) (it : Iter) (R : List (Key × TagGptr)) (nf : Nat),
    IterInv t it → stateRem t it = some R → costIter t it < nf →
    R.length < cf → collect t it cf nf = .ok R := by
  intro cf
  induction cf with
  | zero =>
    intro it R nf _ _ _ h
    simp at h
  | succ cf ih =>
    intro it R nf hinv hrem hcost hlen
    obtain ⟨hA, hB⟩ := next_value_spec hwf nf it R hinv hrem hcost
    cases R with
    | nil =>
      obtain ⟨it', h'⟩ := hA rfl
      rw [collect, h']
      rfl
    | cons e R' =>
      obtain ⟨k, v⟩ := e
      obtain ⟨it', h1, h2, h3, h4, h5, h6⟩ := hB k v R' rfl
      rw [collect, h1]
      show (do
        let rest ← collect t it' cf nf
        Except.ok ((it'.key, it'.value) :: rest)) = _
      rw [ih it' R' nf h4 h5 (by omega) (by simpa using hlen), h2, h3]
      rfl

/-- `scan` with both boundaries open on a fresh iterator seeds the seek at
the root with both open flags set (the stale-flag begin test passes here
because a fresh iterator's `end_key_inclusive` is `false`). -/
theorem scan_open_eq (t : Tree) (nf : Nat) :
    scan t Iter.empty OPEN_BOUNDARY_KEY false OPEN_BOUNDARY_KEY false nf = (do
      let (it6, found) ← lbGo t { node := t.root, next_pos := 0, path := [], begin_key := [0], begin_key_inclusive := false, begin_key_open := true, end_key := [0], end_key_inclusive := false, end_key_open := true, key := [], value := ⟨0, 0⟩ } nf
      if found then .ok (it6, some (it6.key, it6.value))
      else .ok (it6, none)) := rfl

/-- The first `lower_bound` step with an open begin boundary hands the fresh
root state straight to `next_value`. -/
theorem lbGo_open_root {t : Tree} (hroot : t.root ≠ 0) {rn : Node}
    (hfind : t.find t.root = some rn) (f : Nat) :
    lbGo t { node := t.root, next_pos := 0, path := [], begin_key := [0], begin_key_inclusive := false, begin_key_open := true, end_key := [0], end_key_inclusive := false, end_key_open := true, key := [], value := ⟨0, 0⟩ } (f + 1) =
      next_value t { node := t.root, next_pos := 0, path := [], begin_key := [0], begin_key_inclusive := false, begin_key_open := true, end_key := [0], end_key_inclusive := false, end_key_open := true, key := [], value := ⟨0, 0⟩ } f := by
  rw [lbGo]
  rw [if_neg (show ¬ ({ node := t.root, next_pos := 0, path := [], begin_key := [0], begin_key_inclusive := false, begin_key_open := true, end_key := [0], end_key_inclusive := false, end_key_open := true, key := [], value := ⟨0, 0⟩ } : Iter).node = 0 from hroot)]
  simp [load, hfind]

/-- C5: on every well-formed tree, a `scan` with open begin and end
boundaries (both keys `OPEN_BOUNDARY_KEY`, both inclusive flags false) on a
fresh iterator followed by repeated `get_next` (radix_tree.cc:773-850,
678-771, 499-672, 841-850) succeeds and yields exactly the DFS entry list
`L` of the tree: the pairs `(k, v)` with `get(k) = v` valid, each exactly
once, in strictly ascending unsigned-byte lexicographic key order. -/
theorem C5_open_scan_enumerates {t : Tree} (hwf : WF t)
    {L : List (Key × TagGptr)} (hL : seF t seDepth t.root = some L)
    {cf nf : Nat} (hcf : L.length < cf)
    (hnf : costF t seDepth t.root + 2 ≤ nf) :
    scanAll t cf nf = .ok L ∧
    L.Pairwise (fun a b => keyLtb a.1 b.1 = true) ∧
    (∀ k v, (k, v) ∈ L ↔ (get t k = .ok v ∧ TagGptr.IsValid v = true)) := by
  obtain ⟨rn, hrn, hrp0, hrv0⟩ := hwf.root_spec
  have hroot := hwf.root_ne
  have hinv0 : IterInv t { node := t.root, next_pos := 0, path := [], begin_key := [0], begin_key_inclusive := false, begin_key_open := true, end_key := [0], end_key_inclusive := false, end_key_open := true, key := [], value := ⟨0, 0⟩ } := by
    refine ⟨rfl, fun _ => ⟨rn, hrn⟩, fun h0 => absurd h0 hroot,
      by show (0 : Nat) ≤ 257; omega, ?_⟩
    intro fr hfr
    simp at hfr
  have hrem0 : stateRem t { node := t.root, next_pos := 0, path := [], begin_key := [0], begin_key_inclusive := false, begin_key_open := true, end_key := [0], end_key_inclusive := false, end_key_open := true, key := [], value := ⟨0, 0⟩ } = some L := by
    unfold stateRem
    show (do
      let x ← nodeRem t t.root 0
      let y ← pathRem t []
      some (x ++ y)) = some L
    rw [nodeRem_full hwf (Or.inr ⟨rn, hrn⟩), hL]
    simp [pathRem]
  have hcost0 : costIter t { node := t.root, next_pos := 0, path := [], begin_key := [0], begin_key_inclusive := false, begin_key_open := true, end_key := [0], end_key_inclusive := false, end_key_open := true, key := [], value := ⟨0, 0⟩ } = costF t seDepth t.root := by
    unfold costIter
    show costNode t t.root 0 + costPath t [] = _
    rw [costNode_full hwf (Or.inr ⟨rn, hrn⟩)]
    show _ + 0 = _
    omega
  obtain ⟨nf', rfl⟩ : ∃ nf', nf = nf' + 1 := ⟨nf - 1, by omega⟩
  obtain ⟨hA, hB⟩ := next_value_spec hwf nf' _ L hinv0 hrem0 (by omega)
  have hmem : ∀ k v, (k, v) ∈ L ↔ (get t k = .ok v ∧ TagGptr.IsValid v = true) := by
    intro k v
    constructor
    · intro hkv
      obtain ⟨hvalid, -, hk64, -, hget⟩ :=
        seF_entries_spec hwf seDepth t.root rn L hrn hL k v hkv
      have hkpos : 0 < k.length := by
        by_contra hk0
        have hknil : k = [] := by
          cases k with
          | nil => rfl
          | cons a as => simp at hk0
        subst hknil
        have h1 := hget 1 (by omega)
        rw [getGo_node 0 hroot hrn] at h1
        rw [if_neg ?hc, if_pos (by omega)] at h1
        case hc =>
          simp only [ne_eq, not_not]
          apply (fam_memcmp_eq_zero_iff _ _ _).mpr
          intro j hj
          omega
        injection h1 with h2
        rw [← h2] at hvalid
        rw [show TagGptr.IsValid rn.value = (rn.value.gptr != 0) from rfl] at hvalid
        rw [hrv0] at hvalid
        simp at hvalid
      refine ⟨?_, hvalid⟩
      rw [get, if_pos ⟨hkpos, hk64⟩]
      apply hget
      show k.length + 1 - rn.prefix_size ≤ MAX_KEY_LEN + 2
      omega
    · rintro ⟨hget, hvalid⟩
      have hcond : 0 < k.length ∧ k.length ≤ MAX_KEY_LEN := by
        by_contra hc
        rw [get, if_neg hc] at hget
        simp at hget
      rw [get, if_pos hcond] at hget
      exact getGo_mem_seF hwf stdFuel t.root k v rn seDepth L hget
        (by simpa [TagGptr.IsValid] using hvalid) hrn hL
  refine ⟨?_, seF_sorted hwf seDepth t.root rn L hrn hL, hmem⟩
  cases L with
  | nil =>
    obtain ⟨it', h'⟩ := hA rfl
    unfold scanAll
    rw [scan_open_eq, lbGo_open_root hroot hrn nf', h']
    rfl
  | cons e L' =>
    obtain ⟨k, v⟩ := e
    obtain ⟨it', h1, h2, h3, h4, h5, h6⟩ := hB k v L' rfl
    unfold scanAll
    rw [scan_open_eq, lbGo_open_root hroot hrn nf', h1]
    show (do
      let rest ← collect t it' cf (nf' + 1)
      Except.ok ((it'.key, it'.value) :: rest)) = _
    rw [collect_spec hwf cf it' L' (nf' + 1) h4 h5 (by omega)
      (by have := hcf; simp at this; omega), h2, h3]
    rfl

/-- C5 at a concrete input: a full open-boundary scan of the tree holding
only key `[65, 66]` with value `200`. -/
theorem C5_open_scan_enumerates_witness :
    WF tAB ∧ seF tAB seDepth tAB.root = some [([65, 66], ⟨200, 0⟩)] ∧
      ([([65, 66], (⟨200, 0⟩ : TagGptr))]).length < 2 ∧
      costF tAB seDepth tAB.root + 2 ≤ 600 ∧
      (scanAll tAB 2 600 = .ok [([65, 66], ⟨200, 0⟩)] ∧
        ([([65, 66], (⟨200, 0⟩ : TagGptr))]).Pairwise
          (fun a b => keyLtb a.1 b.1 = true) ∧
        (∀ k v, (k, v) ∈ [([65, 66], (⟨200, 0⟩ : TagGptr))] ↔
          (get tAB k = .ok v ∧ TagGptr.IsValid v = true))) :=
  ⟨by show wf tAB = true; decide, by decide, by decide, by decide,
    C5_open_scan_enumerates (by show wf tAB = true; decide) (by decide)
      (by decide) (by decide)⟩

end FamRadixTree
